import Mathlib

/-!
# minotaur: slicer, code generator and rewrite parser

A shallow embedding of `lib/removal-slice.cpp` (`RemovalSlice::extractExpr`),
`include/IR.h`, `lib/LLVMGen.cpp` (`LLVMGen::codeGen`), `include/type.h` and
`lib/parse.cpp` (the tokenizer and `Parser`), with the host IR objects they
touch modelled as plain data.

Host objects (`llvm::Value*`) are identified by the function that owns them
(`FuncRef`), a local identity and their type; a pointer comparison in the
source is an equality test on `Value` here. What the source takes from its
environment is a parameter of the model: the loop analysis, the host
verifier, the configured `slicer_max_depth`, the folder of the builder that
`codeGen` inserts instructions with, the symbol table in which the parser
resolves names, and, for statements about execution, the meaning of the
host operators, the results of instructions with side effects and the
successors of terminators other than `ret`, `br`, `switch` and
`unreachable`. The lexer is not part of the
sources: the parser is given the sequence of tokens the lexer delivers, and
a parser function is a function from the state before a call to what the
call ends in.

Contents: the host IR data model; `extractExpr` step by step; a reference
semantics of host functions; the expression IR and `codeGen`; the rewrite
language, the tokenizer and the productions of the parser; example inputs;
then the theorems: closed forms of the deletion loops and of the built
function, invariants of the worklist loop, soundness of complete slices, the
contract of the slicer and of the code generator claim by claim, the
contract of the tokenizer and of the parser with the lemmas on its arena
and on the bound of its nesting depth, the contract of the expression IR
and of the type factories, the deletion step, termination of the worklist
loop and the characterisation of the candidate set by operand chains,
one-token lookahead as a refinement of reading without lookahead, the
parentheses of a production, the unused type annotation of a variable, and
the text that follows the first expression.
-/

namespace minotaur

/-! ## Host IR data model -/

/-- Host types (`llvm::Type`), by type id. `struct` carries the identity of
the struct type, `array` and `vector` their length and element type. -/
inductive Ty where
  | void
  | label
  | metadata
  | token
  | integer (bits : Nat)
  | half
  | bfloat
  | float
  | double
  | x86_fp80
  | fp128
  | ppc_fp128
  | pointer (addrSpace : Nat)
  | struct (id : Nat)
  | array (n : Nat) (elt : Ty)
  | vector (n : Nat) (elt : Ty)
  deriving DecidableEq

namespace Ty

/-- The host predicate `Type::isStructTy`. -/
def isStructTy : Ty → Bool
  | .struct _ => true
  | _ => false

/-- The host predicate `Type::isArrayTy`. -/
def isArrayTy : Ty → Bool
  | .array _ _ => true
  | _ => false

/-- The host predicate `Type::isPointerTy`: true for the pointer type itself only, not for a
vector of pointers. -/
def isPointerTy : Ty → Bool
  | .pointer _ => true
  | _ => false

/-- The host predicate `Type::isFloatingPointTy`: one of the seven scalar floating-point type
ids; false for a vector of floating-point elements. -/
def isFloatingPointTy : Ty → Bool
  | .half | .bfloat | .float | .double | .x86_fp80 | .fp128 | .ppc_fp128 => true
  | _ => false

/-- The host predicate `Type::isAggregateType`: struct or array. -/
def isAggregateType (t : Ty) : Bool :=
  t.isStructTy || t.isArrayTy

end Ty

/-- Which function owns a host object: `VF` is the enclosing function handed
to the slicer, `F` the new function (the one `extractExpr` creates, or the
one the builder of the code generator inserts into). -/
inductive FuncRef where
  | VF
  | F
  deriving DecidableEq

/-- A host value (`llvm::Value`). Instructions, arguments and blocks are
owned by a function; every value has a type (`getType`). -/
inductive Value where
  | instruction (parent : FuncRef) (id : Nat) (ty : Ty)
  | argument (parent : FuncRef) (idx : Nat) (ty : Ty)
  | basicBlock (parent : FuncRef) (id : Nat)
  | constantExpr (id : Nat) (ty : Ty)
  | constantInt (ty : Ty) (val : Int)
  | globalValue (name : String) (ty : Ty)
  | poison (ty : Ty)
  deriving DecidableEq

namespace Value

/-- The type of a value, `Value::getType`. -/
def getType : Value → Ty
  | .instruction _ _ ty => ty
  | .argument _ _ ty => ty
  | .basicBlock _ _ => .label
  | .constantExpr _ ty => ty
  | .constantInt ty _ => ty
  | .globalValue _ ty => ty
  | .poison ty => ty

/-- The test `isa<Instruction>`. -/
def isInstruction : Value → Bool
  | .instruction _ _ _ => true
  | _ => false

/-- The test `isa<ConstantExpr>`. -/
def isConstantExpr : Value → Bool
  | .constantExpr _ _ => true
  | _ => false

end Value

/-- Instruction opcodes of the host IR. -/
inductive Opcode where
  | ret | br | switch | indirectbr | invoke | resume | unreachable
  | cleanupret | catchret | catchswitch | callbr
  | fneg | add | fadd | sub | fsub | mul | fmul | udiv | sdiv | fdiv
  | urem | srem | frem | shl | lshr | ashr | and | or | xor
  | alloca | load | store | getelementptr | fence | cmpxchg | atomicrmw
  | trunc | zext | sext | fptoui | fptosi | uitofp | sitofp | fptrunc | fpext
  | ptrtoint | inttoptr | bitcast | addrspacecast
  | cleanuppad | catchpad | icmp | fcmp | phi | call | select | va_arg
  | extractelement | insertelement | shufflevector | extractvalue | insertvalue
  | landingpad | freeze
  deriving DecidableEq

namespace Opcode

/-- The host predicate `Instruction::isTerminator`. -/
def isTerminator : Opcode → Bool
  | .ret | .br | .switch | .indirectbr | .invoke | .resume | .unreachable
  | .cleanupret | .catchret | .catchswitch | .callbr => true
  | _ => false

end Opcode

/-- A host instruction. `operands` is the operand list in host order
(`getOperand(i)`): for a call the arguments come first and the callee last;
for a conditional branch the condition, the false and the true destination;
for a switch the condition, the default destination and then the case
value / destination pairs. The incoming blocks of a phi are not operands and
are kept in `incoming`. `data` stands for what else determines the operation
(comparison predicate, flags, indices). -/
structure Instruction where
  id : Nat
  opcode : Opcode
  ty : Ty
  operands : List Value
  incoming : List Nat := []
  name : String := ""
  data : List Nat := []
  deriving DecidableEq

namespace Instruction

/-- The instruction seen as a value of the function `p` that owns it. -/
def asValue (p : FuncRef) (I : Instruction) : Value :=
  .instruction p I.id I.ty

end Instruction

/-- A basic block: its identity and its instructions in program order. -/
structure BasicBlock where
  id : Nat
  insts : List Instruction
  deriving DecidableEq

namespace BasicBlock

/-- The accessor `BasicBlock::getTerminator`: the last instruction if it is a terminator,
null otherwise. -/
def getTerminator (BB : BasicBlock) : Option Instruction :=
  match BB.insts.getLast? with
  | some T => if T.opcode.isTerminator then some T else none
  | none => none

end BasicBlock

/-- A formal parameter (`llvm::Argument`): its type and name. -/
structure Argument where
  ty : Ty
  name : String
  deriving DecidableEq

/-- A host function. -/
structure Function where
  name : String
  retTy : Ty
  args : List Argument
  blocks : List BasicBlock
  deriving DecidableEq

namespace Function

/-- All instructions of the function, block after block. -/
def instructions (Fn : Function) : List Instruction :=
  Fn.blocks.flatMap (fun BB => BB.insts)

/-- The instruction object of `Fn` (owned by `p`) that the value `W` is, if
any: the model of `dyn_cast<Instruction>(W)` followed by an access to the
instruction. -/
def resolve (Fn : Function) (p : FuncRef) (W : Value) : Option Instruction :=
  Fn.instructions.find? (fun I => I.asValue p == W)

/-- The accessor `Instruction::getParent` for the instruction `W` of `Fn`. -/
def getParent (Fn : Function) (p : FuncRef) (W : Value) : Option BasicBlock :=
  Fn.blocks.find? (fun BB => BB.insts.any (fun I => I.asValue p == W))

/-- An instruction identity not used in `Fn`. -/
def freshId (Fn : Function) : Nat :=
  (Fn.instructions.map (fun I => I.id)).foldl max 0 + 1

end Function

/-- A loop of the host loop analysis, as far as the slicer looks at it. -/
structure Loop where
  header : Nat
  isLoopSimplifyForm : Bool
  deriving DecidableEq

/-- The host loop analysis (`llvm::LoopInfo`): the innermost loop of each
block that lies in a loop. -/
structure LoopInfo where
  loops : List (Nat × Loop)
  deriving DecidableEq

namespace LoopInfo

/-- The query `LoopInfo::getLoopFor`. -/
def getLoopFor (LI : LoopInfo) (bb : Nat) : Option Loop :=
  (LI.loops.find? (fun e => e.1 == bb)).map (fun e => e.2)

end LoopInfo

/-! ## The slicer: `RemovalSlice::extractExpr` -/

/-- The instruction-to-original map kept by the slicer (`this->mapping`):
keys are objects of the new function, values the objects they came from. -/
abbrev Mapping := List (Value × Value)

namespace Mapping

/-- The assignment `mapping[k] = v`. -/
def set (m : Mapping) (k v : Value) : Mapping :=
  (k, v) :: m.filter (fun e => e.1 != k)

/-- The lookup of `k`. -/
def get? (m : Mapping) (k : Value) : Option Value :=
  (m.find? (fun e => e.1 == k)).map (fun e => e.2)

end Mapping

/-- What a call of `extractExpr` ends in: `nullopt` (ineligible), a
fragment together with the updated `mapping`, the fatal error of
`report_fatal_error`, or undefined behaviour of the source (a precondition
of a host accessor is violated: the root is not an instruction of the
enclosing function, or a block has no terminator). -/
inductive Outcome where
  | nullopt
  | fragment (F : Function) (mapping : Mapping)
  | fatal (msg : String)
  | undefined
  deriving DecidableEq

/-- The operand scan of the worklist loop (the `for` over `op_i`), started
at operand index `op_i`: true when the scan sets `haveUnknownOperand`.
Operand 0 of a call instruction is skipped. -/
def haveUnknownOperandFrom (isCall : Bool) : Nat → List Value → Bool
  | _, [] => false
  | op_i, op :: rest =>
    if isCall && op_i == 0 then haveUnknownOperandFrom isCall (op_i + 1) rest
    else if op.isConstantExpr then true
    else if op.getType.isStructTy || op.getType.isFloatingPointTy
        || op.getType.isPointerTy then true
    else haveUnknownOperandFrom isCall (op_i + 1) rest

/-- The value of `haveUnknownOperand` after the operand scan of `I`. -/
def haveUnknownOperand (I : Instruction) : Bool :=
  haveUnknownOperandFrom (I.opcode == .call) 0 I.operands

/-- The entries pushed for a newly inserted candidate `I` popped at `Depth`:
each instruction-valued operand with `Depth + 1`. -/
def pushOperands (I : Instruction) (Depth : Nat) : List (Value × Nat) :=
  (I.operands.filter Value.isInstruction).map (fun Op => (Op, Depth + 1))

/-- Initial population of the worklist and of `NonBranchingBBs` over the
blocks `BBs` (the `for (auto &BB : VF)` loop); `vbb` is the root's block.
`none` when a block other than `vbb` has no terminator (`isa` applied to
null). -/
def seed (vbb : Nat) : List BasicBlock → Option (List (Value × Nat) × List Nat)
  | [] => some ([], [])
  | BB :: rest =>
    if BB.id == vbb then seed vbb rest
    else
      match BB.getTerminator with
      | none => none
      | some T =>
        match seed vbb rest with
        | none => none
        | some (Worklist, NonBranchingBBs) =>
          if T.opcode == .br || T.opcode == .switch then
            some ((T.asValue .VF, 0) :: Worklist, NonBranchingBBs)
          else if NonBranchingBBs.contains BB.id then
            some (Worklist, NonBranchingBBs)
          else some (Worklist, BB.id :: NonBranchingBBs)

/-- The worklist loop (`while (!Worklist.empty())`), one pop per unit of
`fuel`. The worklist is a FIFO queue with its front at the head of the list;
`Candidates` is kept in insertion order. The popped pair is read as it was at
the front of the queue. A value that is not an instruction of `VF` is
dropped. -/
def harvest (slicer_max_depth : Nat) (VF : Function) :
    Nat → List (Value × Nat) → List Value → List Value
  | 0, _, Candidates => Candidates
  | _ + 1, [], Candidates => Candidates
  | fuel + 1, (W, Depth) :: Worklist, Candidates =>
    if Depth > slicer_max_depth then
      harvest slicer_max_depth VF fuel Worklist Candidates
    else
      match VF.resolve .VF W with
      | none => harvest slicer_max_depth VF fuel Worklist Candidates
      | some I =>
        if haveUnknownOperand I then
          harvest slicer_max_depth VF fuel Worklist Candidates
        else if Candidates.contains W then
          harvest slicer_max_depth VF fuel Worklist Candidates
        else
          harvest slicer_max_depth VF fuel (Worklist ++ pushOperands I Depth)
            (Candidates ++ [W])

/-- A number of pops after which the worklist of `VF` started from
`Worklist` is empty: every initial entry is popped once, and an instruction
pushes its operands at most once, when it enters the candidate set. -/
def harvestFuel (VF : Function) (Worklist : List (Value × Nat)) : Nat :=
  Worklist.length + (VF.instructions.map (fun I => I.operands.length)).sum + 1

/-- The candidate set computed for the root `V` of block `vbb` from the
seeded worklist. -/
def candidates (slicer_max_depth : Nat) (VF : Function) (V : Value)
    (Worklist : List (Value × Nat)) : List Value :=
  harvest slicer_max_depth VF (harvestFuel VF ((V, 0) :: Worklist))
    ((V, 0) :: Worklist) []

/-- The value map after `CloneFunctionInto`: arguments, blocks and
instructions of `VF` go to their counterparts in `F`; a value that is not in
the map (a constant, a global) is left as it is when operands are remapped. -/
def VMap : Value → Value
  | .instruction .VF id ty => .instruction .F id ty
  | .argument .VF idx ty => .argument .F idx ty
  | .basicBlock .VF id => .basicBlock .F id
  | v => v

/-- The clone of one instruction: operands remapped through `VMap`. -/
def cloneInstruction (I : Instruction) : Instruction :=
  { I with operands := I.operands.map VMap }

/-- The blocks `CloneFunctionInto` appends to the new function. -/
def cloneBlocks (VF : Function) : List BasicBlock :=
  VF.blocks.map (fun BB => { BB with insts := BB.insts.map cloneInstruction })

/-- The argument loop: `mapping[TgtArgI] = I` for the arguments from index
`i` on. -/
def mapArguments : List Argument → Nat → Mapping → Mapping
  | [], _, m => m
  | A :: rest, i, m =>
    mapArguments rest (i + 1) (m.set (.argument .F i A.ty) (.argument .VF i A.ty))

/-- The call `ReturnInst::Create(Ctx, NewV, NewV->getNextNode())` on one block: the
return is inserted right after `NewV`; when `NewV` is the last instruction
of its block the insertion point is null and the return stays outside of
every block. -/
def insertRet (NewV : Value) (Ret : Instruction) : List Instruction → List Instruction
  | [] => []
  | I :: rest =>
    if I.asValue .F == NewV then
      match rest with
      | [] => [I]
      | _ :: _ => I :: Ret :: rest
    else I :: insertRet NewV Ret rest

/-- The host operation `replaceAllUsesWith` for an instruction of `Fn`: every operand that is
`old` becomes `new`. -/
def replaceAllUsesWith (Fn : Function) (old new : Value) : Function :=
  { Fn with blocks := Fn.blocks.map (fun BB =>
      { BB with insts := BB.insts.map (fun I =>
          { I with operands := I.operands.map (fun op => if op == old then new else op) }) }) }

/-- The host operation `eraseFromParent` for the instruction `RI` of `Fn`. -/
def eraseFromParent (Fn : Function) (RI : Value) : Function :=
  { Fn with blocks := Fn.blocks.map (fun BB =>
      { BB with insts := BB.insts.filter (fun I => I.asValue .F != RI) }) }

/-- One iteration of the inner deletion loop for the instruction whose
value is `RI`. -/
def eraseStep (ClonedCandidates : List Value) (Fn : Function) (RI : Value) : Function :=
  if ClonedCandidates.contains RI then Fn
  else eraseFromParent (replaceAllUsesWith Fn RI (.poison RI.getType)) RI

/-- The instructions the deletion loops visit, in visiting order: block by
block, each block from its last instruction to its first. -/
def deletionOrder (Fn : Function) : List Value :=
  Fn.blocks.flatMap (fun BB => (BB.insts.reverse).map (Instruction.asValue .F))

/-- The deletion loops (`for (auto &BB : *F)` with the inner `while (RI)`). -/
def deleteNonCandidates (ClonedCandidates : List Value) (Fn : Function) : Function :=
  (deletionOrder Fn).foldl (eraseStep ClonedCandidates) Fn

/-- The statement `new UnreachableInst(Ctx, BB)`: an unreachable appended to the block
`bb`. -/
def appendUnreachable (Fn : Function) (bb : Nat) (id : Nat) : Function :=
  { Fn with blocks := Fn.blocks.map (fun BB =>
      if BB.id == bb then
        { BB with insts := BB.insts ++
            [{ id := id, opcode := .unreachable, ty := .void, operands := [] }] }
      else BB) }

/-- The loop over `NonBranchingBBs`; `id` is the identity given to the next
new instruction. -/
def handleNonBranching : Function → List Nat → Nat → Function
  | Fn, [], _ => Fn
  | Fn, bb :: rest, id => handleNonBranching (appendUnreachable Fn bb id) rest (id + 1)

/-- The inserted return instruction for the root `V` of `VF`. -/
def retInst (VF : Function) (V : Value) : Instruction :=
  { id := VF.freshId, opcode := .ret, ty := .void, operands := [VMap V] }

/-- The set `ClonedCandidates`: the remapped candidates and the inserted
return. -/
def clonedCandidates (VF : Function) (V : Value) (Candidates : List Value) : List Value :=
  Candidates.map VMap ++ [(retInst VF V).asValue .F]

/-- The new function right after cloning and the insertion of the return
(the function printed "before instruction deletion"). -/
def clonedFunction (VF : Function) (V : Value) : Function :=
  { name := "foo"
    retTy := V.getType
    args := VF.args
    blocks := (cloneBlocks VF).map (fun BB =>
      { BB with insts := insertRet (VMap V) (retInst VF V) BB.insts }) }

/-- The function handed to the verifier: cloned, return inserted,
non-candidates deleted, non-branching blocks given an unreachable. -/
def builtFunction (VF : Function) (V : Value) (Candidates : List Value)
    (NonBranchingBBs : List Nat) : Function :=
  handleNonBranching
    (deleteNonCandidates (clonedCandidates VF V Candidates) (clonedFunction VF V))
    NonBranchingBBs (VF.freshId + 1)

/-- The `mapping` member after the call: arguments first, then
`mapping[VMap[C]] = C` for every candidate. -/
def builtMapping (VF : Function) (Candidates : List Value) (mapping : Mapping) : Mapping :=
  Candidates.foldl (fun m C => m.set (VMap C) C) (mapArguments VF.args 0 mapping)

/-- The loop guard: the root's block lies in a loop (`getLoopFor` is not
null) and that loop is not in simplified form. -/
def loopNotSimplified (LI : LoopInfo) (vbb : Nat) : Bool :=
  match LI.getLoopFor vbb with
  | some loopv => !loopv.isLoopSimplifyForm
  | none => false

/-- The slicer `RemovalSlice::extractExpr(V)` for the enclosing function `VF`, the loop
analysis `LI`, the configured `slicer_max_depth`, the host verifier
`verifyFunction` (true when the function is ill-formed) and the `mapping`
member as it is before the call. -/
def extractExpr (slicer_max_depth : Nat) (LI : LoopInfo)
    (verifyFunction : Function → Bool) (VF : Function) (mapping : Mapping)
    (V : Value) : Outcome :=
  match VF.getParent .VF V with
  | none => .undefined
  | some vbb =>
    if loopNotSimplified LI vbb.id then .nullopt
    else
      match seed vbb.id VF.blocks with
      | none => .undefined
      | some (Worklist, NonBranchingBBs) =>
        if verifyFunction
            (builtFunction VF V (candidates slicer_max_depth VF V Worklist) NonBranchingBBs)
        then .fatal "illformed function generated"
        else .fragment
          (builtFunction VF V (candidates slicer_max_depth VF V Worklist) NonBranchingBBs)
          (builtMapping VF (candidates slicer_max_depth VF V Worklist) mapping)

/-- The block-structure rules of the host verifier: true (ill-formed) when
some block is empty, does not end with a terminator, or has a terminator
before its last instruction. -/
def blockStructureIllFormed (Fn : Function) : Bool :=
  Fn.blocks.any (fun BB =>
    match BB.insts.reverse with
    | [] => true
    | T :: rest => !T.opcode.isTerminator || rest.any (fun I => I.opcode.isTerminator))

/-- The operand left after the deletion loops: an operand that was one of
the erased instructions `dead` has become poison of its type. -/
def poisonDead (dead : List Value) (op : Value) : Value :=
  if dead.contains op then .poison op.getType else op

/-- Closed form of the deletion loops: the instructions in `dead` are gone
and their uses are poison. -/
def pruned (dead : List Value) (Fn : Function) : Function :=
  { Fn with blocks := Fn.blocks.map (fun BB =>
      { BB with
        insts := (BB.insts.filter (fun I => !(dead.contains (I.asValue .F)))).map
          (fun I => { I with operands := I.operands.map (poisonDead dead) }) }) }

/-- The instructions erased when the deletion loops have visited `order`,
added to `dead`. -/
def erased (ClonedCandidates : List Value) (order dead : List Value) : List Value :=
  order.foldl (fun d RI => if ClonedCandidates.contains RI then d else RI :: d) dead

/-- In `Chain VF s k W` the value `W` is reached from `s` by a chain of `k`
operand hops, each from an instruction of `VF` to one of its
instruction-valued operands. -/
inductive Chain (VF : Function) (s : Value) : Nat → Value → Prop where
  | start : Chain VF s 0 s
  | hop {k : Nat} {W Op : Value} {I : Instruction} :
      Chain VF s k W → VF.resolve .VF W = some I → Op ∈ I.operands →
      Op.isInstruction = true → Chain VF s (k + 1) Op

/-- The accessor `Instruction::getNextNode` for the instruction `V` of `Fn`: the
instruction that follows it in its block, null when it is the last one. -/
def Function.getNextNode (Fn : Function) (p : FuncRef) (V : Value) : Option Instruction :=
  match Fn.getParent p V with
  | none => none
  | some BB =>
    match BB.insts.dropWhile (fun I => I.asValue p != V) with
    | _ :: next :: _ => some next
    | _ => none

/-- Closed form of the loop over `NonBranchingBBs` on one block. -/
def appendUnreachables : List Nat → Nat → BasicBlock → BasicBlock
  | [], _, BB => BB
  | bb :: rest, id, BB =>
    appendUnreachables rest (id + 1)
      (if BB.id == bb then
        { BB with insts := BB.insts ++
            [{ id := id, opcode := .unreachable, ty := .void, operands := [] }] }
      else BB)

/-- The instructions erased by the deletion loops of a call of `extractExpr`
with candidate set `Candidates`. -/
def deadInsts (VF : Function) (V : Value) (Candidates : List Value) : List Value :=
  erased (clonedCandidates VF V Candidates) (deletionOrder (clonedFunction VF V)) []

/-- Closed form of what `extractExpr` makes of the block `BB` of the
enclosing function. -/
def sliceBlock (VF : Function) (V : Value) (Candidates : List Value)
    (NonBranchingBBs : List Nat) (BB : BasicBlock) : BasicBlock :=
  appendUnreachables NonBranchingBBs (VF.freshId + 1)
    { id := BB.id
      insts := ((insertRet (VMap V) (retInst VF V) (BB.insts.map cloneInstruction)).filter
        (fun I => (clonedCandidates VF V Candidates).contains (I.asValue .F))).map
          (fun I => { I with
            operands := I.operands.map (poisonDead (deadInsts VF V Candidates)) }) }

/-! ## Execution of host functions

A reference semantics of host functions. Register computation, phis,
branches, switches and returns are executed; the meaning of the
side-effect-free operators is a parameter, every other instruction (memory
access, call, ...) takes its result from an oracle, and every other
terminator (`indirectbr`, `invoke`, `callbr`, ...) passes control to the
successor that a parameter picks, so that nothing is assumed about them. -/

/-- A run-time value: an integer, or poison (`none`). -/
abbrev RVal := Option Int

/-- The registers (one per instruction, named by identity and type) and the
number of oracle results consumed so far. -/
structure ExecState where
  env : Nat → Ty → RVal
  tick : Nat

/-- The state after the instruction `id` of type `ty` got the value `v`. -/
def ExecState.set (st : ExecState) (id : Nat) (ty : Ty) (v : RVal) : ExecState :=
  { st with env := fun id' ty' => if id' = id ∧ ty' = ty then v else st.env id' ty' }

/-- The number of operands of the instructions of `l` that are not yet in
the candidate set `C`: a bound on the entries the worklist loop can still
push. -/
def pendingOperands (C : List Value) (l : List Instruction) : Nat :=
  ((l.filter (fun I => !(C.contains (I.asValue .VF)))).map (fun I => I.operands.length)).sum

/-! ## Expression IR (`include/IR.h`) -/

/-- The operators `UnaryInst::Op`. -/
inductive UnaryInst.Op where
  | copy
  deriving DecidableEq

/-- The operators `BinaryInst::Op`. -/
inductive BinaryInst.Op where
  | band | bor | bxor | add | sub | mul | sdiv | udiv | lshr | ashr | shl
  deriving DecidableEq

/-- The conditions `ICmpInst::Cond`. -/
inductive ICmpInst.Cond where
  | eq | ne | ult | ule | slt | sle
  deriving DecidableEq

/-- The predicate `BinaryInst::isCommutative`. -/
def BinaryInst.isCommutative (k : BinaryInst.Op) : Bool :=
  k == .band || k == .bor || k == .bxor || k == .add || k == .mul

/-- The number of entries of the `IntrinsicIDs` table
(`X86IntrinBinOp::numOfX86Intrinsics`; the enumeration itself is declared in
a header that is not part of the sources). -/
def X86IntrinBinOp.numOfX86Intrinsics : Nat := 128

/-- The operators `X86IntrinBinOp::Op`, by ordinal. -/
abbrev X86IntrinBinOp.Op := Fin X86IntrinBinOp.numOfX86Intrinsics

/-- The expression nodes (`Inst` and its subclasses). A node refers to its
operands directly, so a node shared by two parents appears under both.
`ReservedConst.A` is the placeholder argument of the hole (`getA`), null
until `setA` is called. -/
inductive Inst where
  | Var (v : Value)
  | Ptr (v : Value)
  | ReservedConst (type : Ty) (A : Option Value)
  | UnaryInst (op : UnaryInst.Op) (op0 : Inst)
  | BinaryInst (op : BinaryInst.Op) (lhs rhs : Inst)
  | ICmpInst (cond : ICmpInst.Cond) (lhs rhs : Inst)
  | BitCastInst (i : Inst) (lanes_from width_from lanes_to width_to : Nat)
  | SIMDBinOpInst (op : X86IntrinBinOp.Op) (lhs rhs : Inst)
  | ShuffleVectorInst (lhs rhs mask : Inst)
  deriving DecidableEq

/-! ## The code generator: `LLVMGen::codeGen` -/

/-- The `IntrinsicIDs` table, entry by entry, each host intrinsic by its
name in `llvm::Intrinsic`. -/
def IntrinsicIDs : List String :=
  ["x86_sse2_pavg_w", "x86_sse2_pavg_b", "x86_avx2_pavg_w", "x86_avx2_pavg_b",
   "x86_avx512_pavg_w_512", "x86_avx512_pavg_b_512", "x86_avx2_pshuf_b",
   "x86_ssse3_pshuf_b_128", "x86_mmx_padd_b", "x86_mmx_padd_w", "x86_mmx_padd_d",
   "x86_mmx_punpckhbw", "x86_mmx_punpckhwd", "x86_mmx_punpckhdq", "x86_mmx_punpcklbw",
   "x86_mmx_punpcklwd", "x86_mmx_punpckldq", "x86_sse2_psrl_w", "x86_sse2_psrl_d",
   "x86_sse2_psrl_q", "x86_avx2_psrl_w", "x86_avx2_psrl_d", "x86_avx2_psrl_q",
   "x86_avx512_psrl_w_512", "x86_avx512_psrl_d_512", "x86_avx512_psrl_q_512",
   "x86_sse2_psrli_w", "x86_sse2_psrli_d", "x86_sse2_psrli_q", "x86_avx2_psrli_w",
   "x86_avx2_psrli_d", "x86_avx2_psrli_q", "x86_avx512_psrli_w_512", "x86_avx512_psrli_d_512",
   "x86_avx512_psrli_q_512", "x86_avx2_psrlv_d", "x86_avx2_psrlv_d_256", "x86_avx2_psrlv_q",
   "x86_avx2_psrlv_q_256", "x86_avx512_psrlv_d_512", "x86_avx512_psrlv_q_512",
   "x86_avx512_psrlv_w_128", "x86_avx512_psrlv_w_256", "x86_avx512_psrlv_w_512",
   "x86_sse2_psra_w", "x86_sse2_psra_d", "x86_avx2_psra_w", "x86_avx2_psra_d",
   "x86_avx512_psra_q_128", "x86_avx512_psra_q_256", "x86_avx512_psra_w_512",
   "x86_avx512_psra_d_512", "x86_avx512_psra_q_512", "x86_sse2_psrai_w", "x86_sse2_psrai_d",
   "x86_avx2_psrai_w", "x86_avx2_psrai_d", "x86_avx512_psrai_w_512", "x86_avx512_psrai_d_512",
   "x86_avx512_psrai_q_128", "x86_avx512_psrai_q_256", "x86_avx512_psrai_q_512",
   "x86_avx2_psrav_d", "x86_avx2_psrav_d_256", "x86_avx512_psrav_d_512",
   "x86_avx512_psrav_q_128", "x86_avx512_psrav_q_256", "x86_avx512_psrav_q_512",
   "x86_avx512_psrav_w_128", "x86_avx512_psrav_w_256", "x86_avx512_psrav_w_512",
   "x86_sse2_psll_w", "x86_sse2_psll_d", "x86_sse2_psll_q", "x86_avx2_psll_w",
   "x86_avx2_psll_d", "x86_avx2_psll_q", "x86_avx512_psll_w_512", "x86_avx512_psll_d_512",
   "x86_avx512_psll_q_512", "x86_sse2_pslli_w", "x86_sse2_pslli_d", "x86_sse2_pslli_q",
   "x86_avx2_pslli_w", "x86_avx2_pslli_d", "x86_avx2_pslli_q", "x86_avx512_pslli_w_512",
   "x86_avx512_pslli_d_512", "x86_avx512_pslli_q_512", "x86_avx2_psllv_d",
   "x86_avx2_psllv_d_256", "x86_avx2_psllv_q", "x86_avx2_psllv_q_256",
   "x86_avx512_psllv_d_512", "x86_avx512_psllv_q_512", "x86_avx512_psllv_w_128",
   "x86_avx512_psllv_w_256", "x86_avx512_psllv_w_256", "x86_ssse3_psign_b_128",
   "x86_ssse3_psign_w_128", "x86_ssse3_psign_d_128", "x86_avx2_psign_b", "x86_avx2_psign_w",
   "x86_avx2_psign_d", "x86_ssse3_phadd_w_128", "x86_ssse3_phadd_d_128",
   "x86_ssse3_phadd_sw_128", "x86_avx2_phadd_w", "x86_avx2_phadd_d", "x86_avx2_phadd_sw",
   "x86_ssse3_phsub_w_128", "x86_ssse3_phsub_d_128", "x86_ssse3_phsub_sw_128",
   "x86_avx2_phsub_w", "x86_avx2_phsub_d", "x86_avx2_phsub_sw", "x86_sse2_pmulh_w",
   "x86_avx2_pmulh_w", "x86_avx512_pmulh_w_512", "x86_sse2_pmulhu_w", "x86_avx2_pmulhu_w",
   "x86_avx512_pmulhu_w_512", "x86_sse2_pmadd_wd", "x86_avx2_pmadd_wd",
   "x86_avx512_pmaddw_d_512", "x86_ssse3_pmadd_ub_sw_128", "x86_avx2_pmadd_ub_sw",
   "x86_avx512_pmaddubs_w_512"]

/-- The lookup `getIntrinsicID`: the table entry at the ordinal of `op`. -/
def getIntrinsicID (op : X86IntrinBinOp.Op) : String :=
  IntrinsicIDs.getD op.val ""

/-- A map with the `operator[]` of the host maps (`ValueToValueMapTy`,
`std::unordered_map`): keys to nullable pointers. -/
abbrev PtrMap (K : Type) := List (K × Option Value)

/-- The entry of `k`, null when there is none. -/
def PtrMap.entry {K : Type} [DecidableEq K] (m : PtrMap K) (k : K) : Option Value :=
  (m.find? (fun e => e.1 == k)).bind (fun e => e.2)

/-- The access `m[k]`: the entry of `k`; a missing key is inserted with a null entry. -/
def PtrMap.index {K : Type} [DecidableEq K] (m : PtrMap K) (k : K) :
    Option Value × PtrMap K :=
  match m.find? (fun e => e.1 == k) with
  | some e => (e.2, m)
  | none => (none, m ++ [(k, none)])

/-- What `codeGen` reads and writes besides its node: the value map `VMap`,
the constant map `constMap` (null when `none`), the instructions inserted
at the builder's insertion point so far (`emitted`, oldest first), the
identity of the next new instruction, and the set `IntrinsicDecls`. -/
structure GenState where
  VMap : PtrMap Value
  constMap : Option (PtrMap (Option Value))
  emitted : List Instruction
  nextId : Nat
  IntrinsicDecls : List String
  deriving DecidableEq

/-- What a call of `codeGen` ends in: a returned (nullable) host value and
the state after the call, the fatal error of `report_fatal_error`, or
undefined behaviour of the source (a null operand handed to the builder). -/
inductive GenResult where
  | ok (v : Option Value) (st : GenState)
  | fatal (msg : String)
  | undefined
  deriving DecidableEq

/-- The host opcode and the name given to the instruction created for a
`BinaryInst` operator (the `switch (B->K())`). -/
def binaryOpcode : BinaryInst.Op → Opcode × String
  | .band => (.and, "and")
  | .bor => (.or, "or")
  | .bxor => (.xor, "xor")
  | .add => (.add, "add")
  | .sub => (.sub, "sub")
  | .mul => (.mul, "mul")
  | .sdiv => (.sdiv, "sdiv")
  | .udiv => (.udiv, "udiv")
  | .lshr => (.lshr, "lshr")
  | .ashr => (.ashr, "ashr")
  | .shl => (.shl, "shl")

/-- Insertion of one new instruction at the builder's insertion point, as
`CallInst::Create` with an insertion position does it, and as a `Create`
call of the builder does it when nothing is folded; the instruction is
returned as a value. -/
def insertInst (st : GenState) (opcode : Opcode) (ty : Ty) (operands : List Value)
    (name : String) : GenResult :=
  .ok (some (.instruction .F st.nextId ty))
    { st with
      emitted := st.emitted ++
        [{ id := st.nextId, opcode := opcode, ty := ty, operands := operands, name := name }]
      nextId := st.nextId + 1 }

/-- The folder of the builder `b`. The member `b` is declared in `LLVMGen.h`,
which is not part of the sources, so the folder of the builder (the
template argument of `llvm::IRBuilder`) is a parameter: with `emitted` the
instructions inserted so far, `b emitted opcode v0 v1` is the value that a
`Create` call for the binary operator `opcode` on `v0` and `v1` returns
without inserting an instruction, and null when the call inserts the
instruction. `llvm::NoFolder` never folds; `llvm::ConstantFolder`, the
default, folds an operator applied to two constants; a simplifying folder
also looks at the instructions that define the operands. -/
abbrev IRBuilderFolder : Type := List Instruction → Opcode → Value → Value → Option Value

/-- The folder `llvm::NoFolder`: every `Create` call inserts its instruction. -/
def NoFolder : IRBuilderFolder := fun _ _ _ _ => none

/-- The calls `b.CreateAnd(op0, op1, "and")`, ..., `b.CreateShl(op0, op1, "shl")`
of the builder: the value the folder gives, if it gives one, and otherwise
the new instruction, inserted at the insertion point. -/
def IRBuilder.CreateBinOp (b : IRBuilderFolder) (st : GenState) (opcode : Opcode)
    (v0 v1 : Value) (name : String) : GenResult :=
  match b st.emitted opcode v0 v1 with
  | some v => .ok (some v) st
  | none => insertInst st opcode v0.getType [v0, v1] name

/-- The code generator `LLVMGen::codeGen(I, VMap, constMap)`. `b` is the folder of the
builder and `intrinsicRetTy` gives the return type of the declaration of a
host intrinsic. -/
def codeGen (b : IRBuilderFolder) (intrinsicRetTy : String → Ty) :
    Inst → GenState → GenResult
  | .Var v, st =>
    if st.VMap.isEmpty then .ok (some v) st
    else .ok (st.VMap.index v).1 { st with VMap := (st.VMap.index v).2 }
  | .UnaryInst op U, st =>
    match codeGen b intrinsicRetTy U st with
    | .ok op0 st1 =>
      match op with
      | .copy => .ok op0 st1
    | r => r
  | .BinaryInst K L R, st =>
    match codeGen b intrinsicRetTy L st with
    | .ok op0 st1 =>
      match codeGen b intrinsicRetTy R st1 with
      | .ok op1 st2 =>
        match op0, op1 with
        | some v0, some v1 =>
          IRBuilder.CreateBinOp b st2 (binaryOpcode K).1 v0 v1 (binaryOpcode K).2
        | _, _ => .undefined
      | r => r
    | r => r
  | .SIMDBinOpInst K L R, st =>
    match codeGen b intrinsicRetTy L st with
    | .ok op0 st1 =>
      match codeGen b intrinsicRetTy R st1 with
      | .ok op1 st2 =>
        match op0, op1 with
        | some v0, some v1 =>
          insertInst
            { st2 with
              IntrinsicDecls :=
                if st2.IntrinsicDecls.contains (getIntrinsicID K) then st2.IntrinsicDecls
                else st2.IntrinsicDecls ++ [getIntrinsicID K] }
            .call (intrinsicRetTy (getIntrinsicID K))
            [v0, v1, .globalValue (getIntrinsicID K) (.pointer 0)] "intr"
        | _, _ => .undefined
      | r => r
    | r => r
  | .ReservedConst _ A, st =>
    match st.constMap with
    | none => .ok A st
    | some cm => .ok (cm.index A).1 { st with constMap := some (cm.index A).2 }
  | _, _ => .fatal "[ERROR] unknown instruction found in LLVMGen"

/-! ## The rewrite language read by the parser (`type.h`, `expr.h`) -/

/-- The value types of the rewrite language (`class type` of `type.h`):
lane count, bits per lane, and whether the lanes are floating point. -/
structure type where
  lane : Nat
  bits : Nat
  fp : Bool
  deriving DecidableEq

namespace type

/-- The factory `type::Scalar`. -/
def Scalar (bits : Nat) (fp : Bool) : type := ⟨1, bits, fp⟩

/-- The factory `type::Integer`. -/
def Integer (bits : Nat) : type := Scalar bits false

/-- The factory `type::Vectorizable`. -/
def Vectorizable (lane bits : Nat) (fp : Bool) : type := ⟨lane, bits, fp⟩

/-- The factory `type::IntegerVectorizable`. -/
def IntegerVectorizable (lane bits : Nat) : type := Vectorizable lane bits false

/-- The factory `type::Null`. -/
def Null : type := ⟨0, 0, false⟩

/-- The factory `type::Float`. -/
def Float : type := Scalar 32 true

/-- The factory `type::Double`. -/
def Double : type := Scalar 64 true

/-- The factory `type::Half`. -/
def Half : type := Scalar 16 true

/-- The factory `type::FP128`. -/
def FP128 : type := Scalar 128 true

/-- The predicate `type::isVector`. -/
def isVector (t : type) : Bool := decide (t.lane > 1)

/-- The predicate `type::isScalar`. -/
def isScalar (t : type) : Bool := t.lane == 1

/-- The accessor `type::getLane` (used by the copy constructor to read `lane`). -/
def getLane (t : type) : Nat := t.lane

/-- The accessor `type::getBits` (used by the copy constructor to read `bits`). -/
def getBits (t : type) : Nat := t.bits

/-- Modelled from the spec: `type::getAsVector`, which is declared in `type.h`
and defined in a file that is not part of the sources. The vector-of-width
type with the given lane count and the lanes of `t`. -/
def getAsVector (t : type) (lane : Nat) : type := Vectorizable lane t.bits t.fp

end type

/-- The address of a node of the rewrite language on the heap. -/
abbrev Addr := Nat

/-- The operators `UnaryOp::Op` that the parser names. -/
inductive UnaryOp.Op where
  | bitreverse | bswap | ctpop | ctlz | cttz | fneg | fabs | fceil | ffloor | frint
  | fnearbyint | fround | froundeven | ftrunc
  deriving DecidableEq

/-- The operators `BinaryOp::Op` that the parser names. -/
inductive BinaryOp.Op where
  | band | bor | bxor | add | sub | mul | sdiv | udiv | lshr | ashr | shl
  | smax | smin | umax | umin
  | fadd | fsub | fmul | fdiv | fmaxnum | fminnum | fmaximum | fminimum | copysign
  deriving DecidableEq

/-- The conditions `ICmp::Cond` that the parser names. -/
inductive ICmp.Cond where
  | eq | ne | ult | ule | ugt | uge | slt | sle | sgt | sge
  deriving DecidableEq

/-- The conditions `FCmp::Cond` that the parser names. -/
inductive FCmp.Cond where
  | t | oeq | ogt | oge | olt | ole | one | ord | ueq | ugt | uge | ult | ule | une | uno | f
  deriving DecidableEq

/-- The operators `IntConversion::Op` that the parser names. -/
inductive IntConversion.Op where
  | zext | sext | trunc
  deriving DecidableEq

/-- The operators `FPConversion::Op` that the parser names. -/
inductive FPConversion.Op where
  | fpext | fptrunc | sitofp | uitofp | fptosi | fptoui
  deriving DecidableEq

/-- The nodes the parser constructs. Their classes are declared in `expr.h`,
which is not part of the sources; a node is recorded here as the
constructor call of `parse.cpp` that makes it, with the arguments of that
call. An operand passed by reference (`*a`) or by pointer is the address of
the operand node; the `rhs` of a `FakeShuffleInst` and the constant of a
`ReservedConst` may be null, and the operator of a `SIMDBinOpInst` is
`none` when no name of `ir/intrinsics_binop.h` matched and `op` was left
unset. -/
inductive Expr where
  | Var (LV : Value)
  | ReservedConst (t : type) (C : Option Value)
  | Copy (a : Addr)
  | UnaryOp (op : UnaryOp.Op) (a : Addr) (workty : type)
  | BinaryOp (op : BinaryOp.Op) (a b : Addr) (workty : type)
  | ICmp (op : ICmp.Cond) (a b : Addr) (width : Nat)
  | FCmp (op : FCmp.Cond) (a b : Addr) (width : Nat)
  | FakeShuffleInst (lhs : Addr) (rhs : Option Addr) (mask : Addr) (workty : type)
  | IntConversion (op : IntConversion.Op) (a : Addr) (lane bits_from bits_to : Nat)
  | FPConversion (op : FPConversion.Op) (a : Addr) (ty : type)
  | SIMDBinOpInst (op : Option X86IntrinBinOp.Op) (a b : Addr)
  | Select (cond a b : Addr)
  | InsertElement (vec elem idx : Addr) (elem_ty : type)
  | ExtractElement (vec idx : Addr) (elem_ty : type)
  deriving DecidableEq

/-- The operand links of a node: the addresses of its operand nodes. -/
def Expr.operands : Expr → List Addr
  | .Var _ => []
  | .ReservedConst _ _ => []
  | .Copy a => [a]
  | .UnaryOp _ a _ => [a]
  | .BinaryOp _ a b _ => [a, b]
  | .ICmp _ a b _ => [a, b]
  | .FCmp _ a b _ => [a, b]
  | .FakeShuffleInst lhs rhs mask _ => lhs :: (rhs.toList ++ [mask])
  | .IntConversion _ a _ _ _ => [a]
  | .FPConversion _ a _ => [a]
  | .SIMDBinOpInst _ a b => [a, b]
  | .Select cond a b => [cond, a, b]
  | .InsertElement vec elem idx _ => [vec, elem, idx]
  | .ExtractElement vec idx _ => [vec, idx]

/-- A candidate as `Parser::parse` returns it: `Rewrite(I, 0, 0)`. -/
structure Rewrite where
  I : Addr
  arg1 : Nat
  arg2 : Nat
  deriving DecidableEq

/-! ## The tokenizer of the rewrite parser (`lib/parse.cpp`) -/

namespace parse

/-- The tokens of the lexer that the parser names. The enumeration `token`
is declared in `lexer.h`, which is not part of the sources; `OTHER` stands
for every token that `parse.cpp` does not name. -/
inductive token where
  | END | LPAREN | RPAREN | CSGT | VECTOR_TYPE_PREFIX | INT_TYPE | FLOAT | DOUBLE | HALF | FP128
  | REGISTER | BITS | LITERAL | VAR | CONST | COPY
  | BITREVERSE | BSWAP | CTPOP | CTLZ | CTTZ | FNEG | FABS | FCEIL | FFLOOR | FRINT
  | FNEARBYINT | FROUND | FROUNDEVEN | FTRUNC
  | BAND | BOR | BXOR | LSHR | ASHR | SHL | ADD | SUB | MUL | SDIV | UDIV
  | UMAX | UMIN | SMAX | SMIN
  | FADD | FSUB | FMUL | FDIV | FMAXNUM | FMINNUM | FMAXIMUM | FMINIMUM | COPYSIGN
  | EQ | NE | ULT | ULE | UGT | UGE | SLT | SLE | SGT | SGE
  | FCMP_TRUE | FCMP_OEQ | FCMP_OGT | FCMP_OGE | FCMP_OLT | FCMP_OLE | FCMP_ONE | FCMP_ORD
  | FCMP_UEQ | FCMP_UGT | FCMP_UGE | FCMP_ULT | FCMP_ULE | FCMP_UNE | FCMP_UNO | FCMP_FALSE
  | SHUFFLE | BLEND | SELECT | INSERTELEMENT | EXTRACTELEMENT
  | CONV_ZEXT | CONV_SEXT | CONV_TRUNC
  | CONV_FPTRUNC | CONV_FPEXT | CONV_SITOFP | CONV_UITOFP | CONV_FPTOSI | CONV_FPTOUI
  | X86BINARY
  | OTHER
  deriving DecidableEq

/-- The exception `ParseException`: a message and a line number. -/
structure ParseException where
  str : String
  lineno : Nat
  deriving DecidableEq

/-- The semantic value `yylval` of the lexer, as far as the parser reads it. -/
structure YYSTYPE where
  num : Nat
  str : String
  deriving DecidableEq

/-- What one call of `yylex` does when the text is not exhausted: it returns
a token, having set `yylval` and `yylineno`, or it throws a `LexException`.
The lexer is not part of the sources; the text handed to `yylex_init` is
given to the parser as the sequence of these. -/
inductive Lexeme where
  | token (t : token) (yylval : YYSTYPE) (yylineno : Nat)
  | LexException (str : String) (lineno : Nat)
  deriving DecidableEq

/-- The fields of `tokenizer_t`. -/
structure tokenizer_t where
  last : token
  returned : Bool
  deriving DecidableEq

/-- What the parser reads and writes: what the lexer will still deliver
(`input`) with its globals `yylval` and `yylineno`, the static `tokenizer`,
the owning list `exprs` of the `Parser` object (each entry a node with its
address, oldest first), and the next address `make_unique` will hand out. -/
structure State where
  input : List Lexeme
  yylval : YYSTYPE
  yylineno : Nat
  tokenizer : tokenizer_t
  exprs : List (Addr × Expr)
  heap : Nat
  deriving DecidableEq

/-- What a call of a parser function ends in: a returned value and the state
after the call, a thrown `ParseException`, the fatal error of
`report_fatal_error`, or a reached `UNREACHABLE()`. `outOfFuel` says that the
bound on the nesting depth given to `parse_expr` was used up. -/
inductive Res (α : Type) where
  | ok (a : α) (st : State)
  | exception (e : ParseException)
  | fatal (msg : String)
  | unreachable
  | outOfFuel
  deriving DecidableEq

/-- A parser function: from the state before the call to what the call ends in. -/
def M (α : Type) : Type := State → Res α

instance : Monad M where
  pure a := fun st => .ok a st
  bind m f := fun st =>
    match m st with
    | .ok a st1 => f a st1
    | .exception e => .exception e
    | .fatal msg => .fatal msg
    | .unreachable => .unreachable
    | .outOfFuel => .outOfFuel

/-- What the parser takes from outside `parse.cpp`: the lookup
`F.getValueSymbolTable()->lookup` in the symbol table of the function `F` of
the `Parser` object, the table `token_name` of the lexer, the host function
`llvm::parseConstantValue` (null when the text is no constant), and the
operator named by a string in `ir/intrinsics_binop.h`, if any. The symbol
table is the host's: `lookup id` is whatever value the host keeps under the
name `id`, be it an argument, a basic block or an instruction, and null
when no value bears the name. -/
structure Env where
  lookup : String → Option Value
  token_name : token → String
  parseConstantValue : String → Option Value
  intrinsics_binop : String → Option X86IntrinBinOp.Op

/-- The function `error`: throws a `ParseException` with the message and `yylineno`. -/
def error {α : Type} (s : String) : M α
  | ⟨_, _, yylineno, _, _, _⟩ => .exception ⟨s, yylineno⟩

/-- The macro `UNREACHABLE()`. -/
def UNREACHABLE {α : Type} : M α :=
  fun _ => .unreachable

/-- The host function `llvm::report_fatal_error`. -/
def report_fatal_error {α : Type} (msg : String) : M α :=
  fun _ => .fatal msg

/-- A read of the global `yylval`. -/
def yylval : M YYSTYPE
  | ⟨input, yylval, yylineno, tokenizer, exprs, heap⟩ =>
    .ok yylval ⟨input, yylval, yylineno, tokenizer, exprs, heap⟩

/-- The method `tokenizer_t::get_new_token`: the next token of the lexer; a
`LexException` is rethrown as a `ParseException` with the same message and
line. At the end of the text the lexer returns `END`. -/
def tokenizer_t.get_new_token : M token
  | ⟨[], yylval, yylineno, tokenizer, exprs, heap⟩ =>
    .ok .END ⟨[], yylval, yylineno, tokenizer, exprs, heap⟩
  | ⟨.token t v l :: rest, _, _, tokenizer, exprs, heap⟩ =>
    .ok t ⟨rest, v, l, tokenizer, exprs, heap⟩
  | ⟨.LexException s l :: _, _, _, _, _, _⟩ => .exception ⟨s, l⟩

/-- The method `tokenizer_t::operator*`. -/
def tokenizer_t.operator_star : M token
  | ⟨input, yylval, yylineno, ⟨last, returned⟩, exprs, heap⟩ =>
    if returned then .ok last ⟨input, yylval, yylineno, ⟨last, false⟩, exprs, heap⟩
    else tokenizer_t.get_new_token ⟨input, yylval, yylineno, ⟨last, returned⟩, exprs, heap⟩

/-- The method `tokenizer_t::peek`. -/
def tokenizer_t.peek : M token
  | ⟨input, yylval, yylineno, ⟨last, returned⟩, exprs, heap⟩ =>
    if returned then .ok last ⟨input, yylval, yylineno, ⟨last, returned⟩, exprs, heap⟩
    else
      match tokenizer_t.get_new_token ⟨input, yylval, yylineno, ⟨last, true⟩, exprs, heap⟩ with
      | .ok t ⟨input1, yylval1, yylineno1, ⟨_, returned1⟩, exprs1, heap1⟩ =>
        .ok t ⟨input1, yylval1, yylineno1, ⟨t, returned1⟩, exprs1, heap1⟩
      | r => r

/-- The method `tokenizer_t::consumeIf`. -/
def tokenizer_t.consumeIf (expected : token) : M Bool := do
  let token ← tokenizer_t.peek
  if token == expected then
    fun
    | ⟨input, yylval, yylineno, ⟨last, _⟩, exprs, heap⟩ =>
      .ok true ⟨input, yylval, yylineno, ⟨last, false⟩, exprs, heap⟩
  else pure false

/-- The method `tokenizer_t::ensure`. -/
def tokenizer_t.ensure (E : Env) (expected : token) : M Unit := do
  let t ← tokenizer_t.operator_star
  if t != expected then
    error ("expected token: " ++ E.token_name expected ++ ", got: " ++ E.token_name t)
  else pure ()

/-- The method `tokenizer_t::empty`. -/
def tokenizer_t.empty : M Bool := do
  pure ((← tokenizer_t.peek) == .END)

/-- The method `tokenizer_t::isScalarType`; `||` evaluates its right operand
only when the left one is false. -/
def tokenizer_t.isScalarType : M Bool := do
  if (← tokenizer_t.peek) == .INT_TYPE then pure true
  else if (← tokenizer_t.peek) == .FLOAT then pure true
  else if (← tokenizer_t.peek) == .DOUBLE then pure true
  else if (← tokenizer_t.peek) == .HALF then pure true
  else pure ((← tokenizer_t.peek) == .FP128)

/-- The method `tokenizer_t::isVectorType`. -/
def tokenizer_t.isVectorType : M Bool := do
  pure ((← tokenizer_t.peek) == .VECTOR_TYPE_PREFIX)

/-- The method `tokenizer_t::isType`. -/
def tokenizer_t.isType : M Bool := do
  if ← tokenizer_t.isScalarType then pure true
  else tokenizer_t.isVectorType

/-- The function `parse_scalar_type`. -/
def parse_scalar_type (E : Env) : M type := do
  match ← tokenizer_t.peek with
  | .FLOAT => do
    tokenizer_t.ensure E .FLOAT
    pure type.Float
  | .DOUBLE => do
    tokenizer_t.ensure E .DOUBLE
    pure type.Double
  | .HALF => do
    tokenizer_t.ensure E .HALF
    pure type.Half
  | .FP128 => do
    tokenizer_t.ensure E .FP128
    pure type.FP128
  | .INT_TYPE => do
    tokenizer_t.ensure E .INT_TYPE
    pure (type.Scalar (← yylval).num false)
  | _ => UNREACHABLE

/-- The function `parse_vector_type`. -/
def parse_vector_type (E : Env) : M type := do
  tokenizer_t.ensure E .VECTOR_TYPE_PREFIX
  let lane := (← yylval).num
  let type ← parse_scalar_type E
  tokenizer_t.ensure E .CSGT
  pure (type.getAsVector lane)

/-- The function `parse_type`. -/
def parse_type (E : Env) : M type := do
  if ← tokenizer_t.isScalarType then parse_scalar_type E
  else if ← tokenizer_t.isVectorType then parse_vector_type E
  else UNREACHABLE

/-- The function `parse_number`. -/
def parse_number (E : Env) : M Nat := do
  tokenizer_t.ensure E .BITS
  pure (← yylval).num

end parse

/-! ## The productions of the rewrite parser (`lib/parse.cpp`) -/

namespace parse

/-- The allocation `make_unique<T>(...)`: a new node at a fresh address. -/
def make_unique (n : Expr) : M (Addr × Expr)
  | ⟨input, yylval, yylineno, tokenizer, exprs, heap⟩ =>
    .ok (heap, n) ⟨input, yylval, yylineno, tokenizer, exprs, heap + 1⟩

/-- The call `exprs.emplace_back(std::move(p))`. -/
def emplace_back (p : Addr × Expr) : M Unit
  | ⟨input, yylval, yylineno, tokenizer, exprs, heap⟩ =>
    .ok () ⟨input, yylval, yylineno, tokenizer, exprs ++ [p], heap⟩

/-- The call `id.erase(id.begin())` on a string. -/
def erase_begin (s : String) : String := ⟨s.data.drop 1⟩

/-- The call `lt.pop_back()` on a string. -/
def pop_back (s : String) : String := ⟨s.data.dropLast⟩

/-- A `switch` that sets a local variable: the value the matching case
assigns; the default case is `UNREACHABLE()`. -/
def switch {α : Type} : Option α → M α
  | some a => pure a
  | none => UNREACHABLE

/-- The method `Parser::parse_var`. -/
def Parser.parse_var (E : Env) : M Addr := do
  let _ty ← parse_type E
  tokenizer_t.ensure E .REGISTER
  let id := erase_begin (← yylval).str
  tokenizer_t.ensure E .RPAREN
  match E.lookup id with
  | none => report_fatal_error "[parser] terminating"
  | some LV => do
    let V ← make_unique (.Var LV)
    emplace_back V
    pure V.1

/-- The method `Parser::parse_const`. -/
def Parser.parse_const (E : Env) : M Addr := do
  let t ← parse_type E
  tokenizer_t.ensure E .LITERAL
  let lt := erase_begin (pop_back (← yylval).str)
  tokenizer_t.ensure E .RPAREN
  let C := E.parseConstantValue lt
  let T ← make_unique (.ReservedConst t C)
  emplace_back T
  pure T.1

/-- The method `Parser::parse_copy`. -/
def Parser.parse_copy (E : Env) : M Addr := do
  tokenizer_t.ensure E .LPAREN
  tokenizer_t.ensure E .CONST
  let a ← Parser.parse_const E
  tokenizer_t.ensure E .RPAREN
  let CI ← make_unique (.Copy a)
  emplace_back CI
  pure CI.1

/-- The `switch (op_token)` of `Parser::parse_unary`: the operator a case assigns to
`op`, and `none` for the default case. -/
def Parser.parse_unary.op : token → Option UnaryOp.Op
  | .BITREVERSE => some .bitreverse
  | .BSWAP => some .bswap
  | .CTPOP => some .ctpop
  | .CTLZ => some .ctlz
  | .CTTZ => some .cttz
  | .FNEG => some .fneg
  | .FABS => some .fabs
  | .FCEIL => some .fceil
  | .FFLOOR => some .ffloor
  | .FRINT => some .frint
  | .FNEARBYINT => some .fnearbyint
  | .FROUND => some .fround
  | .FROUNDEVEN => some .froundeven
  | .FTRUNC => some .ftrunc
  | _ => none

/-- The method `Parser::parse_unary`; `parse_expr` is the method it calls
for its operand. -/
def Parser.parse_unary (E : Env) (parse_expr : M Addr) (op_token : token) : M Addr := do
  let op ← switch (Parser.parse_unary.op op_token)
  let workty ← parse_type E
  let a ← parse_expr
  tokenizer_t.ensure E .RPAREN
  let UI ← make_unique (.UnaryOp op a workty)
  emplace_back UI
  pure UI.1

/-- The `switch (op_token)` of `Parser::parse_binary`: the operator a case assigns to
`op`, and `none` for the default case. -/
def Parser.parse_binary.op : token → Option BinaryOp.Op
  | .BAND => some .band
  | .BOR => some .bor
  | .BXOR => some .bxor
  | .ADD => some .add
  | .SUB => some .sub
  | .MUL => some .mul
  | .SDIV => some .sdiv
  | .UDIV => some .udiv
  | .LSHR => some .lshr
  | .ASHR => some .ashr
  | .SHL => some .shl
  | .SMAX => some .smax
  | .SMIN => some .smin
  | .UMAX => some .umax
  | .UMIN => some .umin
  | .FADD => some .fadd
  | .FSUB => some .fsub
  | .FMUL => some .fmul
  | .FDIV => some .fdiv
  | .FMAXNUM => some .fmaxnum
  | .FMINNUM => some .fminnum
  | .FMAXIMUM => some .fmaximum
  | .FMINIMUM => some .fminimum
  | .COPYSIGN => some .copysign
  | _ => none

/-- The method `Parser::parse_binary`. -/
def Parser.parse_binary (E : Env) (parse_expr : M Addr) (op_token : token) : M Addr := do
  let op ← switch (Parser.parse_binary.op op_token)
  let workty ← parse_type E
  let a ← parse_expr
  let b ← parse_expr
  tokenizer_t.ensure E .RPAREN
  let BI ← make_unique (.BinaryOp op a b workty)
  emplace_back BI
  pure BI.1

/-- The `switch (op_token)` of `Parser::parse_icmp`: the operator a case assigns to
`op`, and `none` for the default case. -/
def Parser.parse_icmp.op : token → Option ICmp.Cond
  | .EQ => some .eq
  | .NE => some .ne
  | .ULT => some .ult
  | .ULE => some .ule
  | .UGT => some .ugt
  | .UGE => some .uge
  | .SLT => some .slt
  | .SLE => some .sle
  | .SGT => some .sgt
  | .SGE => some .sge
  | _ => none

/-- The method `Parser::parse_icmp`. -/
def Parser.parse_icmp (E : Env) (parse_expr : M Addr) (op_token : token) : M Addr := do
  let op ← switch (Parser.parse_icmp.op op_token)
  let a ← parse_expr
  let b ← parse_expr
  let width ← parse_number E
  tokenizer_t.ensure E .RPAREN
  let II ← make_unique (.ICmp op a b width)
  emplace_back II
  pure II.1

/-- The `switch (op_token)` of `Parser::parse_fcmp`: the operator a case assigns to
`op`, and `none` for the default case. -/
def Parser.parse_fcmp.op : token → Option FCmp.Cond
  | .FCMP_TRUE => some .t
  | .FCMP_OEQ => some .oeq
  | .FCMP_OGT => some .ogt
  | .FCMP_OGE => some .oge
  | .FCMP_OLT => some .olt
  | .FCMP_OLE => some .ole
  | .FCMP_ONE => some .one
  | .FCMP_ORD => some .ord
  | .FCMP_UEQ => some .ueq
  | .FCMP_UGT => some .ugt
  | .FCMP_UGE => some .uge
  | .FCMP_ULT => some .ult
  | .FCMP_ULE => some .ule
  | .FCMP_UNE => some .une
  | .FCMP_UNO => some .uno
  | .FCMP_FALSE => some .f
  | _ => none

/-- The method `Parser::parse_fcmp`. -/
def Parser.parse_fcmp (E : Env) (parse_expr : M Addr) (op_token : token) : M Addr := do
  let op ← switch (Parser.parse_fcmp.op op_token)
  let a ← parse_expr
  let b ← parse_expr
  let width ← parse_number E
  tokenizer_t.ensure E .RPAREN
  let FI ← make_unique (.FCmp op a b width)
  emplace_back FI
  pure FI.1

/-- The method `Parser::parse_shuffle`. -/
def Parser.parse_shuffle (E : Env) (parse_expr : M Addr) (op_token : token) : M Addr := do
  let workty ← parse_vector_type E
  let lhs ← parse_expr
  let rhs ←
    (if op_token == .BLEND then parse_expr >>= fun rhs => pure (some rhs)
     else pure none : M (Option Addr))
  tokenizer_t.ensure E .LPAREN
  tokenizer_t.ensure E .CONST
  let mask ← Parser.parse_const E
  let SI ← make_unique (.FakeShuffleInst lhs rhs mask workty)
  emplace_back SI
  pure SI.1

/-- The `switch (op_token)` of `Parser::parse_intconv`: the operator a case assigns to
`op`, and `none` for the default case. -/
def Parser.parse_intconv.op : token → Option IntConversion.Op
  | .CONV_ZEXT => some .zext
  | .CONV_SEXT => some .sext
  | .CONV_TRUNC => some .trunc
  | _ => none

/-- The method `Parser::parse_intconv`. -/
def Parser.parse_intconv (E : Env) (parse_expr : M Addr) (op_token : token) : M Addr := do
  let op ← switch (Parser.parse_intconv.op op_token)
  let a ← parse_expr
  let from_ty ← parse_type E
  let to_ty ← parse_type E
  tokenizer_t.ensure E .RPAREN
  let CI ← make_unique (.IntConversion op a from_ty.getLane from_ty.getBits to_ty.getBits)
  emplace_back CI
  pure CI.1

/-- The `switch (op_token)` of `Parser::parse_fpconv`: the operator a case assigns to
`op`, and `none` for the default case. -/
def Parser.parse_fpconv.op : token → Option FPConversion.Op
  | .CONV_FPEXT => some .fpext
  | .CONV_FPTRUNC => some .fptrunc
  | .CONV_SITOFP => some .sitofp
  | .CONV_UITOFP => some .uitofp
  | .CONV_FPTOSI => some .fptosi
  | .CONV_FPTOUI => some .fptoui
  | _ => none

/-- The method `Parser::parse_fpconv`. -/
def Parser.parse_fpconv (E : Env) (parse_expr : M Addr) (op_token : token) : M Addr := do
  let op ← switch (Parser.parse_fpconv.op op_token)
  let a ← parse_expr
  let ty ← parse_type E
  tokenizer_t.ensure E .RPAREN
  let CI ← make_unique (.FPConversion op a ty)
  emplace_back CI
  pure CI.1

/-- The method `Parser::parse_x86`: `op` is the operator whose name in
`ir/intrinsics_binop.h` equals `ops`, and is left unset when there is none. -/
def Parser.parse_x86 (E : Env) (parse_expr : M Addr) (ops : String) : M Addr := do
  let op := E.intrinsics_binop ops
  let a ← parse_expr
  let b ← parse_expr
  tokenizer_t.ensure E .RPAREN
  let CI ← make_unique (.SIMDBinOpInst op a b)
  emplace_back CI
  pure CI.1

/-- The method `Parser::parse_select`. -/
def Parser.parse_select (E : Env) (parse_expr : M Addr) : M Addr := do
  let cond ← parse_expr
  let a ← parse_expr
  let b ← parse_expr
  tokenizer_t.ensure E .RPAREN
  let SI ← make_unique (.Select cond a b)
  emplace_back SI
  pure SI.1

/-- The method `Parser::parse_insertelement`. -/
def Parser.parse_insertelement (E : Env) (parse_expr : M Addr) : M Addr := do
  let elem_ty ← parse_type E
  let vec ← parse_expr
  let elem ← parse_expr
  tokenizer_t.ensure E .LPAREN
  tokenizer_t.ensure E .CONST
  let idx ← Parser.parse_const E
  tokenizer_t.ensure E .RPAREN
  let II ← make_unique (.InsertElement vec elem idx elem_ty)
  emplace_back II
  pure II.1

/-- The method `Parser::parse_extractelement`. -/
def Parser.parse_extractelement (E : Env) (parse_expr : M Addr) : M Addr := do
  let elem_ty ← parse_type E
  let vec ← parse_expr
  tokenizer_t.ensure E .LPAREN
  tokenizer_t.ensure E .CONST
  let idx ← Parser.parse_const E
  tokenizer_t.ensure E .RPAREN
  let EI ← make_unique (.ExtractElement vec idx elem_ty)
  emplace_back EI
  pure EI.1

/-- The method `Parser::parse_expr`. The first argument bounds the depth to
which calls of `parse_expr` may nest. -/
def Parser.parse_expr (E : Env) : Nat → M Addr
  | 0 => fun _ => .outOfFuel
  | fuel + 1 => do
    tokenizer_t.ensure E .LPAREN
    let t ← tokenizer_t.operator_star
    match t with
    | .COPY => Parser.parse_copy E
    | .BITREVERSE | .BSWAP | .CTPOP | .CTLZ | .CTTZ | .FNEG | .FABS | .FCEIL | .FFLOOR
    | .FRINT | .FNEARBYINT | .FROUND | .FROUNDEVEN | .FTRUNC =>
      Parser.parse_unary E (Parser.parse_expr E fuel) t
    | .BAND | .BOR | .BXOR | .LSHR | .ASHR | .SHL | .ADD | .SUB | .MUL | .SDIV | .UDIV
    | .UMAX | .UMIN | .SMAX | .SMIN | .FADD | .FSUB | .FMUL | .FDIV | .FMAXNUM | .FMINNUM
    | .FMAXIMUM | .FMINIMUM | .COPYSIGN =>
      Parser.parse_binary E (Parser.parse_expr E fuel) t
    | .EQ | .NE | .ULT | .ULE | .UGT | .UGE | .SLT | .SLE | .SGT | .SGE =>
      Parser.parse_icmp E (Parser.parse_expr E fuel) t
    | .FCMP_TRUE | .FCMP_OEQ | .FCMP_OGT | .FCMP_OGE | .FCMP_OLT | .FCMP_OLE | .FCMP_ONE
    | .FCMP_ORD | .FCMP_UEQ | .FCMP_UGT | .FCMP_UGE | .FCMP_ULT | .FCMP_ULE | .FCMP_UNE
    | .FCMP_UNO | .FCMP_FALSE =>
      Parser.parse_fcmp E (Parser.parse_expr E fuel) t
    | .SHUFFLE | .BLEND => Parser.parse_shuffle E (Parser.parse_expr E fuel) t
    | .SELECT => Parser.parse_select E (Parser.parse_expr E fuel)
    | .INSERTELEMENT => Parser.parse_insertelement E (Parser.parse_expr E fuel)
    | .EXTRACTELEMENT => Parser.parse_extractelement E (Parser.parse_expr E fuel)
    | .CONV_ZEXT | .CONV_SEXT | .CONV_TRUNC =>
      Parser.parse_intconv E (Parser.parse_expr E fuel) t
    | .CONV_FPTRUNC | .CONV_FPEXT | .CONV_SITOFP | .CONV_UITOFP | .CONV_FPTOSI | .CONV_FPTOUI =>
      Parser.parse_fpconv E (Parser.parse_expr E fuel) t
    | .X86BINARY => do
      Parser.parse_x86 E (Parser.parse_expr E fuel) (← yylval).str
    | .VAR => Parser.parse_var E
    | .CONST => Parser.parse_const E
    | _ => UNREACHABLE

/-- The number of tokens that can still be read: those the lexer will
deliver and the one the tokenizer holds back, unless that one is `END`. -/
def pending (st : State) : Nat :=
  st.input.length + (if st.tokenizer.returned && st.tokenizer.last != .END then 1 else 0)

/-- What a call of `Parser::parse` ends in: the returned list of candidates
and the state after the call, the end of the process with an exit status,
a `ParseException` that leaves `parse`, the fatal error of
`report_fatal_error`, or a reached `UNREACHABLE()`. `outOfFuel` says that the
bound on the nesting depth was used up, which does not happen
(`parse_ne_outOfFuel`). -/
inductive Outcome where
  | returned (rewrites : List Rewrite) (st : State)
  | exit (status : Nat)
  | exception (e : ParseException)
  | fatal (msg : String)
  | unreachable
  | outOfFuel
  deriving DecidableEq

/-- The method `Parser::parse(F, buf)`, from the state in which
`yylex_init(buf)` leaves the lexer; the parameter `F` is not used (names are
resolved in the function of the `Parser` object). The test
`tokenizer.empty()` only writes a debug message and stands before the `try`
block. Calls of `parse_expr` nest no deeper than there are tokens to read
(`fuelSafe_parse_expr`). -/
def Parser.parse (E : Env) (_F : Function) (st : State) : Outcome :=
  match tokenizer_t.empty st with
  | .ok _ st1 =>
    match Parser.parse_expr E (pending st1 + 1) st1 with
    | .ok I st2 => .returned [⟨I, 0, 0⟩] st2
    | .exception _ => .exit 1
    | .fatal msg => .fatal msg
    | .unreachable => .unreachable
    | .outOfFuel => .outOfFuel
  | .exception e => .exception e
  | .fatal msg => .fatal msg
  | .unreachable => .unreachable
  | .outOfFuel => .outOfFuel

end parse

/-! ## Notions used to state the parser's contract -/

namespace parse

/-- The tokens for which the `switch` of `Parser::parse_expr` has a case:
the op keywords of the production table. -/
def token.isOpKeyword : token → Bool
  | .END | .LPAREN | .RPAREN | .CSGT | .VECTOR_TYPE_PREFIX | .INT_TYPE | .FLOAT | .DOUBLE
  | .HALF | .FP128 | .REGISTER | .BITS | .LITERAL | .OTHER => false
  | _ => true

/-- The tokens a type starts with: those `tokenizer_t::isType` tests for. -/
def token.isTypeToken : token → Bool
  | .INT_TYPE | .FLOAT | .DOUBLE | .HALF | .FP128 | .VECTOR_TYPE_PREFIX => true
  | _ => false

/-- The addresses of the nodes the list `exprs` holds, one per entry. -/
def held (exprs : List (Addr × Expr)) : List Addr :=
  exprs.map Prod.fst

/-- The node at address `q` is reachable from the node at address `r` through
operand links of the nodes in `exprs`. -/
inductive Reaches (exprs : List (Addr × Expr)) (r : Addr) : Addr → Prop where
  | root : Reaches exprs r r
  | operand {p q : Addr} {n : Expr} :
    Reaches exprs r p → (p, n) ∈ exprs → q ∈ n.operands → Reaches exprs r q

/-- The arena is in order: no address is held twice, `make_unique` will hand
out an address that is not in use, and the operands of every node held are
held. This is so for the empty list of a new `Parser`. -/
def ArenaOK (st : State) : Prop :=
  (held st.exprs).Nodup
    ∧ (∀ p ∈ held st.exprs, p < st.heap)
    ∧ ∀ p n, (p, n) ∈ st.exprs → ∀ q ∈ n.operands, q ∈ held st.exprs

end parse

namespace parse

/-- The arena is in order and holds the nodes at the addresses `own`. -/
def ArenaInv (own : List Addr) (st : State) : Prop :=
  ArenaOK st ∧ ∀ q ∈ own, q ∈ held st.exprs

/-- A parser function that, when it returns, leaves the arena in order and
every node held before still held. -/
def KeepsArena {α : Type} (m : M α) : Prop :=
  ∀ (st : State) (a : α) (st' : State) (own : List Addr),
    m st = .ok a st' → ArenaInv own st → ArenaInv own st'

/-- A parser function that, when it returns, leaves the arena in order, every
node held before still held, and the node it returns held. -/
def HoldsResult (m : M Addr) : Prop :=
  ∀ (st : State) (r : Addr) (st' : State) (own : List Addr),
    m st = .ok r st' → ArenaInv own st → ArenaInv (r :: own) st'

/-- A parser function that, in a state with fewer than `n` tokens to read,
does not use up the bound on the nesting depth and does not add to the
tokens to read. -/
def FuelSafe {α : Type} (n : Nat) (m : M α) : Prop :=
  ∀ st : State, pending st < n →
    m st ≠ .outOfFuel ∧ ∀ (a : α) (st' : State), m st = .ok a st' → pending st' ≤ pending st

end parse

/-! ## Types and sizes of expression nodes (`include/IR.h`) -/

/-- The accessor `Inst::getType`: the type every constructor hands to the
base class. `SIMDBinOpInst` and `ShuffleVectorInst` hand none, and the
member keeps its initial null value. -/
def Inst.getType : Inst → Option Ty
  | .Var v => some v.getType
  | .Ptr v => some v.getType
  | .ReservedConst t _ => some t
  | .UnaryInst _ op0 => op0.getType
  | .BinaryInst _ lhs _ => lhs.getType
  | .ICmpInst _ lhs _ => lhs.getType
  | .BitCastInst i _ _ _ _ => i.getType
  | .SIMDBinOpInst _ _ _ => none
  | .ShuffleVectorInst _ _ _ => none

/-- The trees whose lowering from the state `st` meets no null pointer and no
node without a branch in `codeGen`: the nodes are `Var`, `ReservedConst`,
`UnaryInst`, `BinaryInst` and `SIMDBinOpInst`; a `Var` is bound in the value
map unless the map is empty, and a `ReservedConst` has a placeholder, which
is bound in the constant map if there is one. -/
def Inst.lowers (st : GenState) : Inst → Bool
  | .Var v => st.VMap.isEmpty || (st.VMap.entry v).isSome
  | .ReservedConst _ A =>
    match st.constMap with
    | none => A.isSome
    | some cm => (cm.entry A).isSome
  | .UnaryInst _ op0 => op0.lowers st
  | .BinaryInst _ lhs rhs => lhs.lowers st && rhs.lowers st
  | .SIMDBinOpInst _ lhs rhs => lhs.lowers st && rhs.lowers st
  | _ => false

/-- The number of `BinaryInst` and `SIMDBinOpInst` occurrences in the tree
unfolding of a node: a node reached along two paths is counted twice. -/
def Inst.occurrences : Inst → Nat
  | .UnaryInst _ op0 => op0.occurrences
  | .BinaryInst _ lhs rhs => lhs.occurrences + rhs.occurrences + 1
  | .SIMDBinOpInst _ lhs rhs => lhs.occurrences + rhs.occurrences + 1
  | _ => 0

/-! ## The worklist loop with its state exposed -/

/-- The worklist loop (`while (!Worklist.empty())`) as `harvest`, with its
state exposed: the worklist and the candidate set after `fuel` pops (or when
the worklist is empty, if that is earlier), each candidate together with the
`Depth` of the entry whose pop inserted it. -/
def harvestState (slicer_max_depth : Nat) (VF : Function) :
    Nat → List (Value × Nat) → List (Value × Nat) → List (Value × Nat) × List (Value × Nat)
  | 0, Worklist, Candidates => (Worklist, Candidates)
  | _ + 1, [], Candidates => ([], Candidates)
  | fuel + 1, (W, Depth) :: Worklist, Candidates =>
    if Depth > slicer_max_depth then
      harvestState slicer_max_depth VF fuel Worklist Candidates
    else
      match VF.resolve .VF W with
      | none => harvestState slicer_max_depth VF fuel Worklist Candidates
      | some I =>
        if haveUnknownOperand I then
          harvestState slicer_max_depth VF fuel Worklist Candidates
        else if (Candidates.map Prod.fst).contains W then
          harvestState slicer_max_depth VF fuel Worklist Candidates
        else
          harvestState slicer_max_depth VF fuel (Worklist ++ pushOperands I Depth)
            (Candidates ++ [(W, Depth)])

namespace parse

/-- True for a lexeme that is a token, false for a thrown `LexException`. -/
def Lexeme.isToken : Lexeme → Bool
  | .token _ _ _ => true
  | .LexException _ _ => false

/-- The tokens the lexer delivers before it throws or reaches the end of
the text. -/
def delivered : List Lexeme → List token
  | [] => []
  | .token t _ _ :: rest => t :: delivered rest
  | .LexException _ _ :: _ => []

/-- The tokens ahead of the parser in the state `st`, by position: the token
the tokenizer holds back, if any, then the tokens the lexer will deliver;
at the end of the text the lexer returns `END` again and again. -/
def stream : State → Nat → token
  | ⟨input, _, _, ⟨last, returned⟩, _, _⟩, i =>
    ((if returned then [last] else []) ++ delivered input).getD i .END

/-- A call of a method of `tokenizer_t`. -/
inductive Call where
  | operator_star
  | peek
  | consumeIf (expected : token)
  | ensure (expected : token)
  | empty
  | isType
  | isScalarType
  | isVectorType
  deriving DecidableEq

/-- What a method of `tokenizer_t` returns: a token, a `bool`, or nothing. -/
inductive Ret where
  | tok (t : token)
  | bool (b : Bool)
  | void
  deriving DecidableEq

/-- The call `c` made on the static `tokenizer`. -/
def Call.run (E : Env) : Call → M Ret
  | .operator_star => do pure (.tok (← tokenizer_t.operator_star))
  | .peek => do pure (.tok (← tokenizer_t.peek))
  | .consumeIf expected => do pure (.bool (← tokenizer_t.consumeIf expected))
  | .ensure expected => do
    tokenizer_t.ensure E expected
    pure .void
  | .empty => do pure (.bool (← tokenizer_t.empty))
  | .isType => do pure (.bool (← tokenizer_t.isType))
  | .isScalarType => do pure (.bool (← tokenizer_t.isScalarType))
  | .isVectorType => do pure (.bool (← tokenizer_t.isVectorType))

/-- The calls `cs` made one after the other; the list of what they
returned. -/
def calls (E : Env) : List Call → M (List Ret)
  | [] => pure []
  | c :: cs => do
    let r ← c.run E
    let rs ← calls E cs
    pure (r :: rs)

/-- Reading without lookahead, following the words of the specification:
the call `c` on the token sequence `s` of which `n` tokens are consumed.
It returns what the call returns and the number of tokens consumed after
it: a consuming read (`operator*`, `ensure`, a `consumeIf` that finds its
token) returns or checks the token at position `n` and consumes it; every
other call inspects the token at position `n` and consumes nothing. `none`
when `ensure` finds another token than the expected one. -/
def Call.direct (s : Nat → token) (n : Nat) : Call → Option (Ret × Nat)
  | .operator_star => some (.tok (s n), n + 1)
  | .peek => some (.tok (s n), n)
  | .consumeIf expected =>
    if s n == expected then some (.bool true, n + 1) else some (.bool false, n)
  | .ensure expected => if s n == expected then some (.void, n + 1) else none
  | .empty => some (.bool (s n == .END), n)
  | .isType => some (.bool (s n).isTypeToken, n)
  | .isScalarType =>
    some (.bool (s n == .INT_TYPE || s n == .FLOAT || s n == .DOUBLE || s n == .HALF
      || s n == .FP128), n)
  | .isVectorType => some (.bool (s n == .VECTOR_TYPE_PREFIX), n)

/-- Reading without lookahead: the calls `cs` one after the other on the
token sequence `s`, from `n` consumed tokens on. -/
def directCalls (s : Nat → token) : Nat → List Call → Option (List Ret × Nat)
  | n, [] => some ([], n)
  | n, c :: cs =>
    match c.direct s n with
    | none => none
    | some (r, n1) =>
      match directCalls s n1 cs with
      | none => none
      | some (rs, n2) => some (r :: rs, n2)

end parse

/-! ## A text followed by more text -/

namespace parse

/-- The state `st` when the text goes on: the lexer will deliver the
lexemes `extra` after those it delivers in `st`. -/
def extend (extra : List Lexeme) : State → State
  | ⟨input, yylval, yylineno, tokenizer, exprs, heap⟩ =>
    ⟨input ++ extra, yylval, yylineno, tokenizer, exprs, heap⟩

/-- The parser function `m'` does on a text followed by `extra` what `m`
does on the text: whenever `m` returns, `m'` returns the same value from
the state with `extra` appended, and leaves `extra` to be read. -/
def Extends {α : Type} (extra : List Lexeme) (m m' : M α) : Prop :=
  ∀ (st : State) (a : α) (st' : State),
    m st = .ok a st' → m' (extend extra st) = .ok a (extend extra st')

end parse

/-! ## Example inputs -/

/-- The 32-bit integer type. -/
def i32 : Ty := .integer 32

/-- The 1-bit integer type. -/
def i1 : Ty := .integer 1

/-- The loop analysis of a function without loops. -/
def noLoops : LoopInfo := ⟨[]⟩

/-- A straight-line function:
`define i32 @f(i32 %x) { %a = add i32 %x, 1  %v = mul i32 %a, 2  ret i32 %v }`. -/
def exStraight : Function :=
  { name := "f", retTy := i32, args := [⟨i32, "x"⟩],
    blocks := [⟨0, [⟨1, .add, i32, [.argument .VF 0 i32, .constantInt i32 1], [], "a", []⟩,
                    ⟨2, .mul, i32, [.instruction .VF 1 i32, .constantInt i32 2], [], "v", []⟩,
                    ⟨3, .ret, .void, [.instruction .VF 2 i32], [], "", []⟩]⟩] }

/-- A function in which a branch of another block uses a value computed
after the root `%v` in the root's block:
`entry: %v = add i32 %x, 1  %c = icmp eq i32 %x, 0  br label %a`,
`a: br i1 %c, label %b, label %d`, `b: ret i32 %v`, `d: ret i32 0`. -/
def exLateUse : Function :=
  { name := "f", retTy := i32, args := [⟨i32, "x"⟩],
    blocks :=
      [⟨0, [⟨1, .add, i32, [.argument .VF 0 i32, .constantInt i32 1], [], "v", []⟩,
            ⟨2, .icmp, i1, [.argument .VF 0 i32, .constantInt i32 0], [], "c", []⟩,
            ⟨3, .br, .void, [.basicBlock .VF 1], [], "", []⟩]⟩,
       ⟨1, [⟨4, .br, .void, [.instruction .VF 2 i1, .basicBlock .VF 3, .basicBlock .VF 2],
              [], "", []⟩]⟩,
       ⟨2, [⟨5, .ret, .void, [.instruction .VF 1 i32], [], "", []⟩]⟩,
       ⟨3, [⟨6, .ret, .void, [.constantInt i32 0], [], "", []⟩]⟩] }

/-- A root with an operand of array type:
`define i32 @f([2 x i32] %a) { %v = extractvalue [2 x i32] %a, 0  ret i32 %v }`. -/
def exArray : Function :=
  { name := "f", retTy := i32, args := [⟨.array 2 i32, "a"⟩],
    blocks := [⟨0, [⟨1, .extractvalue, i32, [.argument .VF 0 (.array 2 i32)], [], "v", []⟩,
                    ⟨2, .ret, .void, [.instruction .VF 1 i32], [], "", []⟩]⟩] }

/-- A call without arguments, whose only operand is the callee:
`define i32 @g() { %v = call i32 @h()  ret i32 %v }`. -/
def exCallee : Function :=
  { name := "g", retTy := i32, args := [],
    blocks := [⟨0, [⟨1, .call, i32, [.globalValue "h" (.pointer 0)], [], "v", []⟩,
                    ⟨2, .ret, .void, [.instruction .VF 1 i32], [], "", []⟩]⟩] }

/-- A root with a pointer operand:
`define i32 @f(i32 %x, ptr %p) { %v = load i32, ptr %p  ret i32 %v }`. -/
def exLoad : Function :=
  { name := "f", retTy := i32, args := [⟨i32, "x"⟩, ⟨.pointer 0, "p"⟩],
    blocks := [⟨0, [⟨1, .load, i32, [.argument .VF 1 (.pointer 0)], [], "v", []⟩,
                    ⟨2, .ret, .void, [.instruction .VF 1 i32], [], "", []⟩]⟩] }

/-- A function with two arms:
`entry: %c = icmp eq i32 %x, 0  br i1 %c, label %a, label %b`,
`a: %v = add i32 %x, 1  ret i32 %v`, `b: ret i32 0`. -/
def exBranch : Function :=
  { name := "f", retTy := i32, args := [⟨i32, "x"⟩],
    blocks :=
      [⟨0, [⟨1, .icmp, i1, [.argument .VF 0 i32, .constantInt i32 0], [], "c", [32]⟩,
            ⟨2, .br, .void, [.instruction .VF 1 i1, .basicBlock .VF 2, .basicBlock .VF 1],
              [], "", []⟩]⟩,
       ⟨1, [⟨3, .add, i32, [.argument .VF 0 i32, .constantInt i32 1], [], "v", []⟩,
            ⟨4, .ret, .void, [.instruction .VF 3 i32], [], "", []⟩]⟩,
       ⟨2, [⟨5, .ret, .void, [.constantInt i32 0], [], "", []⟩]⟩] }

/-- A function whose entry block ends in an indirect branch and computes a
value the root depends on:
`entry: %a = add i32 %x, 1  indirectbr ptr %addr, [label %L1]`,
`L1: %v = mul i32 %a, 2  ret i32 %v`. -/
def exIndirect : Function :=
  { name := "f", retTy := i32, args := [⟨i32, "x"⟩, ⟨.pointer 0, "addr"⟩],
    blocks :=
      [⟨0, [⟨1, .add, i32, [.argument .VF 0 i32, .constantInt i32 1], [], "a", []⟩,
            ⟨2, .indirectbr, .void, [.argument .VF 1 (.pointer 0), .basicBlock .VF 1],
              [], "", []⟩]⟩,
       ⟨1, [⟨3, .mul, i32, [.instruction .VF 1 i32, .constantInt i32 2], [], "v", []⟩,
            ⟨4, .ret, .void, [.instruction .VF 3 i32], [], "", []⟩]⟩] }

/-- True when somewhere in the instruction list the instruction `NewV` is
immediately followed by a return whose only operand is `NewV`. -/
def followedByRet (NewV : Value) : List Instruction → Bool
  | J :: R :: rest =>
    (J.asValue .F == NewV && R.opcode == .ret && R.operands == [NewV])
      || followedByRet NewV (R :: rest)
  | _ => false

/-- The seeds of the worklist for the root `V`: the root itself, and the
terminator of every block other than the root's that is a branch or a
switch. -/
def IsSeed (VF : Function) (V : Value) (s : Value) : Prop :=
  s = V ∨ ∃ vbb, VF.getParent .VF V = some vbb ∧ ∃ BB ∈ VF.blocks, BB.id ≠ vbb.id
    ∧ ∃ T, BB.getTerminator = some T ∧ (T.opcode = .br ∨ T.opcode = .switch)
    ∧ s = T.asValue .VF

/-- A function with the `i32` arguments `%x` and `%y` and one block, for
the parser to resolve names in: `entry: ret i32 %x`. -/
def exParseF : Function :=
  ⟨"f", i32, [⟨i32, "x"⟩, ⟨i32, "y"⟩],
    [⟨0, [⟨1, .ret, .void, [.argument .VF 0 i32], [], "", []⟩]⟩]⟩

/-- The symbol table of `exParseF`: the arguments `x` and `y` and the block
`entry`. -/
def exSymbolTable (id : String) : Option Value :=
  if id == "x" then some (.argument .VF 0 i32)
  else if id == "y" then some (.argument .VF 1 i32)
  else if id == "entry" then some (.basicBlock .VF 0)
  else none

/-- A table `token_name`: every token under the name of its enumerator. -/
def exToken_name : parse.token → String
  | .END => "END"
  | .LPAREN => "LPAREN"
  | .RPAREN => "RPAREN"
  | .CSGT => "CSGT"
  | .VECTOR_TYPE_PREFIX => "VECTOR_TYPE_PREFIX"
  | .INT_TYPE => "INT_TYPE"
  | .FLOAT => "FLOAT"
  | .DOUBLE => "DOUBLE"
  | .HALF => "HALF"
  | .FP128 => "FP128"
  | .REGISTER => "REGISTER"
  | .BITS => "BITS"
  | .LITERAL => "LITERAL"
  | .VAR => "VAR"
  | .CONST => "CONST"
  | .COPY => "COPY"
  | .BITREVERSE => "BITREVERSE"
  | .BSWAP => "BSWAP"
  | .CTPOP => "CTPOP"
  | .CTLZ => "CTLZ"
  | .CTTZ => "CTTZ"
  | .FNEG => "FNEG"
  | .FABS => "FABS"
  | .FCEIL => "FCEIL"
  | .FFLOOR => "FFLOOR"
  | .FRINT => "FRINT"
  | .FNEARBYINT => "FNEARBYINT"
  | .FROUND => "FROUND"
  | .FROUNDEVEN => "FROUNDEVEN"
  | .FTRUNC => "FTRUNC"
  | .BAND => "BAND"
  | .BOR => "BOR"
  | .BXOR => "BXOR"
  | .LSHR => "LSHR"
  | .ASHR => "ASHR"
  | .SHL => "SHL"
  | .ADD => "ADD"
  | .SUB => "SUB"
  | .MUL => "MUL"
  | .SDIV => "SDIV"
  | .UDIV => "UDIV"
  | .UMAX => "UMAX"
  | .UMIN => "UMIN"
  | .SMAX => "SMAX"
  | .SMIN => "SMIN"
  | .FADD => "FADD"
  | .FSUB => "FSUB"
  | .FMUL => "FMUL"
  | .FDIV => "FDIV"
  | .FMAXNUM => "FMAXNUM"
  | .FMINNUM => "FMINNUM"
  | .FMAXIMUM => "FMAXIMUM"
  | .FMINIMUM => "FMINIMUM"
  | .COPYSIGN => "COPYSIGN"
  | .EQ => "EQ"
  | .NE => "NE"
  | .ULT => "ULT"
  | .ULE => "ULE"
  | .UGT => "UGT"
  | .UGE => "UGE"
  | .SLT => "SLT"
  | .SLE => "SLE"
  | .SGT => "SGT"
  | .SGE => "SGE"
  | .FCMP_TRUE => "FCMP_TRUE"
  | .FCMP_OEQ => "FCMP_OEQ"
  | .FCMP_OGT => "FCMP_OGT"
  | .FCMP_OGE => "FCMP_OGE"
  | .FCMP_OLT => "FCMP_OLT"
  | .FCMP_OLE => "FCMP_OLE"
  | .FCMP_ONE => "FCMP_ONE"
  | .FCMP_ORD => "FCMP_ORD"
  | .FCMP_UEQ => "FCMP_UEQ"
  | .FCMP_UGT => "FCMP_UGT"
  | .FCMP_UGE => "FCMP_UGE"
  | .FCMP_ULT => "FCMP_ULT"
  | .FCMP_ULE => "FCMP_ULE"
  | .FCMP_UNE => "FCMP_UNE"
  | .FCMP_UNO => "FCMP_UNO"
  | .FCMP_FALSE => "FCMP_FALSE"
  | .SHUFFLE => "SHUFFLE"
  | .BLEND => "BLEND"
  | .SELECT => "SELECT"
  | .INSERTELEMENT => "INSERTELEMENT"
  | .EXTRACTELEMENT => "EXTRACTELEMENT"
  | .CONV_ZEXT => "CONV_ZEXT"
  | .CONV_SEXT => "CONV_SEXT"
  | .CONV_TRUNC => "CONV_TRUNC"
  | .CONV_FPTRUNC => "CONV_FPTRUNC"
  | .CONV_FPEXT => "CONV_FPEXT"
  | .CONV_SITOFP => "CONV_SITOFP"
  | .CONV_UITOFP => "CONV_UITOFP"
  | .CONV_FPTOSI => "CONV_FPTOSI"
  | .CONV_FPTOUI => "CONV_FPTOUI"
  | .X86BINARY => "X86BINARY"
  | .OTHER => "OTHER"

/-- A constant parser that knows the text `i32 255`. -/
def exParseConstantValue (s : String) : Option Value :=
  if s == "i32 255" then some (.constantInt i32 255) else none

/-- An environment of the parser: the symbol table of `exParseF`,
`exToken_name`, `exParseConstantValue`, and no intrinsic names. -/
def exEnv : parse.Env :=
  ⟨exSymbolTable, exToken_name, exParseConstantValue, fun _ => none⟩

/-- A token without a semantic value, on line 1. -/
def lexeme (t : parse.token) : parse.Lexeme :=
  .token t ⟨0, ""⟩ 1

/-- The integer type token `iN`, on line 1. -/
def lexemeInt (bits : Nat) : parse.Lexeme :=
  .token .INT_TYPE ⟨bits, ""⟩ 1

/-- The register token with the text `s`, on line 1. -/
def lexemeReg (s : String) : parse.Lexeme :=
  .token .REGISTER ⟨0, s⟩ 1

/-- The state of a new parser after `yylex_init` on a text with the given
tokens: nothing read, nothing held back, an empty arena. -/
def exStart (input : List parse.Lexeme) : parse.State :=
  ⟨input, ⟨0, ""⟩, 1, ⟨.END, false⟩, [], 0⟩

/-- The tokens of `(band i32 (var i32 %x) (const i32 255))`, the literal
token carrying the text `lit`. -/
def exBandTokens (lit : String) : List parse.Lexeme :=
  [lexeme .LPAREN, lexeme .BAND, lexemeInt 32,
   lexeme .LPAREN, lexeme .VAR, lexemeInt 32, lexemeReg "%x", lexeme .RPAREN,
   lexeme .LPAREN, lexeme .CONST, lexemeInt 32, .token .LITERAL ⟨0, lit⟩ 1, lexeme .RPAREN,
   lexeme .RPAREN]

/-- The tokens of `(ugt (var i32 %x) (var i32 %y) b1)`, the width token
carrying 1. -/
def exUgtTokens : List parse.Lexeme :=
  [lexeme .LPAREN, lexeme .UGT,
   lexeme .LPAREN, lexeme .VAR, lexemeInt 32, lexemeReg "%x", lexeme .RPAREN,
   lexeme .LPAREN, lexeme .VAR, lexemeInt 32, lexemeReg "%y", lexeme .RPAREN,
   .token .BITS ⟨1, ""⟩ 1, lexeme .RPAREN]

/-- A function with an `i32` argument `%x` and an `i64` argument `%w`. -/
def exMixedF : Function :=
  ⟨"f", i32, [⟨i32, "x"⟩, ⟨.integer 64, "w"⟩], []⟩

/-- The symbol table of `exMixedF`: the arguments `x` and `w`. -/
def exMixedSymbolTable (id : String) : Option Value :=
  if id == "x" then some (.argument .VF 0 i32)
  else if id == "w" then some (.argument .VF 1 (.integer 64))
  else none

/-- An environment of the parser that resolves names in `exMixedF`. -/
def exMixedEnv : parse.Env :=
  ⟨exMixedSymbolTable, exToken_name, exParseConstantValue, fun _ => none⟩

/-- The tokens of `(add i32 (var i32 %x) (var i64 %w))`. -/
def exMixedTokens : List parse.Lexeme :=
  [lexeme .LPAREN, lexeme .ADD, lexemeInt 32,
   lexeme .LPAREN, lexeme .VAR, lexemeInt 32, lexemeReg "%x", lexeme .RPAREN,
   lexeme .LPAREN, lexeme .VAR, lexemeInt 64, lexemeReg "%w", lexeme .RPAREN,
   lexeme .RPAREN]

/-- A node used twice: `x * y`. -/
def exShared : Inst :=
  .BinaryInst .mul (.Var (.argument .VF 0 i32)) (.Var (.argument .VF 1 i32))

/-- A folder that folds as `llvm::ConstantFolder` does, as far as the
examples need it: the sum of two integer constants of one integer type is
the constant of their wrapped sum; nothing else is folded. -/
def exConstantFolder : IRBuilderFolder
  | _, .add, .constantInt (.integer w) m, .constantInt (.integer w') n =>
    if w = w' then some (.constantInt (.integer w) ((m + n) % 2 ^ w)) else none
  | _, _, _, _ => none

/-- A constant map that binds the placeholders `%0` and `%1` of two constant
nodes to the constants 1 and 2. -/
def exConstMap : PtrMap (Option Value) :=
  [(some (.argument .F 0 i32), some (.constantInt i32 1)),
   (some (.argument .F 1 i32), some (.constantInt i32 2))]

/-- The tokens of `(shuffle <4 x i32> (var i32 %x) (const i32 255))`. -/
def exShuffleTokens : List parse.Lexeme :=
  [lexeme .LPAREN, lexeme .SHUFFLE, .token .VECTOR_TYPE_PREFIX ⟨4, ""⟩ 1, lexemeInt 32,
   lexeme .CSGT,
   lexeme .LPAREN, lexeme .VAR, lexemeInt 32, lexemeReg "%x", lexeme .RPAREN,
   lexeme .LPAREN, lexeme .CONST, lexemeInt 32, .token .LITERAL ⟨0, "|i32 255|"⟩ 1,
   lexeme .RPAREN,
   lexeme .RPAREN]

/-- The tokens of
`(blend <4 x i32> (var i32 %x) (var i32 %y) (const i32 255))`. -/
def exBlendTokens : List parse.Lexeme :=
  [lexeme .LPAREN, lexeme .BLEND, .token .VECTOR_TYPE_PREFIX ⟨4, ""⟩ 1, lexemeInt 32,
   lexeme .CSGT,
   lexeme .LPAREN, lexeme .VAR, lexemeInt 32, lexemeReg "%x", lexeme .RPAREN,
   lexeme .LPAREN, lexeme .VAR, lexemeInt 32, lexemeReg "%y", lexeme .RPAREN,
   lexeme .LPAREN, lexeme .CONST, lexemeInt 32, .token .LITERAL ⟨0, "|i32 255|"⟩ 1,
   lexeme .RPAREN,
   lexeme .RPAREN]

/-- The tokens of `(extractelement i32 (var i32 %x) (const i32 255))`. -/
def exExtractTokens : List parse.Lexeme :=
  [lexeme .LPAREN, lexeme .EXTRACTELEMENT, lexemeInt 32,
   lexeme .LPAREN, lexeme .VAR, lexemeInt 32, lexemeReg "%x", lexeme .RPAREN,
   lexeme .LPAREN, lexeme .CONST, lexemeInt 32, .token .LITERAL ⟨0, "|i32 255|"⟩ 1,
   lexeme .RPAREN,
   lexeme .RPAREN]

/-- The tokens of
`(add i32 (shuffle <4 x i32> (var i32 %x) (const i32 255)) (var i32 %y))`:
a shuffle as the first operand of an addition. -/
def exShuffleOperandTokens : List parse.Lexeme :=
  [lexeme .LPAREN, lexeme .ADD, lexemeInt 32] ++ exShuffleTokens
    ++ [lexeme .LPAREN, lexeme .VAR, lexemeInt 32, lexemeReg "%y", lexeme .RPAREN,
        lexeme .RPAREN]

/-- The tokens of `(var i64 %x)`: the annotation `i64` on a name that
`exParseF` binds to an `i32` argument. -/
def exVarMismatchTokens : List parse.Lexeme :=
  [lexeme .LPAREN, lexeme .VAR, lexemeInt 64, lexemeReg "%x", lexeme .RPAREN]

/-- The tokens of `(var i32 %entry)`: the annotation `i32` on the name of a
basic block of `exParseF`. -/
def exVarBlockTokens : List parse.Lexeme :=
  [lexeme .LPAREN, lexeme .VAR, lexemeInt 32, lexemeReg "%entry", lexeme .RPAREN]

/-! ## Basic facts about the model -/

theorem resolve_eq_asValue (VF : Function) (p : FuncRef) (W : Value) (I : Instruction)
    (h : VF.resolve p W = some I) : W = I.asValue p := by
  unfold Function.resolve at h
  have := List.find?_some h
  exact (eq_of_beq this).symm

theorem resolve_mem (VF : Function) (p : FuncRef) (W : Value) (I : Instruction)
    (h : VF.resolve p W = some I) : I ∈ VF.instructions := by
  unfold Function.resolve at h
  exact List.mem_of_find?_eq_some h

theorem Mapping.get?_set (m : Mapping) (k v k' : Value) :
    (m.set k v).get? k' = if k' = k then some v else m.get? k' := by
  unfold Mapping.set Mapping.get?
  by_cases h : k' = k
  · subst h
    simp
  · have hne : (k == k') = false := by
      simp only [beq_eq_false_iff_ne, ne_eq]
      exact fun e => h e.symm
    simp only [List.find?_cons, hne, h, if_false]
    congr 1
    induction m with
    | nil => rfl
    | cons e rest ih =>
      by_cases hk : e.1 = k
      · have h2 : (e.1 == k') = false := by
          simp only [beq_eq_false_iff_ne, ne_eq, hk]
          exact fun e => h e.symm
        have h3 : (e.1 != k) = false := by simp [hk]
        rw [List.filter_cons, List.find?_cons]
        simp only [h2, h3]
        exact ih
      · have h3 : (e.1 != k) = true := by simp [hk]
        rw [List.filter_cons]
        simp only [h3, if_true, List.find?_cons]
        split
        · rfl
        · exact ih

theorem handleNonBranching_args (Fn : Function) (nb : List Nat) (id : Nat) :
    (handleNonBranching Fn nb id).args = Fn.args
      ∧ (handleNonBranching Fn nb id).retTy = Fn.retTy
      ∧ (handleNonBranching Fn nb id).name = Fn.name := by
  induction nb generalizing Fn id with
  | nil => exact ⟨rfl, rfl, rfl⟩
  | cons bb rest ih =>
    have h := ih (appendUnreachable Fn bb id) (id + 1)
    simpa [handleNonBranching, appendUnreachable] using h

theorem eraseStep_args (CC : List Value) (Fn : Function) (RI : Value) :
    (eraseStep CC Fn RI).args = Fn.args ∧ (eraseStep CC Fn RI).retTy = Fn.retTy
      ∧ (eraseStep CC Fn RI).name = Fn.name := by
  unfold eraseStep
  split
  · exact ⟨rfl, rfl, rfl⟩
  · exact ⟨rfl, rfl, rfl⟩

theorem foldl_eraseStep_args (CC : List Value) (order : List Value) (Fn : Function) :
    (order.foldl (eraseStep CC) Fn).args = Fn.args
      ∧ (order.foldl (eraseStep CC) Fn).retTy = Fn.retTy
      ∧ (order.foldl (eraseStep CC) Fn).name = Fn.name := by
  induction order generalizing Fn with
  | nil => exact ⟨rfl, rfl, rfl⟩
  | cons RI rest ih =>
    obtain ⟨h1, h2, h3⟩ := ih (eraseStep CC Fn RI)
    obtain ⟨e1, e2, e3⟩ := eraseStep_args CC Fn RI
    exact ⟨by simpa [e1] using h1, by simpa [e2] using h2, by simpa [e3] using h3⟩

theorem builtFunction_signature (VF : Function) (V : Value) (C : List Value)
    (nb : List Nat) :
    (builtFunction VF V C nb).args = VF.args
      ∧ (builtFunction VF V C nb).retTy = V.getType
      ∧ (builtFunction VF V C nb).name = "foo" := by
  unfold builtFunction deleteNonCandidates
  obtain ⟨h1, h2, h3⟩ := handleNonBranching_args
    ((deletionOrder (clonedFunction VF V)).foldl
      (eraseStep (clonedCandidates VF V C)) (clonedFunction VF V)) nb (VF.freshId + 1)
  obtain ⟨e1, e2, e3⟩ := foldl_eraseStep_args (clonedCandidates VF V C)
    (deletionOrder (clonedFunction VF V)) (clonedFunction VF V)
  rw [h1, h2, h3, e1, e2, e3]
  exact ⟨rfl, rfl, rfl⟩

/-- What `extractExpr` returns when it returns a fragment. -/
theorem extractExpr_fragment_inv (D : Nat) (LI : LoopInfo) (verify : Function → Bool)
    (VF : Function) (mapping : Mapping) (V : Value) (Fn : Function) (m : Mapping)
    (h : extractExpr D LI verify VF mapping V = .fragment Fn m) :
    ∃ vbb Worklist nb, VF.getParent .VF V = some vbb
      ∧ loopNotSimplified LI vbb.id = false
      ∧ seed vbb.id VF.blocks = some (Worklist, nb)
      ∧ Fn = builtFunction VF V (candidates D VF V Worklist) nb
      ∧ m = builtMapping VF (candidates D VF V Worklist) mapping
      ∧ verify Fn = false := by
  unfold extractExpr at h
  split at h
  · exact absurd h (by simp)
  · rename_i vbb hvbb
    split at h
    · exact absurd h (by simp)
    · rename_i hloop
      split at h
      · exact absurd h (by simp)
      · rename_i Worklist nb hseed
        split at h
        · exact absurd h (by simp)
        · rename_i hver
          simp only [Outcome.fragment.injEq] at h
          refine ⟨vbb, Worklist, nb, hvbb, by simpa using hloop, hseed, h.1.symm, h.2.symm, ?_⟩
          rw [← h.1]
          simpa using hver

/-! ## The deletion loops in closed form -/

theorem pruned_nil (Fn : Function) : pruned [] Fn = Fn := by
  unfold pruned poisonDead
  cases Fn with
  | mk name retTy args blocks =>
    simp only [Function.mk.injEq, true_and]
    have hb : ∀ BB : BasicBlock,
        ({ BB with
            insts := (BB.insts.filter
              (fun I => !(([] : List Value).contains (I.asValue .F)))).map
                (fun I => { I with
                  operands := I.operands.map
                    (fun op => if ([] : List Value).contains op then Value.poison op.getType
                      else op) }) } : BasicBlock) = BB := by
      intro BB
      cases BB with
      | mk id insts =>
        simp
    simp

theorem eraseStep_pruned (CC dead : List Value) (Fn : Function) (RI : Value) :
    eraseStep CC (pruned dead Fn) RI
      = pruned (if CC.contains RI then dead else RI :: dead) Fn := by
  unfold eraseStep
  by_cases hc : CC.contains RI = true
  · rw [if_pos hc, if_pos hc]
  · rw [if_neg hc, if_neg hc]
    unfold eraseFromParent replaceAllUsesWith pruned
    simp only [List.map_map, Function.mk.injEq, true_and]
    apply List.map_congr_left
    intro BB _
    simp only [Function.comp, BasicBlock.mk.injEq, true_and, List.filter_map,
      List.filter_filter, List.map_map]
    refine congrArg₂ List.map (funext fun I => ?_)
      (congrArg₂ List.filter (funext fun I => ?_) rfl)
    · simp only [Function.comp, Instruction.mk.injEq, true_and, and_true, List.map_map]
      apply List.map_congr_left
      intro op _
      simp only [Function.comp, poisonDead, List.contains_cons]
      by_cases hd : dead.contains op = true
      · simp only [hd, if_true, Bool.or_true]
        split
        · rename_i heq
          have := eq_of_beq heq
          rw [← this]
          rfl
        · rfl
      · simp only [hd, Bool.or_false]
        by_cases he : op = RI
        · subst he
          simp
        · have : (op == RI) = false := by simpa using he
          simp [this]
    · simp only [Function.comp, Instruction.asValue, List.contains_cons]
      cases h1 : (Value.instruction FuncRef.F I.id I.ty == RI) <;>
        cases h2 : dead.contains (Value.instruction FuncRef.F I.id I.ty) <;>
        simp [bne, h1, h2]

theorem foldl_eraseStep_pruned (CC : List Value) (Fn : Function) (order dead : List Value) :
    order.foldl (eraseStep CC) (pruned dead Fn) = pruned (erased CC order dead) Fn := by
  induction order generalizing dead with
  | nil => rfl
  | cons RI rest ih =>
    simp only [List.foldl_cons, erased]
    rw [eraseStep_pruned]
    exact ih _

theorem deleteNonCandidates_eq (CC : List Value) (Fn : Function) :
    deleteNonCandidates CC Fn = pruned (erased CC (deletionOrder Fn) []) Fn := by
  unfold deleteNonCandidates
  conv_lhs => rw [← pruned_nil Fn]
  rw [foldl_eraseStep_pruned]
  rw [pruned_nil]

theorem mem_erased (CC : List Value) (order dead : List Value) (v : Value) :
    v ∈ erased CC order dead ↔ (v ∈ order ∧ CC.contains v = false) ∨ v ∈ dead := by
  induction order generalizing dead with
  | nil => simp [erased]
  | cons RI rest ih =>
    simp only [erased, List.foldl_cons]
    have h := ih (if CC.contains RI then dead else RI :: dead)
    simp only [erased] at h
    rw [h]
    by_cases hc : CC.contains RI = true
    · rw [if_pos hc]
      simp only [List.mem_cons]
      constructor
      · rintro (⟨h1, h2⟩ | h1)
        · exact Or.inl ⟨Or.inr h1, h2⟩
        · exact Or.inr h1
      · rintro (⟨h1 | h1, h2⟩ | h1)
        · subst h1
          rw [hc] at h2
          exact absurd h2 (by simp)
        · exact Or.inl ⟨h1, h2⟩
        · exact Or.inr h1
    · rw [if_neg hc]
      simp only [List.mem_cons]
      constructor
      · rintro (⟨h1, h2⟩ | h1 | h1)
        · exact Or.inl ⟨Or.inr h1, h2⟩
        · subst h1
          exact Or.inl ⟨Or.inl rfl, by simpa using hc⟩
        · exact Or.inr h1
      · rintro (⟨h1 | h1, h2⟩ | h1)
        · exact Or.inr (Or.inl h1)
        · exact Or.inl ⟨h1, h2⟩
        · exact Or.inr (Or.inr h1)

/-! ## Invariants of the worklist loop -/

theorem harvest_induction (D : Nat) (VF : Function) (Q : Value → Prop)
    (R : Value → Nat → Prop)
    (hstep : ∀ W d I, R W d → d ≤ D → VF.resolve .VF W = some I →
      haveUnknownOperand I = false →
      Q W ∧ ∀ Op ∈ I.operands, Op.isInstruction = true → R Op (d + 1)) :
    ∀ (fuel : Nat) (wl : List (Value × Nat)) (C : List Value),
      (∀ e ∈ wl, R e.1 e.2) → (∀ W ∈ C, Q W) → ∀ W ∈ harvest D VF fuel wl C, Q W := by
  intro fuel
  induction fuel with
  | zero =>
    intro wl C _ hC W hW
    simp only [harvest] at hW
    exact hC W hW
  | succ fuel ih =>
    intro wl C hwl hC W hW
    cases wl with
    | nil =>
      simp only [harvest] at hW
      exact hC W hW
    | cons e rest =>
      obtain ⟨W0, d⟩ := e
      have hrest : ∀ e ∈ rest, R e.1 e.2 := fun e he => hwl e (List.mem_cons_of_mem _ he)
      have hR : R W0 d := hwl (W0, d) (List.mem_cons_self _ _)
      simp only [harvest] at hW
      split at hW
      · exact ih rest C hrest hC W hW
      · rename_i hd
        split at hW
        · exact ih rest C hrest hC W hW
        · rename_i I hI
          split at hW
          · exact ih rest C hrest hC W hW
          · rename_i hunk
            split at hW
            · exact ih rest C hrest hC W hW
            · obtain ⟨hQ, hops⟩ := hstep W0 d I hR (by omega) hI (by simpa using hunk)
              refine ih _ _ ?_ ?_ W hW
              · intro e he
                rcases List.mem_append.mp he with he | he
                · exact hrest e he
                · simp only [pushOperands, List.mem_map, List.mem_filter] at he
                  obtain ⟨Op, ⟨hOp, hins⟩, rfl⟩ := he
                  exact hops Op hOp hins
              · intro W' hW'
                rcases List.mem_append.mp hW' with h | h
                · exact hC W' h
                · simp only [List.mem_singleton] at h
                  subst h
                  exact hQ

theorem harvest_mono (D : Nat) (VF : Function) :
    ∀ (fuel : Nat) (wl : List (Value × Nat)) (C : List Value),
      ∀ W ∈ C, W ∈ harvest D VF fuel wl C := by
  intro fuel
  induction fuel with
  | zero =>
    intro wl C W hW
    simpa only [harvest] using hW
  | succ fuel ih =>
    intro wl C W hW
    cases wl with
    | nil => simpa only [harvest] using hW
    | cons e rest =>
      obtain ⟨W0, d⟩ := e
      simp only [harvest]
      split
      · exact ih rest C W hW
      · split
        · exact ih rest C W hW
        · split
          · exact ih rest C W hW
          · split
            · exact ih rest C W hW
            · exact ih _ _ W (List.mem_append_left _ hW)

/-- Every candidate is an instruction of the enclosing function whose operand
scan found no unknown operand. -/
theorem candidates_resolve (D : Nat) (VF : Function) (V : Value)
    (Worklist : List (Value × Nat)) :
    ∀ W ∈ candidates D VF V Worklist,
      ∃ I, VF.resolve .VF W = some I ∧ haveUnknownOperand I = false := by
  unfold candidates
  refine harvest_induction D VF
    (fun W => ∃ I, VF.resolve .VF W = some I ∧ haveUnknownOperand I = false)
    (fun _ _ => True) ?_ _ _ _ (fun _ _ => trivial) (by simp)
  intro W d I _ _ hI hunk
  exact ⟨⟨I, hI, hunk⟩, fun _ _ _ => trivial⟩

/-- The root is a candidate as soon as its operand scan finds no unknown
operand. -/
theorem root_mem_candidates (D : Nat) (VF : Function) (V : Value)
    (Worklist : List (Value × Nat)) (I : Instruction)
    (hI : VF.resolve .VF V = some I) (hunk : haveUnknownOperand I = false) :
    V ∈ candidates D VF V Worklist := by
  unfold candidates harvestFuel
  simp only [harvest, hI, hunk]
  have h0 : ¬ (0 > D) := by omega
  simp only [h0, if_false]
  apply harvest_mono
  simp

/-- Every candidate lies on a chain of at most `slicer_max_depth` operand
hops that starts at an entry of the initial worklist. -/
theorem candidates_chain (D : Nat) (VF : Function) (V : Value)
    (Worklist : List (Value × Nat)) (h0 : ∀ e ∈ Worklist, e.2 = 0) :
    ∀ W ∈ candidates D VF V Worklist,
      ∃ s k, (s = V ∨ s ∈ Worklist.map Prod.fst) ∧ k ≤ D ∧ Chain VF s k W := by
  unfold candidates
  refine harvest_induction D VF
    (fun W => ∃ s k, (s = V ∨ s ∈ Worklist.map Prod.fst) ∧ k ≤ D ∧ Chain VF s k W)
    (fun W d => ∃ s, (s = V ∨ s ∈ Worklist.map Prod.fst) ∧ Chain VF s d W)
    ?_ _ _ _ ?_ (by simp)
  · intro W d I hR hd hI _
    obtain ⟨s, hs, hch⟩ := hR
    exact ⟨⟨s, d, hs, hd, hch⟩, fun Op hOp hins => ⟨s, hs, Chain.hop hch hI hOp hins⟩⟩
  · intro e he
    rcases List.mem_cons.mp he with h | h
    · subst h
      exact ⟨V, Or.inl rfl, Chain.start⟩
    · refine ⟨e.1, Or.inr (List.mem_map.mpr ⟨e, h, rfl⟩), ?_⟩
      rw [h0 e h]
      exact Chain.start

/-! ## The worklist loop runs to completion -/

theorem pendingOperands_insert_le (C : List Value) (W : Value) (l : List Instruction) :
    pendingOperands (C ++ [W]) l ≤ pendingOperands C l := by
  induction l with
  | nil => simp [pendingOperands]
  | cons J rest ih =>
    unfold pendingOperands at ih ⊢
    simp only [List.filter_cons]
    by_cases h1 : C.contains (J.asValue .VF) = true
    · have h2 : (C ++ [W]).contains (J.asValue .VF) = true := by
        rw [List.contains, List.elem_iff] at h1 ⊢
        exact List.mem_append_left _ h1
      simp only [h1, h2, Bool.not_true, Bool.false_eq_true, if_false]
      exact ih
    · have h1' : C.contains (J.asValue .VF) = false := by simpa using h1
      simp only [h1', Bool.not_false, if_true, List.map_cons, List.sum_cons]
      split
      · simp only [List.map_cons, List.sum_cons]
        omega
      · omega

theorem pendingOperands_insert (C : List Value) (W : Value) (hW : C.contains W = false)
    (I : Instruction) (hIW : I.asValue .VF = W) :
    ∀ (l : List Instruction), I ∈ l →
      pendingOperands (C ++ [W]) l + I.operands.length ≤ pendingOperands C l := by
  intro l
  induction l with
  | nil => intro h; simp at h
  | cons J rest ih =>
    intro hmem
    have hle := pendingOperands_insert_le C W rest
    unfold pendingOperands at ih hle ⊢
    simp only [List.filter_cons]
    by_cases hJ : J.asValue .VF = W
    · have h1 : C.contains (J.asValue .VF) = false := by rw [hJ]; exact hW
      have h2 : (C ++ [W]).contains (J.asValue .VF) = true := by
        rw [hJ, List.contains, List.elem_iff]
        simp
      simp only [h1, h2, Bool.not_true, Bool.not_false, Bool.false_eq_true, if_false, if_true,
        List.map_cons, List.sum_cons]
      rcases List.mem_cons.mp hmem with h | h
      · subst h
        omega
      · have := ih h
        omega
    · have hI : I ∈ rest := by
        rcases List.mem_cons.mp hmem with h | h
        · subst h
          exact absurd hIW hJ
        · exact h
      have := ih hI
      by_cases h1 : C.contains (J.asValue .VF) = true
      · have h2 : (C ++ [W]).contains (J.asValue .VF) = true := by
          rw [List.contains, List.elem_iff] at h1 ⊢
          exact List.mem_append_left _ h1
        simp only [h1, h2, Bool.not_true, Bool.false_eq_true, if_false]
        exact this
      · have h1' : C.contains (J.asValue .VF) = false := by simpa using h1
        have h2 : (C ++ [W]).contains (J.asValue .VF) = false := by
          rw [List.contains, ← Bool.not_eq_true, List.elem_iff] at h1' ⊢
          simp only [List.mem_append, List.mem_singleton, not_or]
          exact ⟨h1', hJ⟩
        simp only [h1', h2, Bool.not_false, if_true, List.map_cons, List.sum_cons]
        omega

theorem pushOperands_length (I : Instruction) (Depth : Nat) :
    (pushOperands I Depth).length ≤ I.operands.length := by
  unfold pushOperands
  rw [List.length_map]
  exact List.length_filter_le _ _

/-- The worklist loop does not depend on the fuel once the fuel exceeds the
worklist length plus the operands of the instructions that are not yet
candidates: within that many pops the worklist is empty. -/
theorem harvest_fuel_stable (D : Nat) (VF : Function) :
    ∀ (fuel fuel' : Nat) (wl : List (Value × Nat)) (C : List Value),
      wl.length + pendingOperands C VF.instructions < fuel →
      wl.length + pendingOperands C VF.instructions < fuel' →
      harvest D VF fuel wl C = harvest D VF fuel' wl C := by
  intro fuel
  induction fuel with
  | zero => intro fuel' wl C h; omega
  | succ fuel ih =>
    intro fuel' wl C h h'
    cases fuel' with
    | zero => omega
    | succ fuel' =>
      cases wl with
      | nil => simp only [harvest]
      | cons e rest =>
        obtain ⟨W, d⟩ := e
        simp only [List.length_cons] at h h'
        have hrec : harvest D VF fuel rest C = harvest D VF fuel' rest C :=
          ih fuel' rest C (by omega) (by omega)
        simp only [harvest]
        split
        · exact hrec
        · split
          · exact hrec
          · rename_i I hI
            split
            · exact hrec
            · split
              · exact hrec
              · rename_i hnotin
                have hW : C.contains W = false := by simpa using hnotin
                have hp := pendingOperands_insert C W hW I
                  (resolve_eq_asValue VF .VF W I hI).symm VF.instructions
                  (resolve_mem VF .VF W I hI)
                have hl := pushOperands_length I d
                apply ih
                · rw [List.length_append]
                  omega
                · rw [List.length_append]
                  omega

/-- The fuel given to the worklist loop by `candidates` is enough: more
fuel gives the same candidate set. -/
theorem candidates_fuel (D : Nat) (VF : Function) (V : Value)
    (Worklist : List (Value × Nat)) (k : Nat) :
    harvest D VF (harvestFuel VF ((V, 0) :: Worklist) + k) ((V, 0) :: Worklist) []
      = candidates D VF V Worklist := by
  unfold candidates
  have hp : pendingOperands [] VF.instructions
      = (VF.instructions.map (fun I => I.operands.length)).sum := by
    unfold pendingOperands
    simp
  apply harvest_fuel_stable
  · rw [hp]
    unfold harvestFuel
    omega
  · rw [hp]
    unfold harvestFuel
    omega

/-! ## The built function in closed form -/

theorem handleNonBranching_eq (Fn : Function) (nb : List Nat) (id : Nat) :
    handleNonBranching Fn nb id
      = { Fn with blocks := Fn.blocks.map (appendUnreachables nb id) } := by
  induction nb generalizing Fn id with
  | nil =>
    cases Fn
    simp [handleNonBranching, appendUnreachables]
  | cons bb rest ih =>
    simp only [handleNonBranching]
    rw [ih]
    simp only [appendUnreachable, List.map_map, Function.mk.injEq, true_and]
    apply List.map_congr_left
    intro BB _
    simp only [Function.comp, appendUnreachables]

theorem appendUnreachables_insts (nb : List Nat) (id : Nat) (BB : BasicBlock) :
    ∃ extra, (appendUnreachables nb id BB).insts = BB.insts ++ extra
      ∧ ∀ U ∈ extra, U.opcode = .unreachable ∧ id ≤ U.id := by
  induction nb generalizing id BB with
  | nil => exact ⟨[], by simp [appendUnreachables], by simp⟩
  | cons bb rest ih =>
    simp only [appendUnreachables]
    by_cases hb : (BB.id == bb) = true
    · rw [if_pos hb]
      obtain ⟨extra, he, hU⟩ := ih (id + 1)
        { BB with insts := BB.insts ++
            [{ id := id, opcode := .unreachable, ty := .void, operands := [] }] }
      refine ⟨{ id := id, opcode := .unreachable, ty := .void, operands := [] } :: extra,
        by simpa using he, ?_⟩
      intro U hUm
      rcases List.mem_cons.mp hUm with h | h
      · subst h
        exact ⟨rfl, le_refl _⟩
      · exact ⟨(hU U h).1, by have := (hU U h).2; omega⟩
    · rw [if_neg hb]
      obtain ⟨extra, he, hU⟩ := ih (id + 1) BB
      exact ⟨extra, he, fun U h => ⟨(hU U h).1, by have := (hU U h).2; omega⟩⟩

theorem mem_deletionOrder (Fn : Function) (BB : BasicBlock) (I : Instruction)
    (hBB : BB ∈ Fn.blocks) (hI : I ∈ BB.insts) : I.asValue .F ∈ deletionOrder Fn := by
  unfold deletionOrder
  simp only [List.mem_flatMap, List.mem_map, List.mem_reverse]
  exact ⟨BB, hBB, I, hI, rfl⟩

theorem mem_deadInsts (VF : Function) (V : Value) (C : List Value) (v : Value) :
    v ∈ deadInsts VF V C ↔
      v ∈ deletionOrder (clonedFunction VF V)
        ∧ (clonedCandidates VF V C).contains v = false := by
  unfold deadInsts
  rw [mem_erased]
  simp

theorem builtFunction_blocks (VF : Function) (V : Value) (C : List Value) (nb : List Nat) :
    (builtFunction VF V C nb).blocks = VF.blocks.map (sliceBlock VF V C nb) := by
  unfold builtFunction
  rw [handleNonBranching_eq, deleteNonCandidates_eq]
  show ((pruned (deadInsts VF V C) (clonedFunction VF V)).blocks.map _) = _
  have hmem : ∀ BB ∈ VF.blocks,
      ({ id := BB.id, insts := insertRet (VMap V) (retInst VF V)
          (BB.insts.map cloneInstruction) } : BasicBlock) ∈ (clonedFunction VF V).blocks := by
    intro BB hBB
    simp only [clonedFunction, cloneBlocks, List.map_map, List.mem_map]
    exact ⟨BB, hBB, rfl⟩
  simp only [pruned, clonedFunction, cloneBlocks, List.map_map]
  apply List.map_congr_left
  intro BB hBB
  simp only [Function.comp, sliceBlock]
  congr 2
  congr 1
  apply List.filter_congr
  intro I hI
  have hord := mem_deletionOrder (clonedFunction VF V) _ I (hmem BB hBB) hI
  cases hc : (clonedCandidates VF V C).contains (I.asValue .F)
  · have : I.asValue .F ∈ deadInsts VF V C := (mem_deadInsts VF V C _).mpr ⟨hord, hc⟩
    simpa using this
  · have : ¬ I.asValue .F ∈ deadInsts VF V C := by
      intro h
      have := ((mem_deadInsts VF V C _).mp h).2
      rw [hc] at this
      exact absurd this (by simp)
    simpa using this

/-! ## The retained mapping -/

theorem mapArguments_get?_lt (args : List Argument) (i0 : Nat) (m : Mapping)
    (i : Nat) (ty : Ty) (hi : i < i0) :
    (mapArguments args i0 m).get? (.argument .F i ty) = m.get? (.argument .F i ty) := by
  induction args generalizing i0 m with
  | nil => rfl
  | cons A rest ih =>
    simp only [mapArguments]
    rw [ih (i0 + 1) _ (by omega), Mapping.get?_set]
    have : ¬ (Value.argument FuncRef.F i ty = Value.argument FuncRef.F i0 A.ty) := by
      intro h
      injection h with _ h2 _
      omega
    rw [if_neg this]

theorem mapArguments_get? (args : List Argument) (i0 : Nat) (m : Mapping)
    (j : Nat) (A : Argument) (hA : args[j]? = some A) :
    (mapArguments args i0 m).get? (.argument .F (i0 + j) A.ty)
      = some (.argument .VF (i0 + j) A.ty) := by
  induction args generalizing i0 m j with
  | nil => simp at hA
  | cons B rest ih =>
    simp only [mapArguments]
    cases j with
    | zero =>
      simp only [List.getElem?_cons_zero, Option.some.injEq] at hA
      subst hA
      rw [mapArguments_get?_lt _ _ _ _ _ (by omega), Mapping.get?_set]
      simp
    | succ j =>
      simp only [List.getElem?_cons_succ] at hA
      have := ih (i0 + 1) (m.set (.argument .F i0 B.ty) (.argument .VF i0 B.ty)) j hA
      rw [show i0 + (j + 1) = i0 + 1 + j by omega]
      exact this

theorem foldl_set_get?_argument (Cs : List Value) (m : Mapping) (i : Nat) (ty : Ty)
    (hCs : ∀ C ∈ Cs, C.isInstruction = true) :
    (Cs.foldl (fun m C => m.set (VMap C) C) m).get? (.argument .F i ty)
      = m.get? (.argument .F i ty) := by
  induction Cs generalizing m with
  | nil => rfl
  | cons C rest ih =>
    simp only [List.foldl_cons]
    rw [ih _ (fun C' h => hCs C' (List.mem_cons_of_mem _ h)), Mapping.get?_set]
    have hC := hCs C (List.mem_cons_self _ _)
    have : ¬ (Value.argument FuncRef.F i ty = VMap C) := by
      cases C with
      | instruction p id t => cases p <;> simp [VMap]
      | _ => simp [Value.isInstruction] at hC
    rw [if_neg this]

theorem candidates_isInstruction (D : Nat) (VF : Function) (V : Value)
    (Worklist : List (Value × Nat)) :
    ∀ W ∈ candidates D VF V Worklist, W.isInstruction = true := by
  intro W hW
  obtain ⟨I, hI, _⟩ := candidates_resolve D VF V Worklist W hW
  rw [resolve_eq_asValue VF .VF W I hI]
  rfl

theorem builtMapping_argument (D : Nat) (VF : Function) (V : Value)
    (Worklist : List (Value × Nat)) (mapping : Mapping) (i : Nat) (A : Argument)
    (hA : VF.args[i]? = some A) :
    (builtMapping VF (candidates D VF V Worklist) mapping).get? (.argument .F i A.ty)
      = some (.argument .VF i A.ty) := by
  unfold builtMapping
  rw [foldl_set_get?_argument _ _ _ _ (candidates_isInstruction D VF V Worklist)]
  have := mapArguments_get? VF.args 0 mapping i A hA
  simpa using this

/-! ## Instructions of the built function -/

theorem le_foldl_max (l : List Nat) (a x : Nat) (h : x ≤ a ∨ x ∈ l) :
    x ≤ l.foldl max a := by
  induction l generalizing a with
  | nil =>
    rcases h with h | h
    · exact h
    · simp at h
  | cons y rest ih =>
    simp only [List.foldl_cons]
    apply ih
    rcases h with h | h
    · exact Or.inl (le_trans h (le_max_left _ _))
    · rcases List.mem_cons.mp h with h | h
      · subst h
        exact Or.inl (le_max_right _ _)
      · exact Or.inr h

theorem id_lt_freshId (VF : Function) (I : Instruction) (h : I ∈ VF.instructions) :
    I.id < VF.freshId := by
  unfold Function.freshId
  have : I.id ≤ (VF.instructions.map (fun I => I.id)).foldl max 0 :=
    le_foldl_max _ 0 I.id (Or.inr (List.mem_map.mpr ⟨I, h, rfl⟩))
  omega

theorem haveUnknownOperandFrom_of_bad (isCall : Bool) (ops : List Value) (n j : Nat)
    (op : Value) (hj : ops[j]? = some op) (hskip : ¬ (isCall = true ∧ n + j = 0))
    (hbad : op.getType.isStructTy = true ∨ op.getType.isFloatingPointTy = true
      ∨ op.getType.isPointerTy = true) :
    haveUnknownOperandFrom isCall n ops = true := by
  induction ops generalizing n j with
  | nil => simp at hj
  | cons o rest ih =>
    cases j with
    | zero =>
      simp only [List.getElem?_cons_zero, Option.some.injEq] at hj
      subst hj
      simp only [haveUnknownOperandFrom]
      have hs : (isCall && n == 0) = false := by
        cases isCall
        · rfl
        · have : n ≠ 0 := fun h => hskip ⟨rfl, by omega⟩
          simpa using this
      rw [hs]
      simp only [Bool.false_eq_true, if_false]
      split
      · rfl
      · have : (o.getType.isStructTy || o.getType.isFloatingPointTy
            || o.getType.isPointerTy) = true := by
          rcases hbad with h | h | h <;> simp [h]
        rw [if_pos this]
    | succ j =>
      simp only [List.getElem?_cons_succ] at hj
      have hrec := ih (n + 1) j hj (by intro h; omega)
      simp only [haveUnknownOperandFrom]
      split
      · exact hrec
      · split
        · rfl
        · split
          · rfl
          · exact hrec

theorem mem_builtFunction_instructions (VF : Function) (V : Value) (C : List Value)
    (nb : List Nat) (J : Instruction) (hJ : J ∈ (builtFunction VF V C nb).instructions) :
    J.asValue .F ∈ clonedCandidates VF V C
      ∨ (J.opcode = .unreachable ∧ VF.freshId + 1 ≤ J.id) := by
  unfold Function.instructions at hJ
  rw [builtFunction_blocks] at hJ
  simp only [List.mem_flatMap, List.mem_map] at hJ
  obtain ⟨BB', ⟨BB, _, rfl⟩, hJ⟩ := hJ
  unfold sliceBlock at hJ
  obtain ⟨extra, he, hU⟩ := appendUnreachables_insts nb (VF.freshId + 1)
    { id := BB.id
      insts := ((insertRet (VMap V) (retInst VF V) (BB.insts.map cloneInstruction)).filter
        (fun I => (clonedCandidates VF V C).contains (I.asValue .F))).map
          (fun I => { I with
            operands := I.operands.map (poisonDead (deadInsts VF V C)) }) }
  rw [he] at hJ
  rcases List.mem_append.mp hJ with h | h
  · left
    simp only [List.mem_map, List.mem_filter] at h
    obtain ⟨J0, ⟨_, hc⟩, rfl⟩ := h
    simpa [Instruction.asValue] using hc
  · right
    exact hU J h

theorem seed_spec (vbb : Nat) (BBs : List BasicBlock) (wl : List (Value × Nat))
    (nb : List Nat) (h : seed vbb BBs = some (wl, nb)) :
    (∀ e ∈ wl, e.2 = 0 ∧ ∃ BB ∈ BBs, BB.id ≠ vbb ∧ ∃ T, BB.getTerminator = some T
        ∧ (T.opcode = .br ∨ T.opcode = .switch) ∧ e.1 = T.asValue .VF)
      ∧ ∀ b ∈ nb, b ≠ vbb ∧ ∃ BB ∈ BBs, BB.id = b ∧ ∃ T, BB.getTerminator = some T
        ∧ T.opcode ≠ .br ∧ T.opcode ≠ .switch := by
  induction BBs generalizing wl nb with
  | nil =>
    simp only [seed, Option.some.injEq, Prod.mk.injEq] at h
    obtain ⟨rfl, rfl⟩ := h
    simp
  | cons BB rest ih =>
    simp only [seed] at h
    have lift1 : ∀ (wl' : List (Value × Nat)),
        (∀ e ∈ wl', e.2 = 0 ∧ ∃ BB ∈ rest, BB.id ≠ vbb ∧ ∃ T, BB.getTerminator = some T
          ∧ (T.opcode = .br ∨ T.opcode = .switch) ∧ e.1 = T.asValue .VF) →
        ∀ e ∈ wl', e.2 = 0 ∧ ∃ B ∈ BB :: rest, B.id ≠ vbb ∧ ∃ T, B.getTerminator = some T
          ∧ (T.opcode = .br ∨ T.opcode = .switch) ∧ e.1 = T.asValue .VF := by
      intro wl' hw e he
      obtain ⟨h0, B, hB, hrest⟩ := hw e he
      exact ⟨h0, B, List.mem_cons_of_mem _ hB, hrest⟩
    have lift2 : ∀ (nb' : List Nat),
        (∀ b ∈ nb', b ≠ vbb ∧ ∃ BB ∈ rest, BB.id = b ∧ ∃ T, BB.getTerminator = some T
          ∧ T.opcode ≠ .br ∧ T.opcode ≠ .switch) →
        ∀ b ∈ nb', b ≠ vbb ∧ ∃ B ∈ BB :: rest, B.id = b ∧ ∃ T, B.getTerminator = some T
          ∧ T.opcode ≠ .br ∧ T.opcode ≠ .switch := by
      intro nb' hn b hb
      obtain ⟨h0, B, hB, hrest⟩ := hn b hb
      exact ⟨h0, B, List.mem_cons_of_mem _ hB, hrest⟩
    split at h
    · obtain ⟨h1, h2⟩ := ih wl nb h
      exact ⟨lift1 wl h1, lift2 nb h2⟩
    · rename_i hne
      have hne' : BB.id ≠ vbb := by simpa using hne
      split at h
      · exact absurd h (by simp)
      · rename_i T hT
        split at h
        · exact absurd h (by simp)
        · rename_i wl' nb' hrec
          obtain ⟨h1, h2⟩ := ih wl' nb' hrec
          split at h
          · rename_i hbr
            simp only [Option.some.injEq, Prod.mk.injEq] at h
            obtain ⟨rfl, rfl⟩ := h
            refine ⟨?_, lift2 _ h2⟩
            intro e he
            rcases List.mem_cons.mp he with he | he
            · subst he
              refine ⟨rfl, BB, List.mem_cons_self _ _, hne', T, hT, ?_, rfl⟩
              simpa using hbr
            · exact lift1 _ h1 e he
          · rename_i hbr
            have hbr' : T.opcode ≠ .br ∧ T.opcode ≠ .switch := by simpa using hbr
            split at h
            · simp only [Option.some.injEq, Prod.mk.injEq] at h
              obtain ⟨rfl, rfl⟩ := h
              exact ⟨lift1 _ h1, lift2 _ h2⟩
            · simp only [Option.some.injEq, Prod.mk.injEq] at h
              obtain ⟨rfl, rfl⟩ := h
              refine ⟨lift1 _ h1, ?_⟩
              intro b hb
              rcases List.mem_cons.mp hb with hb | hb
              · subst hb
                exact ⟨hne', BB, List.mem_cons_self _ _, rfl, T, hT, hbr'⟩
              · exact lift2 _ h2 b hb

theorem VMap_asValue (I : Instruction) : VMap (I.asValue .VF) = I.asValue .F := rfl

theorem VMap_eq_asValue_F (W : Value) (J : Instruction) (hW : W.isInstruction = true)
    (h : VMap W = J.asValue .F) (hVF : ∃ I : Instruction, W = I.asValue .VF) :
    W = .instruction .VF J.id J.ty := by
  obtain ⟨I, rfl⟩ := hVF
  simp only [Instruction.asValue, VMap, Value.instruction.injEq, true_and] at h
  simp [Instruction.asValue, h.1, h.2]

theorem mem_clonedCandidates (VF : Function) (V : Value) (C : List Value) (v : Value) :
    v ∈ clonedCandidates VF V C ↔
      (∃ W ∈ C, VMap W = v) ∨ v = .instruction .F VF.freshId .void := by
  unfold clonedCandidates retInst
  simp [Instruction.asValue]

theorem insertRet_split (NewV : Value) (Ret : Instruction) :
    ∀ (l : List Instruction) (X next : Instruction) (post : List Instruction),
      l.dropWhile (fun I => I.asValue .F != NewV) = X :: next :: post →
      insertRet NewV Ret l
          = l.takeWhile (fun I => I.asValue .F != NewV) ++ X :: Ret :: next :: post
        ∧ X.asValue .F = NewV := by
  intro l
  induction l with
  | nil => intro X next post h; simp at h
  | cons a rest ih =>
    intro X next post h
    by_cases hp : (a.asValue .F != NewV) = true
    · rw [List.dropWhile_cons, if_pos hp] at h
      obtain ⟨h1, h2⟩ := ih X next post h
      have hne : (a.asValue .F == NewV) = false := by simpa [bne] using hp
      simp only [insertRet, hne, Bool.false_eq_true, if_false, h1]
      rw [List.takeWhile_cons, if_pos hp]
      exact ⟨rfl, h2⟩
    · rw [List.dropWhile_cons, if_neg hp] at h
      simp only [List.cons.injEq] at h
      obtain ⟨rfl, rfl⟩ := h
      have heq : (a.asValue .F == NewV) = true := by simpa [bne] using hp
      simp only [insertRet, heq, if_true]
      rw [List.takeWhile_cons, if_neg hp]
      exact ⟨rfl, eq_of_beq heq⟩

theorem followedByRet_append (NewV : Value) (J R : Instruction)
    (hJ : J.asValue .F = NewV) (hR : R.opcode = .ret) (hops : R.operands = [NewV]) :
    ∀ (pre post : List Instruction), followedByRet NewV (pre ++ J :: R :: post) = true := by
  intro pre post
  induction pre with
  | nil => simp [followedByRet, hJ, hR, hops]
  | cons a rest ih =>
    cases rest with
    | nil =>
      simp only [List.cons_append, List.nil_append] at ih ⊢
      rw [followedByRet, Bool.or_eq_true]
      exact Or.inr ih
    | cons b rest' =>
      simp only [List.cons_append] at ih ⊢
      rw [followedByRet, Bool.or_eq_true]
      exact Or.inr ih

theorem getParent_mem (VF : Function) (p : FuncRef) (V : Value) (vbb : BasicBlock)
    (h : VF.getParent p V = some vbb) : vbb ∈ VF.blocks := by
  unfold Function.getParent at h
  exact List.mem_of_find?_eq_some h

/-! ## Soundness of a complete slice -/

/-- C6 (signature and argument mapping): a fragment returned by
`extractExpr` has as many parameters as the enclosing function, its i-th
parameter has the type and the name of the i-th argument of the enclosing
function, its return type is the type of the root, and the retained mapping
sends the i-th argument of the fragment to the i-th argument of the
enclosing function. -/
theorem extractExpr_signature (D : Nat) (LI : LoopInfo) (verify : Function → Bool)
    (VF : Function) (mapping : Mapping) (V : Value) (Fn : Function) (m : Mapping)
    (h : extractExpr D LI verify VF mapping V = .fragment Fn m) :
    Fn.args.length = VF.args.length
      ∧ (∀ (i : Nat) (A : Argument), VF.args[i]? = some A →
          ∃ A' : Argument, Fn.args[i]? = some A' ∧ A'.ty = A.ty ∧ A'.name = A.name)
      ∧ Fn.retTy = V.getType
      ∧ ∀ (i : Nat) (A : Argument), VF.args[i]? = some A →
          m.get? (.argument .F i A.ty) = some (.argument .VF i A.ty) := by
  obtain ⟨vbb, Worklist, nb, _, _, _, hFn, hm, _⟩ :=
    extractExpr_fragment_inv D LI verify VF mapping V Fn m h
  obtain ⟨hargs, hret, _⟩ := builtFunction_signature VF V (candidates D VF V Worklist) nb
  subst hFn hm
  refine ⟨by rw [hargs], ?_, hret, ?_⟩
  · intro i A hA
    exact ⟨A, by rw [hargs]; exact hA, rfl, rfl⟩
  · intro i A hA
    exact builtMapping_argument D VF V Worklist mapping i A hA

theorem extractExpr_signature_witness :
    extractExpr 5 noLoops blockStructureIllFormed exStraight [] (.instruction .VF 2 i32)
        = .fragment
          (builtFunction exStraight (.instruction .VF 2 i32)
            (candidates 5 exStraight (.instruction .VF 2 i32) []) [])
          (builtMapping exStraight (candidates 5 exStraight (.instruction .VF 2 i32) []) [])
      ∧ (builtFunction exStraight (.instruction .VF 2 i32)
            (candidates 5 exStraight (.instruction .VF 2 i32) []) []).retTy = i32
      ∧ (builtMapping exStraight (candidates 5 exStraight (.instruction .VF 2 i32) []) []).get?
          (.argument .F 0 i32) = some (.argument .VF 0 i32) :=
  have h : extractExpr 5 noLoops blockStructureIllFormed exStraight []
      (.instruction .VF 2 i32)
        = .fragment
          (builtFunction exStraight (.instruction .VF 2 i32)
            (candidates 5 exStraight (.instruction .VF 2 i32) []) [])
          (builtMapping exStraight (candidates 5 exStraight (.instruction .VF 2 i32) []) []) := by
    decide
  ⟨h, (extractExpr_signature 5 noLoops blockStructureIllFormed exStraight []
      (.instruction .VF 2 i32) _ _ h).2.2.1,
    (extractExpr_signature 5 noLoops blockStructureIllFormed exStraight []
      (.instruction .VF 2 i32) _ _ h).2.2.2 0 ⟨i32, "x"⟩ rfl⟩

/-- C7 (verifier gate): a fragment returned by `extractExpr` is one the host
verifier accepts, and whenever the verifier reports the built function
ill-formed the call ends in the fatal error, returning neither a fragment
nor `nullopt`. -/
theorem extractExpr_verifier_gate (D : Nat) (LI : LoopInfo) (verify : Function → Bool)
    (VF : Function) (mapping : Mapping) (V : Value) :
    (∀ Fn m, extractExpr D LI verify VF mapping V = .fragment Fn m → verify Fn = false)
      ∧ ∀ vbb Worklist nb, VF.getParent .VF V = some vbb →
          loopNotSimplified LI vbb.id = false →
          seed vbb.id VF.blocks = some (Worklist, nb) →
          verify (builtFunction VF V (candidates D VF V Worklist) nb) = true →
          extractExpr D LI verify VF mapping V = .fatal "illformed function generated" := by
  constructor
  · intro Fn m h
    obtain ⟨_, _, _, _, _, _, _, _, hv⟩ :=
      extractExpr_fragment_inv D LI verify VF mapping V Fn m h
    exact hv
  · intro vbb Worklist nb hp hl hs hv
    unfold extractExpr
    simp [hp, hl, hs, hv]

theorem extractExpr_verifier_gate_witness :
    extractExpr 5 noLoops blockStructureIllFormed exLateUse [] (.instruction .VF 1 i32)
      = .fatal "illformed function generated" :=
  (extractExpr_verifier_gate 5 noLoops blockStructureIllFormed exLateUse []
    (.instruction .VF 1 i32)).2
    ⟨0, [⟨1, .add, i32, [.argument .VF 0 i32, .constantInt i32 1], [], "v", []⟩,
         ⟨2, .icmp, i1, [.argument .VF 0 i32, .constantInt i32 0], [], "c", []⟩,
         ⟨3, .br, .void, [.basicBlock .VF 1], [], "", []⟩]⟩
    [(.instruction .VF 4 .void, 0)] [2, 3] (by decide) (by decide) (by decide) (by decide)

/-- C3 (type rejection), as stated, fails: the operand scan tests
`isStructTy`, not `isAggregateType`, and skips operand 0 of a call. The
root of `exArray` has an operand of array type (an aggregate); it is in the
candidate set and its clone occurs in the returned fragment. The root of
`exCallee` has an operand of pointer type (its callee) and is in the
candidate set as well. -/
theorem type_rejection_counterexample :
    (∃ I ∈ exArray.instructions,
        (∃ op ∈ I.operands, op.getType.isAggregateType = true)
        ∧ I.asValue .VF ∈ candidates 5 exArray (.instruction .VF 1 i32) []
        ∧ ∃ Fn m, extractExpr 5 noLoops blockStructureIllFormed exArray []
              (.instruction .VF 1 i32) = .fragment Fn m
            ∧ ∃ J ∈ Fn.instructions, J.asValue .F = VMap (I.asValue .VF))
      ∧ ∃ I ∈ exCallee.instructions,
        (∃ op ∈ I.operands, op.getType.isPointerTy = true)
        ∧ I.asValue .VF ∈ candidates 5 exCallee (.instruction .VF 1 i32) [] := by
  refine ⟨⟨⟨1, .extractvalue, i32, [.argument .VF 0 (.array 2 i32)], [], "v", []⟩, by decide,
      ⟨.argument .VF 0 (.array 2 i32), by decide, by decide⟩, by decide,
      _, _, (by decide : extractExpr 5 noLoops blockStructureIllFormed exArray []
        (.instruction .VF 1 i32) = .fragment
          (builtFunction exArray (.instruction .VF 1 i32)
            (candidates 5 exArray (.instruction .VF 1 i32) []) [])
          (builtMapping exArray (candidates 5 exArray (.instruction .VF 1 i32) []) [])),
      ⟨1, .extractvalue, i32, [.argument .F 0 (.array 2 i32)], [], "v", []⟩,
      by decide, by decide⟩,
    ⟨1, .call, i32, [.globalValue "h" (.pointer 0)], [], "v", []⟩, by decide,
      ⟨.globalValue "h" (.pointer 0), by decide, by decide⟩, by decide⟩

/-- C3 (type rejection), amended: an instruction `I` of the enclosing
function that has an operand of struct, pointer or (scalar) floating-point
type, other than operand 0 of a call instruction, is in no candidate set
computed by `extractExpr`, and no instruction of a returned fragment is the
clone of `I`. -/
theorem extractExpr_type_rejection (D : Nat) (LI : LoopInfo) (verify : Function → Bool)
    (VF : Function) (mapping : Mapping) (V : Value) (I : Instruction)
    (hI : VF.resolve .VF (I.asValue .VF) = some I)
    (i : Nat) (op : Value) (hop : I.operands[i]? = some op)
    (hskip : ¬ (I.opcode = .call ∧ i = 0))
    (hbad : op.getType.isStructTy = true ∨ op.getType.isFloatingPointTy = true
      ∨ op.getType.isPointerTy = true) :
    (∀ Worklist, I.asValue .VF ∉ candidates D VF V Worklist)
      ∧ ∀ Fn m, extractExpr D LI verify VF mapping V = .fragment Fn m →
          ∀ J ∈ Fn.instructions, J.asValue .F ≠ VMap (I.asValue .VF) := by
  have hunk : haveUnknownOperand I = true := by
    unfold haveUnknownOperand
    apply haveUnknownOperandFrom_of_bad _ _ 0 i op hop _ hbad
    intro h
    apply hskip
    refine ⟨by simpa using h.1, by omega⟩
  have hnot : ∀ Worklist, I.asValue .VF ∉ candidates D VF V Worklist := by
    intro Worklist hmem
    obtain ⟨I', hI', hunk'⟩ := candidates_resolve D VF V Worklist _ hmem
    rw [hI] at hI'
    simp only [Option.some.injEq] at hI'
    subst hI'
    rw [hunk] at hunk'
    exact absurd hunk' (by simp)
  refine ⟨hnot, ?_⟩
  intro Fn m h J hJ heq
  obtain ⟨vbb, Worklist, nb, _, _, _, hFn, _, _⟩ :=
    extractExpr_fragment_inv D LI verify VF mapping V Fn m h
  subst hFn
  have hlt : I.id < VF.freshId := id_lt_freshId VF I (resolve_mem VF .VF _ I hI)
  have hid : J.id = I.id := by
    simp only [Instruction.asValue, VMap, Value.instruction.injEq, true_and] at heq
    exact heq.1
  rcases mem_builtFunction_instructions VF V _ nb J hJ with hc | ⟨_, hge⟩
  · rcases (mem_clonedCandidates VF V _ _).mp hc with ⟨W, hW, hWJ⟩ | hret
    · obtain ⟨I', hI', _⟩ := candidates_resolve D VF V Worklist W hW
      have hWeq := resolve_eq_asValue VF .VF W I' hI'
      have : W = I.asValue .VF := by
        rw [heq] at hWJ
        rw [hWeq] at hWJ ⊢
        simp only [Instruction.asValue, VMap, Value.instruction.injEq, true_and] at hWJ ⊢
        exact hWJ
      rw [this] at hW
      exact hnot Worklist hW
    · simp only [Instruction.asValue, Value.instruction.injEq, true_and] at hret
      omega
  · omega

theorem extractExpr_type_rejection_witness :
    Value.instruction .VF 1 i32 ∉ candidates 5 exLoad (.instruction .VF 1 i32) [] :=
  (extractExpr_type_rejection 5 noLoops blockStructureIllFormed exLoad []
    (.instruction .VF 1 i32)
    ⟨1, .load, i32, [.argument .VF 1 (.pointer 0)], [], "v", []⟩ (by decide)
    0 (.argument .VF 1 (.pointer 0)) rfl (by decide) (Or.inr (Or.inr rfl))).1 []

theorem chain_from_exBranch_root :
    ∀ (k : Nat) (W : Value), Chain exBranch (.instruction .VF 3 i32) k W →
      W = .instruction .VF 3 i32 := by
  intro k W h
  induction h with
  | start => rfl
  | hop _ hres hmem hins ih =>
    subst ih
    have hI : exBranch.resolve .VF (.instruction .VF 3 i32)
        = some ⟨3, .add, i32, [.argument .VF 0 i32, .constantInt i32 1], [], "v", []⟩ := by
      decide
    rw [hI] at hres
    simp only [Option.some.injEq] at hres
    subst hres
    simp only [List.mem_cons, List.mem_singleton, List.not_mem_nil, or_false] at hmem
    rcases hmem with rfl | rfl <;> simp [Value.isInstruction] at hins

/-- C4 (minimality bound), as stated, fails: in the fragment returned for
the root `%v` of `exBranch` the comparison `%c` of the entry block is
retained (it is a candidate, reached from the seeded branch of the entry
block), and no chain of operand hops leads from the root to it. -/
theorem depth_bound_counterexample :
    ∃ Fn m, extractExpr 5 noLoops blockStructureIllFormed exBranch []
        (.instruction .VF 3 i32) = .fragment Fn m
      ∧ ∃ J ∈ Fn.instructions,
          J.asValue .F = VMap (.instruction .VF 1 i1)
          ∧ Value.instruction .VF 1 i1
              ∈ candidates 5 exBranch (.instruction .VF 3 i32) [(.instruction .VF 2 .void, 0)]
          ∧ ¬ ∃ k, k ≤ 5 ∧ Chain exBranch (.instruction .VF 3 i32) k (.instruction .VF 1 i1) := by
  refine ⟨_, _, (by decide : extractExpr 5 noLoops blockStructureIllFormed exBranch []
        (.instruction .VF 3 i32) = .fragment
          (builtFunction exBranch (.instruction .VF 3 i32)
            (candidates 5 exBranch (.instruction .VF 3 i32) [(.instruction .VF 2 .void, 0)]) [2])
          (builtMapping exBranch
            (candidates 5 exBranch (.instruction .VF 3 i32) [(.instruction .VF 2 .void, 0)]) [])),
    ⟨1, .icmp, i1, [.argument .F 0 i32, .constantInt i32 0], [], "c", [32]⟩, by decide, by decide,
    by decide, ?_⟩
  rintro ⟨k, _, hch⟩
  have := chain_from_exBranch_root k _ hch
  exact absurd this (by decide)

/-- C4 (minimality bound), amended: every instruction of a returned
fragment other than the inserted return and the inserted unreachables is
the clone of an instruction reached by a chain of at most
`slicer_max_depth` operand hops that starts at a seed of the worklist: the
root, or the branch or switch terminator of a block other than the
root's. -/
theorem extractExpr_depth_bound (D : Nat) (LI : LoopInfo) (verify : Function → Bool)
    (VF : Function) (mapping : Mapping) (V : Value) (Fn : Function) (m : Mapping)
    (h : extractExpr D LI verify VF mapping V = .fragment Fn m)
    (J : Instruction) (hJ : J ∈ Fn.instructions) (hclone : J.id < VF.freshId) :
    ∃ s k, IsSeed VF V s ∧ k ≤ D ∧ Chain VF s k (.instruction .VF J.id J.ty) := by
  obtain ⟨vbb, Worklist, nb, hvbb, _, hseed, hFn, _, _⟩ :=
    extractExpr_fragment_inv D LI verify VF mapping V Fn m h
  subst hFn
  obtain ⟨hwl, _⟩ := seed_spec vbb.id VF.blocks Worklist nb hseed
  rcases mem_builtFunction_instructions VF V _ nb J hJ with hc | ⟨_, hge⟩
  · rcases (mem_clonedCandidates VF V _ _).mp hc with ⟨W, hW, hWJ⟩ | hret
    · obtain ⟨I', hI', _⟩ := candidates_resolve D VF V Worklist W hW
      have hWeq : W = .instruction .VF J.id J.ty :=
        VMap_eq_asValue_F W J (candidates_isInstruction D VF V Worklist W hW) hWJ
          ⟨I', resolve_eq_asValue VF .VF W I' hI'⟩
      obtain ⟨s, k, hs, hk, hch⟩ :=
        candidates_chain D VF V Worklist (fun e he => (hwl e he).1) W hW
      refine ⟨s, k, ?_, hk, by rw [← hWeq]; exact hch⟩
      rcases hs with hs | hs
      · exact Or.inl hs
      · obtain ⟨e, he, rfl⟩ := List.mem_map.mp hs
        obtain ⟨_, BB, hBB, hne, T, hT, hop, heq⟩ := hwl e he
        exact Or.inr ⟨vbb, hvbb, BB, hBB, hne, T, hT, hop, heq⟩
    · simp only [Instruction.asValue, Value.instruction.injEq, true_and] at hret
      omega
  · omega

theorem extractExpr_depth_bound_witness :
    ∃ s k, IsSeed exBranch (.instruction .VF 3 i32) s ∧ k ≤ 5
      ∧ Chain exBranch s k (.instruction .VF 1 i1) :=
  extractExpr_depth_bound 5 noLoops blockStructureIllFormed exBranch []
    (.instruction .VF 3 i32)
    (builtFunction exBranch (.instruction .VF 3 i32)
      (candidates 5 exBranch (.instruction .VF 3 i32) [(.instruction .VF 2 .void, 0)]) [2])
    (builtMapping exBranch
      (candidates 5 exBranch (.instruction .VF 3 i32) [(.instruction .VF 2 .void, 0)]) [])
    (by decide)
    ⟨1, .icmp, i1, [.argument .F 0 i32, .constantInt i32 0], [], "c", [32]⟩ (by decide) (by decide)

/-- C5 (root followed by the return), as stated, fails: the root of `exLoad`
has a pointer operand, so it is not a candidate; a fragment is returned all
the same, and it consists of the single instruction `ret i32 poison`: the
clone of the root is gone and the return does not return it. -/
theorem root_then_ret_counterexample :
    extractExpr 5 noLoops blockStructureIllFormed exLoad [] (.instruction .VF 1 i32)
        = .fragment
          ⟨"foo", i32, [⟨i32, "x"⟩, ⟨.pointer 0, "p"⟩],
            [⟨0, [⟨3, .ret, .void, [.poison i32], [], "", []⟩]⟩]⟩
          [(.argument .F 1 (.pointer 0), .argument .VF 1 (.pointer 0)),
           (.argument .F 0 i32, .argument .VF 0 i32)]
      ∧ (builtFunction exLoad (.instruction .VF 1 i32)
          (candidates 5 exLoad (.instruction .VF 1 i32) []) []).blocks.any
            (fun BB => followedByRet (VMap (.instruction .VF 1 i32)) BB.insts) = false
      ∧ ∀ J ∈ (builtFunction exLoad (.instruction .VF 1 i32)
          (candidates 5 exLoad (.instruction .VF 1 i32) []) []).instructions,
          J.asValue .F ≠ VMap (.instruction .VF 1 i32) := by
  refine ⟨by decide, by decide, by decide⟩

/-- C5 (root followed by the return), amended: when the root passes the
operand scan (so that it is a candidate) and is not the last instruction of
its block, a returned fragment contains the clone of the root immediately
followed by a return instruction whose operand is that clone. -/
theorem extractExpr_root_then_ret (D : Nat) (LI : LoopInfo) (verify : Function → Bool)
    (VF : Function) (mapping : Mapping) (V : Value) (Fn : Function) (m : Mapping)
    (I : Instruction)
    (h : extractExpr D LI verify VF mapping V = .fragment Fn m)
    (hI : VF.resolve .VF V = some I) (hunk : haveUnknownOperand I = false)
    (hnext : VF.getNextNode .VF V ≠ none) :
    Fn.blocks.any (fun BB => followedByRet (VMap V) BB.insts) = true := by
  obtain ⟨vbb, Worklist, nb, hvbb, _, _, hFn, _, _⟩ :=
    extractExpr_fragment_inv D LI verify VF mapping V Fn m h
  subst hFn
  have hV : V = I.asValue .VF := resolve_eq_asValue VF .VF V I hI
  have hroot : V ∈ candidates D VF V Worklist := root_mem_candidates D VF V Worklist I hI hunk
  -- the root and its successor in the root's block
  unfold Function.getNextNode at hnext
  rw [hvbb] at hnext
  simp only at hnext
  obtain ⟨X, next, post, hdrop⟩ :
      ∃ X next post, vbb.insts.dropWhile (fun I => I.asValue .VF != V) = X :: next :: post := by
    generalize vbb.insts.dropWhile (fun I => I.asValue .VF != V) = l at hnext
    match l, hnext with
    | X :: next :: post, _ => exact ⟨X, next, post, rfl⟩
    | [], hn => exact absurd rfl hn
    | [_], hn => exact absurd rfl hn
  have hpred : (fun I : Instruction => I.asValue .F != VMap V) ∘ cloneInstruction
      = fun I : Instruction => I.asValue .VF != V := by
    funext P
    rw [hV]
    simp [Function.comp, cloneInstruction, Instruction.asValue, VMap, bne]
  have hdrop' : (vbb.insts.map cloneInstruction).dropWhile (fun I => I.asValue .F != VMap V)
      = cloneInstruction X :: cloneInstruction next :: post.map cloneInstruction := by
    rw [List.dropWhile_map, hpred, hdrop]
    rfl
  obtain ⟨hsplit, hX⟩ := insertRet_split (VMap V) (retInst VF V) _ _ _ _ hdrop'
  -- both the clone of the root and the return are kept
  have hkeepX : (clonedCandidates VF V (candidates D VF V Worklist)).contains
      ((cloneInstruction X).asValue .F) = true := by
    rw [hX]
    exact List.elem_iff.mpr ((mem_clonedCandidates VF V _ _).mpr (Or.inl ⟨V, hroot, rfl⟩))
  have hkeepR : (clonedCandidates VF V (candidates D VF V Worklist)).contains
      ((retInst VF V).asValue .F) = true := by
    exact List.elem_iff.mpr ((mem_clonedCandidates VF V _ _).mpr (Or.inr rfl))
  have hlive : poisonDead (deadInsts VF V (candidates D VF V Worklist)) (VMap V) = VMap V := by
    unfold poisonDead
    have : ¬ VMap V ∈ deadInsts VF V (candidates D VF V Worklist) := by
      intro hd
      have := ((mem_deadInsts VF V _ _).mp hd).2
      rw [← hX, hkeepX] at this
      exact absurd this (by simp)
    have hc : (deadInsts VF V (candidates D VF V Worklist)).contains (VMap V) = false := by
      simpa using this
    rw [hc]
    rfl
  rw [builtFunction_blocks, List.any_eq_true]
  refine ⟨sliceBlock VF V (candidates D VF V Worklist) nb vbb,
    List.mem_map.mpr ⟨vbb, getParent_mem VF .VF V vbb hvbb, rfl⟩, ?_⟩
  unfold sliceBlock
  obtain ⟨extra, he, _⟩ := appendUnreachables_insts nb (VF.freshId + 1)
    { id := vbb.id
      insts := ((insertRet (VMap V) (retInst VF V) (vbb.insts.map cloneInstruction)).filter
        (fun I => (clonedCandidates VF V (candidates D VF V Worklist)).contains
          (I.asValue .F))).map
          (fun I => { I with
            operands := I.operands.map
              (poisonDead (deadInsts VF V (candidates D VF V Worklist))) }) }
  rw [he, hsplit]
  simp only [List.filter_append, List.filter_cons, hkeepX, hkeepR, if_true, List.map_append,
    List.map_cons, List.append_assoc, List.cons_append]
  apply followedByRet_append
  · exact hX
  · rfl
  · simp only [retInst, List.map_cons, List.map_nil, hlive]

theorem extractExpr_root_then_ret_witness :
    (builtFunction exStraight (.instruction .VF 2 i32)
        (candidates 5 exStraight (.instruction .VF 2 i32) []) []).blocks.any
      (fun BB => followedByRet (VMap (.instruction .VF 2 i32)) BB.insts) = true :=
  extractExpr_root_then_ret 5 noLoops blockStructureIllFormed exStraight []
    (.instruction .VF 2 i32) _ _
    ⟨2, .mul, i32, [.instruction .VF 1 i32, .constantInt i32 2], [], "v", []⟩
    (by decide : extractExpr 5 noLoops blockStructureIllFormed exStraight []
      (.instruction .VF 2 i32) = .fragment
        (builtFunction exStraight (.instruction .VF 2 i32)
          (candidates 5 exStraight (.instruction .VF 2 i32) []) [])
        (builtMapping exStraight (candidates 5 exStraight (.instruction .VF 2 i32) []) []))
    (by decide) (by decide) (by decide)

/-- C8 (non-branching blocks): at the failing input `exIndirect` with root
`%v`, the entry block is recorded as non-branching (it ends in an indirect
branch) and the returned fragment keeps in its clone the candidate
`%a = add`, followed by the appended unreachable: two instructions, not
one. -/
theorem non_branching_block_keeps_candidates :
    seed 1 exIndirect.blocks = some ([], [0])
      ∧ ∃ Fn m, extractExpr 5 noLoops blockStructureIllFormed exIndirect []
          (.instruction .VF 3 i32) = .fragment Fn m
        ∧ ∃ BB ∈ Fn.blocks, BB.id = 0
          ∧ BB.insts.map (fun I => I.opcode) = [.add, .unreachable] := by
  refine ⟨by decide, _, _,
    (by decide : extractExpr 5 noLoops blockStructureIllFormed exIndirect []
      (.instruction .VF 3 i32) = .fragment
        (builtFunction exIndirect (.instruction .VF 3 i32)
          (candidates 5 exIndirect (.instruction .VF 3 i32) []) [0])
        (builtMapping exIndirect (candidates 5 exIndirect (.instruction .VF 3 i32) []) [])),
    ⟨0, [⟨1, .add, i32, [.argument .F 0 i32, .constantInt i32 1], [], "a", []⟩,
         ⟨6, .unreachable, .void, [], [], "", []⟩]⟩, by decide, rfl, rfl⟩

/-! ## The code generator's contract -/

theorem PtrMap.index_fst {K : Type} [DecidableEq K] (m : PtrMap K) (k : K) :
    (m.index k).1 = m.entry k := by
  unfold PtrMap.index PtrMap.entry
  split
  · rename_i e he
    rw [he]
    rfl
  · rename_i he
    rw [he]
    rfl

/-- C9 (`Var`): for a `Var` node bound to the host value `v`, `codeGen`
returns `v` itself when the value map is empty and the value map's entry
for `v` (`VMap[V->V()]`) when it is not; in both cases no instruction is
inserted, and nothing but the value map (where `operator[]` may add a null
entry for `v`) changes. -/
theorem codeGen_Var (b : IRBuilderFolder) (intrinsicRetTy : String → Ty) (v : Value) (st : GenState) :
    ∃ r st', codeGen b intrinsicRetTy (.Var v) st = .ok r st'
      ∧ r = (if st.VMap = [] then some v else st.VMap.entry v)
      ∧ st'.emitted = st.emitted ∧ st'.nextId = st.nextId
      ∧ st'.constMap = st.constMap ∧ st'.IntrinsicDecls = st.IntrinsicDecls
      ∧ (st.VMap = [] → st' = st) := by
  by_cases hempty : st.VMap = []
  · refine ⟨some v, st, ?_, by simp [hempty], rfl, rfl, rfl, rfl, fun _ => rfl⟩
    simp [codeGen, hempty]
  · have hne : st.VMap.isEmpty = false := by
      cases hV : st.VMap with
      | nil => exact absurd hV hempty
      | cons _ _ => rfl
    refine ⟨(st.VMap.index v).1, { st with VMap := (st.VMap.index v).2 }, ?_, ?_,
      rfl, rfl, rfl, rfl, fun h => absurd h hempty⟩
    · simp [codeGen, hne]
    · rw [if_neg hempty]
      exact PtrMap.index_fst st.VMap v

/-- C10 (`ReservedConst`): for a `ReservedConst` node with placeholder `A`,
`codeGen` returns `A` itself when no constant map is supplied (null
pointer) and leaves the state as it is; when a constant map is supplied it
returns the map's entry for `A` (`(*constMap)[RC->getA()]`) and inserts no
instruction. -/
theorem codeGen_ReservedConst (b : IRBuilderFolder) (intrinsicRetTy : String → Ty) (type : Ty) (A : Option Value)
    (st : GenState) :
    ∃ r st', codeGen b intrinsicRetTy (.ReservedConst type A) st = .ok r st'
      ∧ r = (match st.constMap with
              | none => A
              | some cm => cm.entry A)
      ∧ st'.emitted = st.emitted ∧ st'.nextId = st.nextId
      ∧ st'.VMap = st.VMap ∧ st'.IntrinsicDecls = st.IntrinsicDecls
      ∧ (st.constMap = none → st' = st) := by
  cases hc : st.constMap with
  | none =>
    refine ⟨A, st, ?_, rfl, rfl, rfl, rfl, rfl, fun _ => rfl⟩
    simp [codeGen, hc]
  | some cm =>
    refine ⟨(cm.index A).1, { st with constMap := some (cm.index A).2 }, ?_, ?_,
      rfl, rfl, rfl, rfl, fun h => absurd h (by simp)⟩
    · simp [codeGen, hc]
    · exact PtrMap.index_fst cm A

theorem insertInst_emitted (st : GenState) (opcode : Opcode) (ty : Ty) (operands : List Value)
    (name : String) (v : Option Value) (st' : GenState)
    (h : insertInst st opcode ty operands name = .ok v st') :
    ∃ I, st'.emitted = st.emitted ++ [I] := by
  unfold insertInst at h
  cases h
  exact ⟨_, rfl⟩

theorem CreateBinOp_emitted (b : IRBuilderFolder) (st : GenState) (opcode : Opcode)
    (v0 v1 : Value) (name : String) (v : Option Value) (st' : GenState)
    (h : IRBuilder.CreateBinOp b st opcode v0 v1 name = .ok v st') :
    ∃ ext, st'.emitted = st.emitted ++ ext ∧ ext.length ≤ 1
      ∧ (b st.emitted opcode v0 v1 = none → ext.length = 1) := by
  unfold IRBuilder.CreateBinOp at h
  cases hb : b st.emitted opcode v0 v1 with
  | some w =>
    rw [hb] at h
    cases h
    exact ⟨[], by simp, by simp, fun h => by cases h⟩
  | none =>
    rw [hb] at h
    obtain ⟨I, hI⟩ := insertInst_emitted _ _ _ _ _ _ _ h
    exact ⟨[I], hI, by simp, fun _ => rfl⟩

theorem codeGen_emitted_prefix (b : IRBuilderFolder) (intrinsicRetTy : String → Ty) (I : Inst) :
    ∀ (st : GenState) (v : Option Value) (st' : GenState),
      codeGen b intrinsicRetTy I st = .ok v st' → ∃ ext, st'.emitted = st.emitted ++ ext := by
  induction I with
  | Var x =>
    intro st v st' h
    unfold codeGen at h
    split at h
    · cases h
      exact ⟨[], by simp⟩
    · cases h
      exact ⟨[], by simp⟩
  | Ptr x =>
    intro st v st' h
    simp [codeGen] at h
  | ReservedConst t A =>
    intro st v st' h
    unfold codeGen at h
    split at h
    · cases h
      exact ⟨[], by simp⟩
    · cases h
      exact ⟨[], by simp⟩
  | UnaryInst op U ih =>
    intro st v st' h
    unfold codeGen at h
    cases hU : codeGen b intrinsicRetTy U st with
    | ok op0 st1 =>
      rw [hU] at h
      cases op
      simp only at h
      cases h
      exact ih st _ _ hU
    | fatal msg =>
      rw [hU] at h
      simp at h
    | undefined =>
      rw [hU] at h
      simp at h
  | BinaryInst K L R ihL ihR =>
    intro st v st' h
    unfold codeGen at h
    cases hL : codeGen b intrinsicRetTy L st with
    | ok op0 st1 =>
      rw [hL] at h
      simp only at h
      cases hR : codeGen b intrinsicRetTy R st1 with
      | ok op1 st2 =>
        rw [hR] at h
        obtain ⟨e1, he1⟩ := ihL st _ _ hL
        obtain ⟨e2, he2⟩ := ihR st1 _ _ hR
        cases op0 with
        | none => simp at h
        | some v0 =>
          cases op1 with
          | none => simp at h
          | some v1 =>
            obtain ⟨ext, hI, _, _⟩ := CreateBinOp_emitted _ _ _ _ _ _ _ _ h
            refine ⟨e1 ++ (e2 ++ ext), ?_⟩
            rw [hI, he2, he1, List.append_assoc, List.append_assoc]
      | fatal msg =>
        rw [hR] at h
        simp at h
      | undefined =>
        rw [hR] at h
        simp at h
    | fatal msg =>
      rw [hL] at h
      simp at h
    | undefined =>
      rw [hL] at h
      simp at h
  | ICmpInst c L R _ _ =>
    intro st v st' h
    simp [codeGen] at h
  | BitCastInst i a1 b1 c1 d1 _ =>
    intro st v st' h
    simp [codeGen] at h
  | SIMDBinOpInst K L R ihL ihR =>
    intro st v st' h
    unfold codeGen at h
    cases hL : codeGen b intrinsicRetTy L st with
    | ok op0 st1 =>
      rw [hL] at h
      simp only at h
      cases hR : codeGen b intrinsicRetTy R st1 with
      | ok op1 st2 =>
        rw [hR] at h
        obtain ⟨e1, he1⟩ := ihL st _ _ hL
        obtain ⟨e2, he2⟩ := ihR st1 _ _ hR
        cases op0 with
        | none => simp at h
        | some v0 =>
          cases op1 with
          | none => simp at h
          | some v1 =>
            obtain ⟨I, hI⟩ := insertInst_emitted _ _ _ _ _ _ _ h
            refine ⟨e1 ++ (e2 ++ [I]), ?_⟩
            rw [hI]
            show st2.emitted ++ [I] = _
            rw [he2, he1, List.append_assoc, List.append_assoc]
      | fatal msg =>
        rw [hR] at h
        simp at h
      | undefined =>
        rw [hR] at h
        simp at h
    | fatal msg =>
      rw [hL] at h
      simp at h
    | undefined =>
      rw [hL] at h
      simp at h
  | ShuffleVectorInst L R M _ _ _ =>
    intro st v st' h
    simp [codeGen] at h

/-- C11 (`BinaryInst`), as stated, fails for a builder that folds: with a
folder that folds constants as the default folder of `llvm::IRBuilder` does,
lowering `add` over two constant nodes that the constant map binds to the
constants 1 and 2 inserts no instruction and returns the constant 3. -/
theorem codeGen_BinaryInst_counterexample :
    codeGen exConstantFolder (fun _ => i32)
        (.BinaryInst .add (.ReservedConst i32 (some (.argument .F 0 i32)))
          (.ReservedConst i32 (some (.argument .F 1 i32))))
        ⟨[], some exConstMap, [], 0, []⟩
      = .ok (some (.constantInt i32 3)) ⟨[], some exConstMap, [], 0, []⟩ := by
  decide

/-- C11 (`BinaryInst`), amended: for a `BinaryInst` with operator `k` and
operands `L` and `R`, `codeGen` lowers `L` in the incoming state, then `R`
in the state left by `L`, and then makes one `Create` call of the builder
for the host counterpart of `k` (band to and, bor to or, bxor to xor, and
add, sub, mul, sdiv, udiv, lshr, ashr, shl to themselves) on the lowering of
`L` and the lowering of `R`. When the folder of the builder folds nothing
for them (always so with `llvm::NoFolder`), exactly one instruction is
inserted after all that the two lowerings inserted, with that opcode, the
lowering of `L` as its first and the lowering of `R` as its second operand,
and it is the value returned. When the folder folds, no instruction is
inserted and the value of the folder is returned. -/
theorem codeGen_BinaryInst (b : IRBuilderFolder) (intrinsicRetTy : String → Ty)
    (k : BinaryInst.Op) (L R : Inst)
    (st st1 st2 : GenState) (v0 v1 : Value)
    (hL : codeGen b intrinsicRetTy L st = .ok (some v0) st1)
    (hR : codeGen b intrinsicRetTy R st1 = .ok (some v1) st2) :
    ∃ (I : Instruction) (extL extR : List Instruction),
      codeGen b intrinsicRetTy (.BinaryInst k L R) st
          = (match b st2.emitted I.opcode v0 v1 with
             | some v => .ok (some v) st2
             | none =>
               .ok (some (I.asValue .F))
                 { st2 with emitted := st2.emitted ++ [I], nextId := st2.nextId + 1 })
        ∧ I.opcode = (match k with
            | .band => Opcode.and | .bor => Opcode.or | .bxor => Opcode.xor
            | .add => Opcode.add | .sub => Opcode.sub | .mul => Opcode.mul
            | .sdiv => Opcode.sdiv | .udiv => Opcode.udiv | .lshr => Opcode.lshr
            | .ashr => Opcode.ashr | .shl => Opcode.shl)
        ∧ I.operands = [v0, v1]
        ∧ st1.emitted = st.emitted ++ extL
        ∧ st2.emitted = st.emitted ++ extL ++ extR := by
  obtain ⟨extL, hextL⟩ := codeGen_emitted_prefix b intrinsicRetTy L st _ _ hL
  obtain ⟨extR, hextR⟩ := codeGen_emitted_prefix b intrinsicRetTy R st1 _ _ hR
  refine ⟨{ id := st2.nextId, opcode := (binaryOpcode k).1, ty := v0.getType,
            operands := [v0, v1], name := (binaryOpcode k).2 }, extL, extR, ?_, ?_, rfl,
    hextL, by rw [hextR, hextL]⟩
  · unfold codeGen
    rw [hL]
    simp only
    rw [hR]
    simp only [IRBuilder.CreateBinOp]
    cases b st2.emitted (binaryOpcode k).1 v0 v1 <;> rfl
  · cases k <;> rfl

theorem codeGen_BinaryInst_witness :
    ∃ (I : Instruction) (extL extR : List Instruction),
      codeGen NoFolder (fun _ => i32)
          (.BinaryInst .band (.Var (.argument .VF 0 i32)) (.Var (.argument .VF 1 i32)))
          ⟨[], none, [], 0, []⟩
          = (match NoFolder (⟨[], none, [], 0, []⟩ : GenState).emitted I.opcode
                (.argument .VF 0 i32) (.argument .VF 1 i32) with
             | some v => .ok (some v) ⟨[], none, [], 0, []⟩
             | none =>
               .ok (some (I.asValue .F))
                 { (⟨[], none, [], 0, []⟩ : GenState) with
                   emitted := (⟨[], none, [], 0, []⟩ : GenState).emitted ++ [I]
                   nextId := (⟨[], none, [], 0, []⟩ : GenState).nextId + 1 })
        ∧ I.opcode = Opcode.and
        ∧ I.operands = [.argument .VF 0 i32, .argument .VF 1 i32]
        ∧ (⟨[], none, [], 0, []⟩ : GenState).emitted
            = (⟨[], none, [], 0, []⟩ : GenState).emitted ++ extL
        ∧ (⟨[], none, [], 0, []⟩ : GenState).emitted
            = (⟨[], none, [], 0, []⟩ : GenState).emitted ++ extL ++ extR :=
  codeGen_BinaryInst NoFolder (fun _ => i32) .band (.Var (.argument .VF 0 i32))
    (.Var (.argument .VF 1 i32)) ⟨[], none, [], 0, []⟩ ⟨[], none, [], 0, []⟩
    ⟨[], none, [], 0, []⟩ (.argument .VF 0 i32) (.argument .VF 1 i32) (by decide) (by decide)

/-- C12 (`ICmpInst`), as stated, fails: lowering the comparison
`ult (var %x) (var %y)` inserts no instruction and returns no value; the
call ends in the fatal error for unknown nodes, with a builder that folds
nothing and with one that folds constants alike. -/
theorem codeGen_ICmpInst_counterexample :
    codeGen NoFolder (fun _ => i32)
        (.ICmpInst .ult (.Var (.argument .VF 0 i32)) (.Var (.argument .VF 1 i32)))
        ⟨[], none, [], 0, []⟩
      = .fatal "[ERROR] unknown instruction found in LLVMGen"
    ∧ codeGen exConstantFolder (fun _ => i32)
        (.ICmpInst .ult (.Var (.argument .VF 0 i32)) (.Var (.argument .VF 1 i32)))
        ⟨[], none, [], 0, []⟩
      = .fatal "[ERROR] unknown instruction found in LLVMGen" := by
  constructor <;> simp [codeGen]

/-- C12 (`ICmpInst`), amended: `codeGen` has no branch for `ICmpInst`. For
every condition, every pair of operands and every state the call ends in
the fatal error `[ERROR] unknown instruction found in LLVMGen`; neither
operand is lowered and no instruction is inserted. -/
theorem codeGen_ICmpInst (b : IRBuilderFolder) (intrinsicRetTy : String → Ty) (c : ICmpInst.Cond) (L R : Inst)
    (st : GenState) :
    codeGen b intrinsicRetTy (.ICmpInst c L R) st
      = .fatal "[ERROR] unknown instruction found in LLVMGen" := by
  simp [codeGen]

theorem append_left_cancel_string (p a b : String) (h : p ++ a = p ++ b) : a = b := by
  have h2 : (p ++ a).data = (p ++ b).data := by rw [h]
  rw [String.data_append, String.data_append] at h2
  exact String.ext (List.append_cancel_left h2)

/-- C13 (`getIntrinsicID`) fails on the table: the entries at the ordinals 96
and 97 are both `x86_avx512_psllv_w_256`. Hence no naming of the 128
operators by distinct names makes every table entry the host intrinsic
named after its operator. -/
theorem getIntrinsicID_table_repeats :
    getIntrinsicID ⟨96, by decide⟩ = "x86_avx512_psllv_w_256"
      ∧ getIntrinsicID ⟨97, by decide⟩ = "x86_avx512_psllv_w_256"
      ∧ ¬ ∃ name : X86IntrinBinOp.Op → String,
          Function.Injective name ∧ ∀ op, getIntrinsicID op = "x86_" ++ name op := by
  refine ⟨by decide, by decide, ?_⟩
  rintro ⟨name, hinj, hall⟩
  have h96 := hall ⟨96, by decide⟩
  have h97 := hall ⟨97, by decide⟩
  have e : getIntrinsicID ⟨96, by decide⟩ = getIntrinsicID ⟨97, by decide⟩ := by decide
  rw [h96, h97] at e
  have := hinj (append_left_cancel_string _ _ _ e)
  exact absurd this (by decide)

/-! ## Basic facts about the parser's model -/

namespace parse

theorem bind_eq {α β : Type} (m : M α) (f : α → M β) (st : State) :
    (m >>= f) st
      = (match m st with
        | .ok a st1 => f a st1
        | .exception e => .exception e
        | .fatal msg => .fatal msg
        | .unreachable => .unreachable
        | .outOfFuel => .outOfFuel) :=
  rfl

theorem bind_ok {α β : Type} (m : M α) (f : α → M β) (st st1 : State) (a : α)
    (h : m st = .ok a st1) : (m >>= f) st = f a st1 := by
  show (match m st with
    | .ok a st1 => f a st1
    | .exception e => .exception e
    | .fatal msg => .fatal msg
    | .unreachable => .unreachable
    | .outOfFuel => .outOfFuel) = _
  rw [h]

theorem bind_ok_inv {α β : Type} (m : M α) (f : α → M β) (st st' : State) (b : β)
    (h : (m >>= f) st = .ok b st') : ∃ a st1, m st = .ok a st1 ∧ f a st1 = .ok b st' := by
  have h2 : (match m st with
    | .ok a st1 => f a st1
    | .exception e => .exception e
    | .fatal msg => .fatal msg
    | .unreachable => .unreachable
    | .outOfFuel => .outOfFuel) = .ok b st' := h
  cases hm : m st with
  | ok a st1 =>
    rw [hm] at h2
    exact ⟨a, st1, rfl, h2⟩
  | exception e =>
    rw [hm] at h2
    cases h2
  | fatal msg =>
    rw [hm] at h2
    cases h2
  | unreachable =>
    rw [hm] at h2
    cases h2
  | outOfFuel =>
    rw [hm] at h2
    cases h2

theorem pure_eq {α : Type} (a : α) (st : State) : (pure a : M α) st = .ok a st := rfl

theorem error_eq {α : Type} (s : String) (st : State) :
    (error s : M α) st = .exception ⟨s, st.yylineno⟩ := by
  cases st
  rfl

theorem yylval_eq (st : State) : yylval st = .ok st.yylval st := by
  cases st
  rfl

theorem make_unique_eq (n : Expr) (st : State) :
    make_unique n st = .ok (st.heap, n) { st with heap := st.heap + 1 } := by
  cases st
  rfl

theorem emplace_back_eq (p : Addr × Expr) (st : State) :
    emplace_back p st = .ok () { st with exprs := st.exprs ++ [p] } := by
  cases st
  rfl

theorem operator_star_eq (st : State) :
    tokenizer_t.operator_star st
      = if st.tokenizer.returned then
          .ok st.tokenizer.last { st with tokenizer := { st.tokenizer with returned := false } }
        else tokenizer_t.get_new_token st := by
  rcases st with ⟨input, v, l, ⟨last, returned⟩, exprs, heap⟩
  rfl

theorem peek_eq (st : State) :
    tokenizer_t.peek st
      = if st.tokenizer.returned then .ok st.tokenizer.last st
        else
          match tokenizer_t.get_new_token
              { st with tokenizer := { st.tokenizer with returned := true } } with
          | .ok t st1 => .ok t { st1 with tokenizer := { st1.tokenizer with last := t } }
          | r => r := by
  rcases st with ⟨input, v, l, ⟨last, returned⟩, exprs, heap⟩
  cases returned
  · simp only [tokenizer_t.peek, Bool.false_eq_true, if_false]
    cases input with
    | nil => rfl
    | cons x rest =>
      cases x <;> rfl
  · rfl

theorem ensure_eq (E : Env) (e t : token) (st st1 : State)
    (h : tokenizer_t.operator_star st = .ok t st1) :
    tokenizer_t.ensure E e st
      = if t = e then .ok () st1
        else .exception
          ⟨"expected token: " ++ E.token_name e ++ ", got: " ++ E.token_name t, st1.yylineno⟩ := by
  unfold tokenizer_t.ensure
  rw [bind_ok _ _ _ _ _ h]
  by_cases hte : t = e
  · subst hte
    simp [pure_eq]
  · have : (t != e) = true := by simp [hte]
    simp only [this, if_true, if_neg hte]
    exact error_eq _ _

theorem ensure_ok (E : Env) (e : token) (st st1 : State)
    (h : tokenizer_t.operator_star st = .ok e st1) :
    tokenizer_t.ensure E e st = .ok () st1 := by
  rw [ensure_eq E e e st st1 h, if_pos rfl]

end parse

/-! ## The tokenizer's and the parser's contract -/

namespace parse

/-- C15 (`ensure`): let the read `*tokenizer` in the state `st` deliver the
token `t` and leave the state `st1`. Then `ensure(e)` returns in the state
`st1` when `t` is `e`, and otherwise throws a `ParseException` with the
message `expected token: <name of e>, got: <name of t>` and the line number
`yylineno` of the lexer at that moment; so it throws if and only if `t`
differs from `e`. The token read is the one held back, if one is (nothing
else changes but the flag `returned`), and the next token of the lexer
otherwise. -/
theorem ensure_spec (E : Env) (e t : token) (st st1 : State)
    (h : tokenizer_t.operator_star st = .ok t st1) :
    tokenizer_t.ensure E e st
        = (if t = e then .ok () st1
           else .exception
            ⟨"expected token: " ++ E.token_name e ++ ", got: " ++ E.token_name t,
              st1.yylineno⟩)
      ∧ ((∃ x, tokenizer_t.ensure E e st = .exception x) ↔ t ≠ e)
      ∧ (st.tokenizer.returned = true →
          t = st.tokenizer.last
            ∧ st1 = { st with tokenizer := { st.tokenizer with returned := false } })
      ∧ (st.tokenizer.returned = false → tokenizer_t.get_new_token st = .ok t st1) := by
  have heq := ensure_eq E e t st st1 h
  refine ⟨heq, ?_, ?_, ?_⟩
  · rw [heq]
    by_cases hte : t = e
    · simp [hte]
    · simp [hte]
  · intro hr
    rw [operator_star_eq, if_pos hr] at h
    cases h
    exact ⟨rfl, rfl⟩
  · intro hr
    rw [operator_star_eq, hr] at h
    simpa using h

theorem ensure_spec_witness :
    tokenizer_t.ensure exEnv .LPAREN (exStart [lexeme .RPAREN])
      = .exception ⟨"expected token: LPAREN, got: RPAREN", 1⟩ :=
  (ensure_spec exEnv .LPAREN .RPAREN (exStart [lexeme .RPAREN]) (exStart [])
    (by decide)).1.trans (by decide)

/-- C16 (`parse_var`): in a state where the type annotation parses
(`parse_type` returns), the next token read is `REGISTER` and the one after
it is `RPAREN`, `parse_var` looks up the register text without its first
character in the symbol table of `F`, whatever that table holds. If a value
`LV` bears that name (an argument, a basic block or an instruction), the
call returns a new `Var` node bound to `LV`, which it has appended to
`exprs`; if none does, the call ends in the fatal error
`[parser] terminating`: no `ParseException` is thrown and no node is
returned. -/
theorem parse_var_spec (E : Env) (st st1 st2 st3 : State) (ty : type)
    (hty : parse_type E st = .ok ty st1)
    (hreg : tokenizer_t.operator_star st1 = .ok .REGISTER st2)
    (hrp : tokenizer_t.operator_star st2 = .ok .RPAREN st3) :
    Parser.parse_var E st
      = (match E.lookup (erase_begin st2.yylval.str) with
         | some LV =>
           .ok st3.heap
             { st3 with
               exprs := st3.exprs ++ [(st3.heap, .Var LV)]
               heap := st3.heap + 1 }
         | none => .fatal "[parser] terminating") := by
  unfold Parser.parse_var
  rw [bind_ok _ _ _ _ _ hty, bind_ok _ _ _ _ _ (ensure_ok E _ _ _ hreg),
    bind_ok _ _ _ _ _ (yylval_eq st2), bind_ok _ _ _ _ _ (ensure_ok E _ _ _ hrp)]
  cases hl : E.lookup (erase_begin st2.yylval.str) with
  | none => rfl
  | some LV =>
    simp only []
    rw [bind_ok _ _ _ _ _ (make_unique_eq _ _), bind_ok _ _ _ _ _ (emplace_back_eq _ _)]
    rfl

theorem parse_var_spec_witness :
    Parser.parse_var exEnv (exStart [lexemeInt 32, lexemeReg "%x", lexeme .RPAREN])
        = .ok 0 ⟨[], ⟨0, ""⟩, 1, ⟨.INT_TYPE, false⟩, [(0, .Var (.argument .VF 0 i32))], 1⟩
      ∧ Parser.parse_var exEnv (exStart [lexemeInt 32, lexemeReg "%entry", lexeme .RPAREN])
        = .ok 0 ⟨[], ⟨0, ""⟩, 1, ⟨.INT_TYPE, false⟩, [(0, .Var (.basicBlock .VF 0))], 1⟩
      ∧ Parser.parse_var exEnv (exStart [lexemeInt 32, lexemeReg "%z", lexeme .RPAREN])
        = .fatal "[parser] terminating" :=
  ⟨(parse_var_spec exEnv (exStart [lexemeInt 32, lexemeReg "%x", lexeme .RPAREN])
      ⟨[lexemeReg "%x", lexeme .RPAREN], ⟨32, ""⟩, 1, ⟨.INT_TYPE, false⟩, [], 0⟩
      ⟨[lexeme .RPAREN], ⟨0, "%x"⟩, 1, ⟨.INT_TYPE, false⟩, [], 0⟩
      ⟨[], ⟨0, ""⟩, 1, ⟨.INT_TYPE, false⟩, [], 0⟩
      (type.Scalar 32 false) (by decide) (by decide) (by decide)).trans (by decide),
   (parse_var_spec exEnv (exStart [lexemeInt 32, lexemeReg "%entry", lexeme .RPAREN])
      ⟨[lexemeReg "%entry", lexeme .RPAREN], ⟨32, ""⟩, 1, ⟨.INT_TYPE, false⟩, [], 0⟩
      ⟨[lexeme .RPAREN], ⟨0, "%entry"⟩, 1, ⟨.INT_TYPE, false⟩, [], 0⟩
      ⟨[], ⟨0, ""⟩, 1, ⟨.INT_TYPE, false⟩, [], 0⟩
      (type.Scalar 32 false) (by decide) (by decide) (by decide)).trans (by decide),
   (parse_var_spec exEnv (exStart [lexemeInt 32, lexemeReg "%z", lexeme .RPAREN])
      ⟨[lexemeReg "%z", lexeme .RPAREN], ⟨32, ""⟩, 1, ⟨.INT_TYPE, false⟩, [], 0⟩
      ⟨[lexeme .RPAREN], ⟨0, "%z"⟩, 1, ⟨.INT_TYPE, false⟩, [], 0⟩
      ⟨[], ⟨0, ""⟩, 1, ⟨.INT_TYPE, false⟩, [], 0⟩
      (type.Scalar 32 false) (by decide) (by decide) (by decide)).trans (by decide)⟩

end parse

namespace parse

theorem peek_idem (st st1 : State) (t : token) (h : tokenizer_t.peek st = .ok t st1) :
    tokenizer_t.peek st1 = .ok t st1 := by
  rcases st with ⟨input, v, l, ⟨last, returned⟩, exprs, heap⟩
  cases returned
  · cases input with
    | nil =>
      cases h
      rfl
    | cons x rest =>
      cases x with
      | token t2 v2 l2 =>
        cases h
        rfl
      | LexException s l2 => cases h
  · cases h
    rfl

theorem isScalarType_eq (st st1 : State) (t : token) (h : tokenizer_t.peek st = .ok t st1) :
    tokenizer_t.isScalarType st
      = .ok (t == .INT_TYPE || t == .FLOAT || t == .DOUBLE || t == .HALF || t == .FP128)
          st1 := by
  have h1 := peek_idem st st1 t h
  unfold tokenizer_t.isScalarType
  rw [bind_ok _ _ _ _ _ h]
  by_cases c1 : t = .INT_TYPE
  · subst c1
    rfl
  · have e1 : (t == token.INT_TYPE) = false := by simp [c1]
    simp only [e1, Bool.false_eq_true, if_false, Bool.false_or]
    rw [bind_ok _ _ _ _ _ h1]
    by_cases c2 : t = .FLOAT
    · subst c2
      rfl
    · have e2 : (t == token.FLOAT) = false := by simp [c2]
      simp only [e2, Bool.false_eq_true, if_false, Bool.false_or]
      rw [bind_ok _ _ _ _ _ h1]
      by_cases c3 : t = .DOUBLE
      · subst c3
        rfl
      · have e3 : (t == token.DOUBLE) = false := by simp [c3]
        simp only [e3, Bool.false_eq_true, if_false, Bool.false_or]
        rw [bind_ok _ _ _ _ _ h1]
        by_cases c4 : t = .HALF
        · subst c4
          rfl
        · have e4 : (t == token.HALF) = false := by simp [c4]
          simp only [e4, Bool.false_eq_true, if_false, Bool.false_or]
          rw [bind_ok _ _ _ _ _ h1]
          rfl

theorem isVectorType_eq (st st1 : State) (t : token) (h : tokenizer_t.peek st = .ok t st1) :
    tokenizer_t.isVectorType st = .ok (t == .VECTOR_TYPE_PREFIX) st1 := by
  unfold tokenizer_t.isVectorType
  rw [bind_ok _ _ _ _ _ h]
  rfl

end parse

namespace parse

/-- C18 (parse diagnostics), as stated, fails: on the tokens `( )` the token
after the opening parenthesis is no op keyword, and on the tokens
`( var %x )` a register stands where a type is expected. In both cases
`parse` ends in `UNREACHABLE()`; no `ParseException` is thrown (the handler
of `parse` would have ended the process with exit status 1). On the tokens
`( var i32 %z )` the name `z` is not in the symbol table and `parse` ends in
the fatal error of `report_fatal_error`. -/
theorem parse_diagnostic_counterexample :
    Parser.parse exEnv exParseF (exStart [lexeme .LPAREN, lexeme .RPAREN]) = .unreachable
      ∧ Parser.parse exEnv exParseF
          (exStart [lexeme .LPAREN, lexeme .VAR, lexemeReg "%x", lexeme .RPAREN])
        = .unreachable
      ∧ Parser.parse exEnv exParseF
          (exStart [lexeme .LPAREN, lexeme .VAR, lexemeInt 32, lexemeReg "%z", lexeme .RPAREN])
        = .fatal "[parser] terminating" := by
  decide

/-- C18 (parse diagnostics), amended: a token that differs from the one
`ensure` expects is reported by a `ParseException` that carries a message
and the line number. When the token read after the opening parenthesis is
not an op keyword of the production table, `parse_expr` ends in
`UNREACHABLE()`, and when a type is expected and the next token is no type
token, `parse_type` ends in `UNREACHABLE()`; neither throws a
`ParseException`. -/
theorem parse_diagnostic (E : Env) (st : State) :
    (∀ e t st1, tokenizer_t.operator_star st = .ok t st1 → t ≠ e →
        tokenizer_t.ensure E e st
          = .exception
              ⟨"expected token: " ++ E.token_name e ++ ", got: " ++ E.token_name t,
                st1.yylineno⟩)
      ∧ (∀ fuel t st1 st2, tokenizer_t.operator_star st = .ok .LPAREN st1 →
          tokenizer_t.operator_star st1 = .ok t st2 → t.isOpKeyword = false →
          Parser.parse_expr E (fuel + 1) st = .unreachable)
      ∧ (∀ t st1, tokenizer_t.peek st = .ok t st1 → t.isTypeToken = false →
          parse_type E st = .unreachable) := by
  refine ⟨?_, ?_, ?_⟩
  · intro e t st1 h hne
    rw [ensure_eq E e t st st1 h, if_neg hne]
  · intro fuel t st1 st2 h1 h2 hkw
    unfold Parser.parse_expr
    rw [bind_ok _ _ _ _ _ (ensure_ok E _ _ _ h1), bind_ok _ _ _ _ _ h2]
    cases t <;> first | rfl | exact absurd hkw (by decide)
  · intro t st1 h hty
    have hs : (t == .INT_TYPE || t == .FLOAT || t == .DOUBLE || t == .HALF || t == .FP128)
        = false := by
      cases t <;> first | rfl | exact absurd hty (by decide)
    have hvb : (t == token.VECTOR_TYPE_PREFIX) = false := by
      cases t <;> first | rfl | exact absurd hty (by decide)
    have hv := isVectorType_eq st1 st1 t (peek_idem st st1 t h)
    unfold parse_type
    rw [bind_ok _ _ _ _ _ (isScalarType_eq st st1 t h), hs]
    simp only [Bool.false_eq_true, if_false]
    rw [bind_ok _ _ _ _ _ hv, hvb]
    rfl

theorem parse_diagnostic_witness :
    tokenizer_t.ensure exEnv .LPAREN (exStart [lexeme .RPAREN])
        = .exception ⟨"expected token: LPAREN, got: RPAREN", 1⟩
      ∧ Parser.parse_expr exEnv 1 (exStart [lexeme .LPAREN, lexeme .RPAREN]) = .unreachable
      ∧ parse_type exEnv (exStart [lexemeReg "%x"]) = .unreachable :=
  ⟨((parse_diagnostic exEnv (exStart [lexeme .RPAREN])).1 .LPAREN .RPAREN (exStart [])
      (by decide) (by decide)).trans (by decide),
    (parse_diagnostic exEnv (exStart [lexeme .LPAREN, lexeme .RPAREN])).2.1 0 .RPAREN
      (exStart [lexeme .RPAREN]) (exStart []) (by decide) (by decide) (by decide),
    (parse_diagnostic exEnv (exStart [lexemeReg "%x"])).2.2 .REGISTER
      ⟨[], ⟨0, "%x"⟩, 1, ⟨.REGISTER, true⟩, [], 0⟩ (by decide) (by decide)⟩

end parse

namespace parse

/-- C20 (comparison conditions), as stated, fails for the parser: from the
tokens of `(ugt (var i32 %x) (var i32 %y) b1)` it builds a comparison node
with the condition `ugt`. -/
theorem parse_icmp_counterexample :
    Parser.parse exEnv exParseF (exStart exUgtTokens)
      = .returned [⟨2, 0, 0⟩]
          ⟨[], ⟨0, ""⟩, 1, ⟨.INT_TYPE, false⟩,
            [(0, .Var (.argument .VF 0 i32)), (1, .Var (.argument .VF 1 i32)),
             (2, .ICmp .ugt 0 1 1)], 3⟩ := by
  decide

/-- C20 (comparison conditions), amended: a comparison node of `IR.h`
(`ICmpInst`) has one of the conditions eq, ne, ult, ule, slt, sle. The
parser, however, builds its comparison nodes with any of ten conditions:
when `parse_icmp` returns for the op token `t`, the node it returns is held
by `exprs` and is a comparison whose condition is the one named like `t`,
which is `ugt`, `uge`, `sgt` or `sge` for the tokens `UGT`, `UGE`, `SGT`,
`SGE`. -/
theorem parse_icmp_conditions (E : Env) (parse_expr : M Addr) (t : token) (st st' : State)
    (r : Addr) (h : Parser.parse_icmp E parse_expr t st = .ok r st') :
    (∀ c : ICmpInst.Cond,
        c = .eq ∨ c = .ne ∨ c = .ult ∨ c = .ule ∨ c = .slt ∨ c = .sle)
      ∧ ∃ (c : ICmp.Cond) (a b : Addr) (width : Nat),
          (r, Expr.ICmp c a b width) ∈ st'.exprs
            ∧ (match t with
                | .EQ => c = .eq | .NE => c = .ne
                | .ULT => c = .ult | .ULE => c = .ule
                | .UGT => c = .ugt | .UGE => c = .uge
                | .SLT => c = .slt | .SLE => c = .sle
                | .SGT => c = .sgt | .SGE => c = .sge
                | _ => False) := by
  constructor
  · intro c
    cases c <;> simp
  · unfold Parser.parse_icmp at h
    obtain ⟨c, s1, h1, h⟩ := bind_ok_inv _ _ _ _ _ h
    obtain ⟨a, s2, _, h⟩ := bind_ok_inv _ _ _ _ _ h
    obtain ⟨b, s3, _, h⟩ := bind_ok_inv _ _ _ _ _ h
    obtain ⟨width, s4, _, h⟩ := bind_ok_inv _ _ _ _ _ h
    obtain ⟨_, s5, _, h⟩ := bind_ok_inv _ _ _ _ _ h
    obtain ⟨II, s6, h6, h⟩ := bind_ok_inv _ _ _ _ _ h
    obtain ⟨_, s7, h7, h⟩ := bind_ok_inv _ _ _ _ _ h
    rw [make_unique_eq] at h6
    cases h6
    rw [emplace_back_eq] at h7
    cases h7
    cases h
    refine ⟨c, a, b, width, by simp, ?_⟩
    cases t <;> first | (cases h1; rfl) | cases h1

theorem parse_icmp_conditions_witness :
    (∀ c : ICmpInst.Cond,
        c = .eq ∨ c = .ne ∨ c = .ult ∨ c = .ule ∨ c = .slt ∨ c = .sle)
      ∧ ∃ (c : ICmp.Cond) (a b : Addr) (width : Nat),
          (2, Expr.ICmp c a b width)
              ∈ [(0, Expr.Var (.argument .VF 0 i32)), (1, .Var (.argument .VF 1 i32)),
                  (2, .ICmp .ugt 0 1 1)]
            ∧ c = .ugt :=
  parse_icmp_conditions exEnv (Parser.parse_expr exEnv 1) .UGT
    ⟨exUgtTokens.tail.tail, ⟨0, ""⟩, 1, ⟨.END, false⟩, [], 0⟩
    ⟨[], ⟨0, ""⟩, 1, ⟨.INT_TYPE, false⟩,
      [(0, .Var (.argument .VF 0 i32)), (1, .Var (.argument .VF 1 i32)),
       (2, .ICmp .ugt 0 1 1)], 3⟩
    2 (by decide)

/-- C14 (concrete scenario), as stated, fails: the literal token carrying a
text from which the constant 255 is read, the tokens of
`(band i32 (var i32 %x) (const i32 255))` are parsed into a `band` node over
a `Var` bound to `%x` and a scalar 32-bit constant node. Lowering that tree
with an empty value map and no constant map does not give an instruction
whose second operand is the literal 255: `codeGen` returns the placeholder
of a constant node when it has no constant map, so with the placeholder
unset no instruction is made, and with a placeholder argument set the
operand handed to the builder is that argument; the `and` inserted by a
builder that folds nothing has it as second operand. -/
theorem band_scenario_counterexample :
    Parser.parse exEnv exParseF (exStart (exBandTokens "|i32 255|"))
        = .returned [⟨2, 0, 0⟩]
            ⟨[], ⟨0, ""⟩, 1, ⟨.INT_TYPE, false⟩,
              [(0, .Var (.argument .VF 0 i32)),
               (1, .ReservedConst (type.Scalar 32 false) (some (.constantInt i32 255))),
               (2, .BinaryOp .band 0 1 (type.Scalar 32 false))], 3⟩
      ∧ codeGen NoFolder (fun _ => i32)
            (.BinaryInst .band (.Var (.argument .VF 0 i32)) (.ReservedConst i32 none))
            ⟨[], none, [], 0, []⟩
          = .undefined
      ∧ codeGen NoFolder (fun _ => i32)
            (.BinaryInst .band (.Var (.argument .VF 0 i32))
              (.ReservedConst i32 (some (.argument .F 0 i32))))
            ⟨[], none, [], 0, []⟩
          = .ok (some (.instruction .F 0 i32))
              ⟨[], none,
                [⟨0, .and, i32, [.argument .VF 0 i32, .argument .F 0 i32], [], "and",
                  []⟩],
                1, []⟩ := by
  refine ⟨by decide, by decide, by decide⟩

/-- C14 (concrete scenario), amended: whatever text the literal token
carries and whatever the host's constant parser makes of it, the tokens of
`(band i32 (var i32 %x) (const i32 255))` over a function with the `i32`
argument `%x` are parsed into three nodes held by `exprs`: a `Var` bound to
`%x`, a scalar 32-bit constant node holding what the constant parser
returns for the literal text without its first and last character, and the
returned `band` node over the two. Lowering a `band` node over a `Var`
bound to `%x` and a constant node with an empty value map and no constant
map returns one new `and` instruction whose first operand is `%x` and whose
second operand is the placeholder `A` of the constant node, not a literal;
when the placeholder is null no instruction is made. This is so for every
builder whose folder folds nothing for `%x` and `A`; a folder that folds
them gives the value returned, and then no instruction is made. -/
theorem band_scenario (parseConstantValue : String → Option Value) (lit : String)
    (b : IRBuilderFolder) (intrinsicRetTy : String → Ty) (A : Option Value) :
    Parser.parse ⟨exSymbolTable, exToken_name, parseConstantValue, fun _ => none⟩ exParseF
          (exStart (exBandTokens lit))
        = .returned [⟨2, 0, 0⟩]
            ⟨[], ⟨0, ""⟩, 1, ⟨.INT_TYPE, false⟩,
              [(0, .Var (.argument .VF 0 i32)),
               (1, .ReservedConst (type.Scalar 32 false)
                    (parseConstantValue (erase_begin (pop_back lit)))),
               (2, .BinaryOp .band 0 1 (type.Scalar 32 false))], 3⟩
      ∧ codeGen b intrinsicRetTy
            (.BinaryInst .band (.Var (.argument .VF 0 i32)) (.ReservedConst i32 A))
            ⟨[], none, [], 0, []⟩
          = (match A with
             | some a =>
               (match b [] .and (.argument .VF 0 i32) a with
                | some v => .ok (some v) ⟨[], none, [], 0, []⟩
                | none =>
                  .ok (some (.instruction .F 0 i32))
                    ⟨[], none, [⟨0, .and, i32, [.argument .VF 0 i32, a], [], "and", []⟩],
                      1, []⟩)
             | none => .undefined) := by
  constructor
  · rfl
  · cases A with
    | none => rfl
    | some a =>
      show IRBuilder.CreateBinOp b ⟨[], none, [], 0, []⟩ .and (.argument .VF 0 i32) a "and" = _
      unfold IRBuilder.CreateBinOp
      show (match b [] .and (.argument .VF 0 i32) a with
        | some v => GenResult.ok (some v) ⟨[], none, [], 0, []⟩
        | none => insertInst ⟨[], none, [], 0, []⟩ .and (Value.argument .VF 0 i32).getType
            [.argument .VF 0 i32, a] "and") = _
      cases hb : b [] .and (.argument .VF 0 i32) a with
      | none =>
        simp only [hb]
        rfl
      | some w => simp only [hb]

end parse

/-! ## The arena of the parser -/

namespace parse

theorem ArenaInv.weaken {own own' : List Addr} {st : State} (h : ArenaInv own st)
    (hsub : ∀ q ∈ own', q ∈ own) : ArenaInv own' st :=
  ⟨h.1, fun q hq => h.2 q (hsub q hq)⟩

theorem ArenaInv.same_arena {own : List Addr} {st st' : State} (h : ArenaInv own st)
    (he : st'.exprs = st.exprs) (hh : st'.heap = st.heap) : ArenaInv own st' := by
  unfold ArenaInv ArenaOK at *
  rw [he, hh]
  exact h

theorem ArenaInv.alloc {own : List Addr} {st : State} (n : Expr) (h : ArenaInv own st)
    (hops : ∀ q ∈ n.operands, q ∈ own) :
    ArenaInv (st.heap :: own)
      { st with exprs := st.exprs ++ [(st.heap, n)], heap := st.heap + 1 } := by
  obtain ⟨⟨hnd, hlt, hcl⟩, hown⟩ := h
  refine ⟨⟨?_, ?_, ?_⟩, ?_⟩
  · show (held (st.exprs ++ [(st.heap, n)])).Nodup
    unfold held at *
    rw [List.map_append, List.nodup_append]
    refine ⟨hnd, by simp, ?_⟩
    intro a ha hb
    simp only [List.map_cons, List.map_nil, List.mem_singleton] at hb
    subst hb
    exact absurd (hlt _ ha) (Nat.lt_irrefl _)
  · intro p hp
    show p < st.heap + 1
    have hp2 : p ∈ held (st.exprs ++ [(st.heap, n)]) := hp
    unfold held at hp2 hlt
    rw [List.map_append, List.mem_append] at hp2
    rcases hp2 with hp2 | hp2
    · exact Nat.lt_succ_of_lt (hlt p hp2)
    · simp only [List.map_cons, List.map_nil, List.mem_singleton] at hp2
      subst hp2
      exact Nat.lt_succ_self _
  · intro p m hpm q hq
    show q ∈ held (st.exprs ++ [(st.heap, n)])
    have hpm2 : (p, m) ∈ st.exprs ++ [(st.heap, n)] := hpm
    unfold held at *
    rw [List.map_append, List.mem_append]
    rw [List.mem_append] at hpm2
    rcases hpm2 with hpm2 | hpm2
    · exact Or.inl (hcl p m hpm2 q hq)
    · simp only [List.mem_singleton, Prod.mk.injEq] at hpm2
      obtain ⟨_, hm⟩ := hpm2
      subst hm
      exact Or.inl (hown q (hops q hq))
  · intro q hq
    show q ∈ held (st.exprs ++ [(st.heap, n)])
    unfold held at *
    rw [List.map_append, List.mem_append]
    rcases List.mem_cons.mp hq with hq | hq
    · subst hq
      exact Or.inr (by simp)
    · exact Or.inl (hown q hq)

theorem keepsArena_bind {α β : Type} {m : M α} {f : α → M β} (hm : KeepsArena m)
    (hf : ∀ a, KeepsArena (f a)) : KeepsArena (m >>= f) := by
  intro st b st' own h hinv
  obtain ⟨a, st1, h1, h2⟩ := bind_ok_inv _ _ _ _ _ h
  exact hf a _ _ _ _ h2 (hm _ _ _ _ h1 hinv)

theorem keepsArena_pure {α : Type} (a : α) : KeepsArena (pure a : M α) := by
  intro st b st' own h hinv
  cases h
  exact hinv

theorem keepsArena_error {α : Type} (s : String) : KeepsArena (error s : M α) := by
  intro st b st' own h hinv
  rw [error_eq] at h
  cases h

theorem keepsArena_UNREACHABLE {α : Type} : KeepsArena (UNREACHABLE : M α) := by
  intro st b st' own h hinv
  cases h

theorem keepsArena_ite {α : Type} {c : Prop} [Decidable c] {m1 m2 : M α} (h1 : KeepsArena m1)
    (h2 : KeepsArena m2) : KeepsArena (if c then m1 else m2) := by
  split
  · exact h1
  · exact h2

theorem keepsArena_get_new_token : KeepsArena tokenizer_t.get_new_token := by
  intro st b st' own h hinv
  rcases st with ⟨input, v, l, tk, exprs, heap⟩
  cases input with
  | nil =>
    cases h
    exact hinv
  | cons x rest =>
    cases x with
    | token t2 v2 l2 =>
      cases h
      exact hinv.same_arena rfl rfl
    | LexException s l2 => cases h

theorem keepsArena_operator_star : KeepsArena tokenizer_t.operator_star := by
  intro st b st' own h hinv
  rw [operator_star_eq] at h
  split at h
  · cases h
    exact hinv.same_arena rfl rfl
  · exact keepsArena_get_new_token _ _ _ _ h hinv

theorem keepsArena_peek : KeepsArena tokenizer_t.peek := by
  intro st b st' own h hinv
  rw [peek_eq] at h
  split at h
  · cases h
    exact hinv
  · cases hg : tokenizer_t.get_new_token
        { st with tokenizer := { st.tokenizer with returned := true } } with
    | ok t st1 =>
      rw [hg] at h
      cases h
      have := keepsArena_get_new_token _ _ _ own hg (hinv.same_arena rfl rfl)
      exact this.same_arena rfl rfl
    | exception e =>
      rw [hg] at h
      cases h
    | fatal msg =>
      rw [hg] at h
      cases h
    | unreachable =>
      rw [hg] at h
      cases h
    | outOfFuel =>
      rw [hg] at h
      cases h

theorem keepsArena_yylval : KeepsArena yylval := by
  intro st b st' own h hinv
  rw [yylval_eq] at h
  cases h
  exact hinv

theorem keepsArena_ensure (E : Env) (e : token) : KeepsArena (tokenizer_t.ensure E e) := by
  unfold tokenizer_t.ensure
  refine keepsArena_bind keepsArena_operator_star (fun t => ?_)
  exact keepsArena_ite (keepsArena_error _) (keepsArena_pure _)

theorem keepsArena_isScalarType : KeepsArena tokenizer_t.isScalarType := by
  unfold tokenizer_t.isScalarType
  refine keepsArena_bind keepsArena_peek (fun t => keepsArena_ite (keepsArena_pure _) ?_)
  refine keepsArena_bind keepsArena_peek (fun t => keepsArena_ite (keepsArena_pure _) ?_)
  refine keepsArena_bind keepsArena_peek (fun t => keepsArena_ite (keepsArena_pure _) ?_)
  refine keepsArena_bind keepsArena_peek (fun t => keepsArena_ite (keepsArena_pure _) ?_)
  exact keepsArena_bind keepsArena_peek (fun t => keepsArena_pure _)

theorem keepsArena_isVectorType : KeepsArena tokenizer_t.isVectorType := by
  unfold tokenizer_t.isVectorType
  exact keepsArena_bind keepsArena_peek (fun t => keepsArena_pure _)

theorem keepsArena_parse_scalar_type (E : Env) : KeepsArena (parse_scalar_type E) := by
  unfold parse_scalar_type
  refine keepsArena_bind keepsArena_peek (fun t => ?_)
  cases t <;> first
    | exact keepsArena_UNREACHABLE
    | exact keepsArena_bind (keepsArena_ensure E _) (fun _ => keepsArena_pure _)
    | exact keepsArena_bind (keepsArena_ensure E _)
        (fun _ => keepsArena_bind keepsArena_yylval (fun _ => keepsArena_pure _))

theorem keepsArena_parse_vector_type (E : Env) : KeepsArena (parse_vector_type E) := by
  unfold parse_vector_type
  refine keepsArena_bind (keepsArena_ensure E _) (fun _ => ?_)
  refine keepsArena_bind keepsArena_yylval (fun _ => ?_)
  refine keepsArena_bind (keepsArena_parse_scalar_type E) (fun _ => ?_)
  exact keepsArena_bind (keepsArena_ensure E _) (fun _ => keepsArena_pure _)

theorem keepsArena_parse_type (E : Env) : KeepsArena (parse_type E) := by
  unfold parse_type
  refine keepsArena_bind keepsArena_isScalarType (fun b => ?_)
  refine keepsArena_ite (keepsArena_parse_scalar_type E) ?_
  refine keepsArena_bind keepsArena_isVectorType (fun b => ?_)
  exact keepsArena_ite (keepsArena_parse_vector_type E) keepsArena_UNREACHABLE

theorem keepsArena_parse_number (E : Env) : KeepsArena (parse_number E) := by
  unfold parse_number
  refine keepsArena_bind (keepsArena_ensure E _) (fun _ => ?_)
  exact keepsArena_bind keepsArena_yylval (fun _ => keepsArena_pure _)

theorem keepsArena_switch {α : Type} (o : Option α) : KeepsArena (switch o) := by
  cases o
  · exact keepsArena_UNREACHABLE
  · exact keepsArena_pure _

/-- Allocation and emplacement of a node whose operands are held. -/
theorem emplace_step (n : Expr) (st st' : State) (r : Addr) (own : List Addr)
    (h : (do
      let T ← make_unique n
      emplace_back T
      pure T.1 : M Addr) st = .ok r st')
    (hinv : ArenaInv own st) (hops : ∀ q ∈ n.operands, q ∈ own) :
    ArenaInv (r :: own) st' := by
  rw [bind_ok _ _ _ _ _ (make_unique_eq _ _), bind_ok _ _ _ _ _ (emplace_back_eq _ _)] at h
  cases h
  exact hinv.alloc n hops

end parse

namespace parse

theorem cons_sub (r : Addr) (mid own : List Addr) : ∀ q ∈ r :: own, q ∈ r :: (mid ++ own) := by
  intro q hq
  rcases List.mem_cons.mp hq with h | h
  · exact h ▸ List.mem_cons_self _ _
  · exact List.mem_cons_of_mem _ (List.mem_append_right _ h)

theorem holds_parse_var (E : Env) : HoldsResult (Parser.parse_var E) := by
  intro st r st' own h hinv
  unfold Parser.parse_var at h
  obtain ⟨t, s1, h1, h⟩ := bind_ok_inv _ _ _ _ _ h
  have i1 := keepsArena_parse_type E _ _ _ _ h1 hinv
  obtain ⟨_, s2, h2, h⟩ := bind_ok_inv _ _ _ _ _ h
  have i2 := keepsArena_ensure E _ _ _ _ _ h2 i1
  obtain ⟨v, s3, h3, h⟩ := bind_ok_inv _ _ _ _ _ h
  have i3 := keepsArena_yylval _ _ _ _ h3 i2
  obtain ⟨_, s4, h4, h⟩ := bind_ok_inv _ _ _ _ _ h
  have i4 := keepsArena_ensure E _ _ _ _ _ h4 i3
  cases hl : E.lookup (erase_begin v.str) with
  | none =>
    rw [hl] at h
    cases h
  | some LV =>
    rw [hl] at h
    exact emplace_step _ _ _ _ _ h i4 (by simp [Expr.operands])

theorem holds_parse_const (E : Env) : HoldsResult (Parser.parse_const E) := by
  intro st r st' own h hinv
  unfold Parser.parse_const at h
  obtain ⟨t, s1, h1, h⟩ := bind_ok_inv _ _ _ _ _ h
  have i1 := keepsArena_parse_type E _ _ _ _ h1 hinv
  obtain ⟨_, s2, h2, h⟩ := bind_ok_inv _ _ _ _ _ h
  have i2 := keepsArena_ensure E _ _ _ _ _ h2 i1
  obtain ⟨v, s3, h3, h⟩ := bind_ok_inv _ _ _ _ _ h
  have i3 := keepsArena_yylval _ _ _ _ h3 i2
  obtain ⟨_, s4, h4, h⟩ := bind_ok_inv _ _ _ _ _ h
  have i4 := keepsArena_ensure E _ _ _ _ _ h4 i3
  exact emplace_step _ _ _ _ _ h i4 (by simp [Expr.operands])

theorem holds_parse_copy (E : Env) : HoldsResult (Parser.parse_copy E) := by
  intro st r st' own h hinv
  unfold Parser.parse_copy at h
  obtain ⟨_, s1, h1, h⟩ := bind_ok_inv _ _ _ _ _ h
  have i1 := keepsArena_ensure E _ _ _ _ _ h1 hinv
  obtain ⟨_, s2, h2, h⟩ := bind_ok_inv _ _ _ _ _ h
  have i2 := keepsArena_ensure E _ _ _ _ _ h2 i1
  obtain ⟨a, s3, h3, h⟩ := bind_ok_inv _ _ _ _ _ h
  have i3 := holds_parse_const E _ _ _ _ h3 i2
  obtain ⟨_, s4, h4, h⟩ := bind_ok_inv _ _ _ _ _ h
  have i4 := keepsArena_ensure E _ _ _ _ _ h4 i3
  exact (emplace_step _ _ _ _ _ h i4 (by simp [Expr.operands])).weaken (cons_sub _ [a] _)

theorem holds_parse_unary (E : Env) (parse_expr : M Addr) (hrec : HoldsResult parse_expr)
    (op_token : token) : HoldsResult (Parser.parse_unary E parse_expr op_token) := by
  intro st r st' own h hinv
  unfold Parser.parse_unary at h
  obtain ⟨op, s1, h1, h⟩ := bind_ok_inv _ _ _ _ _ h
  have i1 := keepsArena_switch _ _ _ _ _ h1 hinv
  obtain ⟨workty, s2, h2, h⟩ := bind_ok_inv _ _ _ _ _ h
  have i2 := keepsArena_parse_type E _ _ _ _ h2 i1
  obtain ⟨a, s3, h3, h⟩ := bind_ok_inv _ _ _ _ _ h
  have i3 := hrec _ _ _ _ h3 i2
  obtain ⟨_, s4, h4, h⟩ := bind_ok_inv _ _ _ _ _ h
  have i4 := keepsArena_ensure E _ _ _ _ _ h4 i3
  exact (emplace_step _ _ _ _ _ h i4 (by simp [Expr.operands])).weaken (cons_sub _ [a] _)

theorem holds_parse_binary (E : Env) (parse_expr : M Addr) (hrec : HoldsResult parse_expr)
    (op_token : token) : HoldsResult (Parser.parse_binary E parse_expr op_token) := by
  intro st r st' own h hinv
  unfold Parser.parse_binary at h
  obtain ⟨op, s1, h1, h⟩ := bind_ok_inv _ _ _ _ _ h
  have i1 := keepsArena_switch _ _ _ _ _ h1 hinv
  obtain ⟨workty, s2, h2, h⟩ := bind_ok_inv _ _ _ _ _ h
  have i2 := keepsArena_parse_type E _ _ _ _ h2 i1
  obtain ⟨a, s3, h3, h⟩ := bind_ok_inv _ _ _ _ _ h
  have i3 := hrec _ _ _ _ h3 i2
  obtain ⟨b, s4, h4, h⟩ := bind_ok_inv _ _ _ _ _ h
  have i4 := hrec _ _ _ _ h4 i3
  obtain ⟨_, s5, h5, h⟩ := bind_ok_inv _ _ _ _ _ h
  have i5 := keepsArena_ensure E _ _ _ _ _ h5 i4
  exact (emplace_step _ _ _ _ _ h i5 (by simp [Expr.operands])).weaken (cons_sub _ [b, a] _)

theorem holds_parse_icmp (E : Env) (parse_expr : M Addr) (hrec : HoldsResult parse_expr)
    (op_token : token) : HoldsResult (Parser.parse_icmp E parse_expr op_token) := by
  intro st r st' own h hinv
  unfold Parser.parse_icmp at h
  obtain ⟨op, s1, h1, h⟩ := bind_ok_inv _ _ _ _ _ h
  have i1 := keepsArena_switch _ _ _ _ _ h1 hinv
  obtain ⟨a, s3, h3, h⟩ := bind_ok_inv _ _ _ _ _ h
  have i3 := hrec _ _ _ _ h3 i1
  obtain ⟨b, s4, h4, h⟩ := bind_ok_inv _ _ _ _ _ h
  have i4 := hrec _ _ _ _ h4 i3
  obtain ⟨width, s5, h5, h⟩ := bind_ok_inv _ _ _ _ _ h
  have i5 := keepsArena_parse_number E _ _ _ _ h5 i4
  obtain ⟨_, s6, h6, h⟩ := bind_ok_inv _ _ _ _ _ h
  have i6 := keepsArena_ensure E _ _ _ _ _ h6 i5
  exact (emplace_step _ _ _ _ _ h i6 (by simp [Expr.operands])).weaken (cons_sub _ [b, a] _)

theorem holds_parse_fcmp (E : Env) (parse_expr : M Addr) (hrec : HoldsResult parse_expr)
    (op_token : token) : HoldsResult (Parser.parse_fcmp E parse_expr op_token) := by
  intro st r st' own h hinv
  unfold Parser.parse_fcmp at h
  obtain ⟨op, s1, h1, h⟩ := bind_ok_inv _ _ _ _ _ h
  have i1 := keepsArena_switch _ _ _ _ _ h1 hinv
  obtain ⟨a, s3, h3, h⟩ := bind_ok_inv _ _ _ _ _ h
  have i3 := hrec _ _ _ _ h3 i1
  obtain ⟨b, s4, h4, h⟩ := bind_ok_inv _ _ _ _ _ h
  have i4 := hrec _ _ _ _ h4 i3
  obtain ⟨width, s5, h5, h⟩ := bind_ok_inv _ _ _ _ _ h
  have i5 := keepsArena_parse_number E _ _ _ _ h5 i4
  obtain ⟨_, s6, h6, h⟩ := bind_ok_inv _ _ _ _ _ h
  have i6 := keepsArena_ensure E _ _ _ _ _ h6 i5
  exact (emplace_step _ _ _ _ _ h i6 (by simp [Expr.operands])).weaken (cons_sub _ [b, a] _)

theorem holds_parse_shuffle (E : Env) (parse_expr : M Addr) (hrec : HoldsResult parse_expr)
    (op_token : token) : HoldsResult (Parser.parse_shuffle E parse_expr op_token) := by
  intro st r st' own h hinv
  unfold Parser.parse_shuffle at h
  obtain ⟨workty, s1, h1, h⟩ := bind_ok_inv _ _ _ _ _ h
  have i1 := keepsArena_parse_vector_type E _ _ _ _ h1 hinv
  obtain ⟨lhs, s2, h2, h⟩ := bind_ok_inv _ _ _ _ _ h
  have i2 := hrec _ _ _ _ h2 i1
  obtain ⟨rhs, s3, h3, h⟩ := bind_ok_inv _ _ _ _ _ h
  have i3 : ArenaInv (rhs.toList ++ lhs :: own) s3 := by
    by_cases hb : (op_token == token.BLEND) = true
    · rw [if_pos hb] at h3
      obtain ⟨b, s3', h3', h3⟩ := bind_ok_inv _ _ _ _ _ h3
      cases h3
      exact hrec _ _ _ _ h3' i2
    · rw [if_neg hb] at h3
      cases h3
      exact i2
  obtain ⟨_, s4, h4, h⟩ := bind_ok_inv _ _ _ _ _ h
  have i4 := keepsArena_ensure E _ _ _ _ _ h4 i3
  obtain ⟨_, s5, h5, h⟩ := bind_ok_inv _ _ _ _ _ h
  have i5 := keepsArena_ensure E _ _ _ _ _ h5 i4
  obtain ⟨mask, s6, h6, h⟩ := bind_ok_inv _ _ _ _ _ h
  have i6 := holds_parse_const E _ _ _ _ h6 i5
  refine (emplace_step _ _ _ _ _ h i6 ?_).weaken (fun q hq => by
    rcases List.mem_cons.mp hq with h | h
    · exact h ▸ List.mem_cons_self _ _
    · exact List.mem_cons_of_mem _ (List.mem_cons_of_mem _
        (List.mem_append_right _ (List.mem_cons_of_mem _ h))))
  intro q hq
  simp only [Expr.operands, List.mem_cons, List.mem_append, List.mem_singleton,
    List.not_mem_nil, or_false] at hq ⊢
  rcases hq with hq | hq | hq
  · exact Or.inr (Or.inr (Or.inl hq))
  · exact Or.inr (Or.inl hq)
  · exact Or.inl hq

theorem holds_parse_intconv (E : Env) (parse_expr : M Addr) (hrec : HoldsResult parse_expr)
    (op_token : token) : HoldsResult (Parser.parse_intconv E parse_expr op_token) := by
  intro st r st' own h hinv
  unfold Parser.parse_intconv at h
  obtain ⟨op, s1, h1, h⟩ := bind_ok_inv _ _ _ _ _ h
  have i1 := keepsArena_switch _ _ _ _ _ h1 hinv
  obtain ⟨a, s2, h2, h⟩ := bind_ok_inv _ _ _ _ _ h
  have i2 := hrec _ _ _ _ h2 i1
  obtain ⟨from_ty, s3, h3, h⟩ := bind_ok_inv _ _ _ _ _ h
  have i3 := keepsArena_parse_type E _ _ _ _ h3 i2
  obtain ⟨to_ty, s4, h4, h⟩ := bind_ok_inv _ _ _ _ _ h
  have i4 := keepsArena_parse_type E _ _ _ _ h4 i3
  obtain ⟨_, s5, h5, h⟩ := bind_ok_inv _ _ _ _ _ h
  have i5 := keepsArena_ensure E _ _ _ _ _ h5 i4
  exact (emplace_step _ _ _ _ _ h i5 (by simp [Expr.operands])).weaken (cons_sub _ [a] _)

theorem holds_parse_fpconv (E : Env) (parse_expr : M Addr) (hrec : HoldsResult parse_expr)
    (op_token : token) : HoldsResult (Parser.parse_fpconv E parse_expr op_token) := by
  intro st r st' own h hinv
  unfold Parser.parse_fpconv at h
  obtain ⟨op, s1, h1, h⟩ := bind_ok_inv _ _ _ _ _ h
  have i1 := keepsArena_switch _ _ _ _ _ h1 hinv
  obtain ⟨a, s2, h2, h⟩ := bind_ok_inv _ _ _ _ _ h
  have i2 := hrec _ _ _ _ h2 i1
  obtain ⟨ty, s3, h3, h⟩ := bind_ok_inv _ _ _ _ _ h
  have i3 := keepsArena_parse_type E _ _ _ _ h3 i2
  obtain ⟨_, s5, h5, h⟩ := bind_ok_inv _ _ _ _ _ h
  have i5 := keepsArena_ensure E _ _ _ _ _ h5 i3
  exact (emplace_step _ _ _ _ _ h i5 (by simp [Expr.operands])).weaken (cons_sub _ [a] _)

theorem holds_parse_x86 (E : Env) (parse_expr : M Addr) (hrec : HoldsResult parse_expr)
    (ops : String) : HoldsResult (Parser.parse_x86 E parse_expr ops) := by
  intro st r st' own h hinv
  unfold Parser.parse_x86 at h
  obtain ⟨a, s2, h2, h⟩ := bind_ok_inv _ _ _ _ _ h
  have i2 := hrec _ _ _ _ h2 hinv
  obtain ⟨b, s3, h3, h⟩ := bind_ok_inv _ _ _ _ _ h
  have i3 := hrec _ _ _ _ h3 i2
  obtain ⟨_, s5, h5, h⟩ := bind_ok_inv _ _ _ _ _ h
  have i5 := keepsArena_ensure E _ _ _ _ _ h5 i3
  exact (emplace_step _ _ _ _ _ h i5 (by simp [Expr.operands])).weaken (cons_sub _ [b, a] _)

theorem holds_parse_select (E : Env) (parse_expr : M Addr) (hrec : HoldsResult parse_expr) :
    HoldsResult (Parser.parse_select E parse_expr) := by
  intro st r st' own h hinv
  unfold Parser.parse_select at h
  obtain ⟨c, s1, h1, h⟩ := bind_ok_inv _ _ _ _ _ h
  have i1 := hrec _ _ _ _ h1 hinv
  obtain ⟨a, s2, h2, h⟩ := bind_ok_inv _ _ _ _ _ h
  have i2 := hrec _ _ _ _ h2 i1
  obtain ⟨b, s3, h3, h⟩ := bind_ok_inv _ _ _ _ _ h
  have i3 := hrec _ _ _ _ h3 i2
  obtain ⟨_, s5, h5, h⟩ := bind_ok_inv _ _ _ _ _ h
  have i5 := keepsArena_ensure E _ _ _ _ _ h5 i3
  exact (emplace_step _ _ _ _ _ h i5 (by simp [Expr.operands])).weaken (cons_sub _ [b, a, c] _)

theorem holds_parse_insertelement (E : Env) (parse_expr : M Addr)
    (hrec : HoldsResult parse_expr) : HoldsResult (Parser.parse_insertelement E parse_expr) := by
  intro st r st' own h hinv
  unfold Parser.parse_insertelement at h
  obtain ⟨ty, s0, h0, h⟩ := bind_ok_inv _ _ _ _ _ h
  have i0 := keepsArena_parse_type E _ _ _ _ h0 hinv
  obtain ⟨vec, s1, h1, h⟩ := bind_ok_inv _ _ _ _ _ h
  have i1 := hrec _ _ _ _ h1 i0
  obtain ⟨elem, s2, h2, h⟩ := bind_ok_inv _ _ _ _ _ h
  have i2 := hrec _ _ _ _ h2 i1
  obtain ⟨_, s3, h3, h⟩ := bind_ok_inv _ _ _ _ _ h
  have i3 := keepsArena_ensure E _ _ _ _ _ h3 i2
  obtain ⟨_, s4, h4, h⟩ := bind_ok_inv _ _ _ _ _ h
  have i4 := keepsArena_ensure E _ _ _ _ _ h4 i3
  obtain ⟨idx, s5, h5, h⟩ := bind_ok_inv _ _ _ _ _ h
  have i5 := holds_parse_const E _ _ _ _ h5 i4
  obtain ⟨_, s6, h6, h⟩ := bind_ok_inv _ _ _ _ _ h
  have i6 := keepsArena_ensure E _ _ _ _ _ h6 i5
  exact (emplace_step _ _ _ _ _ h i6 (by simp [Expr.operands])).weaken (cons_sub _ [idx, elem, vec] _)

theorem holds_parse_extractelement (E : Env) (parse_expr : M Addr)
    (hrec : HoldsResult parse_expr) :
    HoldsResult (Parser.parse_extractelement E parse_expr) := by
  intro st r st' own h hinv
  unfold Parser.parse_extractelement at h
  obtain ⟨ty, s0, h0, h⟩ := bind_ok_inv _ _ _ _ _ h
  have i0 := keepsArena_parse_type E _ _ _ _ h0 hinv
  obtain ⟨vec, s1, h1, h⟩ := bind_ok_inv _ _ _ _ _ h
  have i1 := hrec _ _ _ _ h1 i0
  obtain ⟨_, s3, h3, h⟩ := bind_ok_inv _ _ _ _ _ h
  have i3 := keepsArena_ensure E _ _ _ _ _ h3 i1
  obtain ⟨_, s4, h4, h⟩ := bind_ok_inv _ _ _ _ _ h
  have i4 := keepsArena_ensure E _ _ _ _ _ h4 i3
  obtain ⟨idx, s5, h5, h⟩ := bind_ok_inv _ _ _ _ _ h
  have i5 := holds_parse_const E _ _ _ _ h5 i4
  obtain ⟨_, s6, h6, h⟩ := bind_ok_inv _ _ _ _ _ h
  have i6 := keepsArena_ensure E _ _ _ _ _ h6 i5
  exact (emplace_step _ _ _ _ _ h i6 (by simp [Expr.operands])).weaken (cons_sub _ [idx, vec] _)

theorem holds_parse_expr (E : Env) (fuel : Nat) : HoldsResult (Parser.parse_expr E fuel) := by
  induction fuel with
  | zero =>
    intro st r st' own h hinv
    cases h
  | succ fuel ih =>
    intro st r st' own h hinv
    unfold Parser.parse_expr at h
    obtain ⟨_, s1, h1, h⟩ := bind_ok_inv _ _ _ _ _ h
    have i1 := keepsArena_ensure E _ _ _ _ _ h1 hinv
    obtain ⟨t, s2, h2, h⟩ := bind_ok_inv _ _ _ _ _ h
    have i2 := keepsArena_operator_star _ _ _ _ h2 i1
    cases t with
    | END => cases h
    | LPAREN => cases h
    | RPAREN => cases h
    | CSGT => cases h
    | VECTOR_TYPE_PREFIX => cases h
    | INT_TYPE => cases h
    | FLOAT => cases h
    | DOUBLE => cases h
    | HALF => cases h
    | FP128 => cases h
    | REGISTER => cases h
    | BITS => cases h
    | LITERAL => cases h
    | VAR => exact holds_parse_var E _ _ _ _ h i2
    | CONST => exact holds_parse_const E _ _ _ _ h i2
    | COPY => exact holds_parse_copy E _ _ _ _ h i2
    | BITREVERSE => exact holds_parse_unary E _ ih _ _ _ _ _ h i2
    | BSWAP => exact holds_parse_unary E _ ih _ _ _ _ _ h i2
    | CTPOP => exact holds_parse_unary E _ ih _ _ _ _ _ h i2
    | CTLZ => exact holds_parse_unary E _ ih _ _ _ _ _ h i2
    | CTTZ => exact holds_parse_unary E _ ih _ _ _ _ _ h i2
    | FNEG => exact holds_parse_unary E _ ih _ _ _ _ _ h i2
    | FABS => exact holds_parse_unary E _ ih _ _ _ _ _ h i2
    | FCEIL => exact holds_parse_unary E _ ih _ _ _ _ _ h i2
    | FFLOOR => exact holds_parse_unary E _ ih _ _ _ _ _ h i2
    | FRINT => exact holds_parse_unary E _ ih _ _ _ _ _ h i2
    | FNEARBYINT => exact holds_parse_unary E _ ih _ _ _ _ _ h i2
    | FROUND => exact holds_parse_unary E _ ih _ _ _ _ _ h i2
    | FROUNDEVEN => exact holds_parse_unary E _ ih _ _ _ _ _ h i2
    | FTRUNC => exact holds_parse_unary E _ ih _ _ _ _ _ h i2
    | BAND => exact holds_parse_binary E _ ih _ _ _ _ _ h i2
    | BOR => exact holds_parse_binary E _ ih _ _ _ _ _ h i2
    | BXOR => exact holds_parse_binary E _ ih _ _ _ _ _ h i2
    | LSHR => exact holds_parse_binary E _ ih _ _ _ _ _ h i2
    | ASHR => exact holds_parse_binary E _ ih _ _ _ _ _ h i2
    | SHL => exact holds_parse_binary E _ ih _ _ _ _ _ h i2
    | ADD => exact holds_parse_binary E _ ih _ _ _ _ _ h i2
    | SUB => exact holds_parse_binary E _ ih _ _ _ _ _ h i2
    | MUL => exact holds_parse_binary E _ ih _ _ _ _ _ h i2
    | SDIV => exact holds_parse_binary E _ ih _ _ _ _ _ h i2
    | UDIV => exact holds_parse_binary E _ ih _ _ _ _ _ h i2
    | UMAX => exact holds_parse_binary E _ ih _ _ _ _ _ h i2
    | UMIN => exact holds_parse_binary E _ ih _ _ _ _ _ h i2
    | SMAX => exact holds_parse_binary E _ ih _ _ _ _ _ h i2
    | SMIN => exact holds_parse_binary E _ ih _ _ _ _ _ h i2
    | FADD => exact holds_parse_binary E _ ih _ _ _ _ _ h i2
    | FSUB => exact holds_parse_binary E _ ih _ _ _ _ _ h i2
    | FMUL => exact holds_parse_binary E _ ih _ _ _ _ _ h i2
    | FDIV => exact holds_parse_binary E _ ih _ _ _ _ _ h i2
    | FMAXNUM => exact holds_parse_binary E _ ih _ _ _ _ _ h i2
    | FMINNUM => exact holds_parse_binary E _ ih _ _ _ _ _ h i2
    | FMAXIMUM => exact holds_parse_binary E _ ih _ _ _ _ _ h i2
    | FMINIMUM => exact holds_parse_binary E _ ih _ _ _ _ _ h i2
    | COPYSIGN => exact holds_parse_binary E _ ih _ _ _ _ _ h i2
    | EQ => exact holds_parse_icmp E _ ih _ _ _ _ _ h i2
    | NE => exact holds_parse_icmp E _ ih _ _ _ _ _ h i2
    | ULT => exact holds_parse_icmp E _ ih _ _ _ _ _ h i2
    | ULE => exact holds_parse_icmp E _ ih _ _ _ _ _ h i2
    | UGT => exact holds_parse_icmp E _ ih _ _ _ _ _ h i2
    | UGE => exact holds_parse_icmp E _ ih _ _ _ _ _ h i2
    | SLT => exact holds_parse_icmp E _ ih _ _ _ _ _ h i2
    | SLE => exact holds_parse_icmp E _ ih _ _ _ _ _ h i2
    | SGT => exact holds_parse_icmp E _ ih _ _ _ _ _ h i2
    | SGE => exact holds_parse_icmp E _ ih _ _ _ _ _ h i2
    | FCMP_TRUE => exact holds_parse_fcmp E _ ih _ _ _ _ _ h i2
    | FCMP_OEQ => exact holds_parse_fcmp E _ ih _ _ _ _ _ h i2
    | FCMP_OGT => exact holds_parse_fcmp E _ ih _ _ _ _ _ h i2
    | FCMP_OGE => exact holds_parse_fcmp E _ ih _ _ _ _ _ h i2
    | FCMP_OLT => exact holds_parse_fcmp E _ ih _ _ _ _ _ h i2
    | FCMP_OLE => exact holds_parse_fcmp E _ ih _ _ _ _ _ h i2
    | FCMP_ONE => exact holds_parse_fcmp E _ ih _ _ _ _ _ h i2
    | FCMP_ORD => exact holds_parse_fcmp E _ ih _ _ _ _ _ h i2
    | FCMP_UEQ => exact holds_parse_fcmp E _ ih _ _ _ _ _ h i2
    | FCMP_UGT => exact holds_parse_fcmp E _ ih _ _ _ _ _ h i2
    | FCMP_UGE => exact holds_parse_fcmp E _ ih _ _ _ _ _ h i2
    | FCMP_ULT => exact holds_parse_fcmp E _ ih _ _ _ _ _ h i2
    | FCMP_ULE => exact holds_parse_fcmp E _ ih _ _ _ _ _ h i2
    | FCMP_UNE => exact holds_parse_fcmp E _ ih _ _ _ _ _ h i2
    | FCMP_UNO => exact holds_parse_fcmp E _ ih _ _ _ _ _ h i2
    | FCMP_FALSE => exact holds_parse_fcmp E _ ih _ _ _ _ _ h i2
    | SHUFFLE => exact holds_parse_shuffle E _ ih _ _ _ _ _ h i2
    | BLEND => exact holds_parse_shuffle E _ ih _ _ _ _ _ h i2
    | SELECT => exact holds_parse_select E _ ih _ _ _ _ h i2
    | INSERTELEMENT => exact holds_parse_insertelement E _ ih _ _ _ _ h i2
    | EXTRACTELEMENT => exact holds_parse_extractelement E _ ih _ _ _ _ h i2
    | CONV_ZEXT => exact holds_parse_intconv E _ ih _ _ _ _ _ h i2
    | CONV_SEXT => exact holds_parse_intconv E _ ih _ _ _ _ _ h i2
    | CONV_TRUNC => exact holds_parse_intconv E _ ih _ _ _ _ _ h i2
    | CONV_FPTRUNC => exact holds_parse_fpconv E _ ih _ _ _ _ _ h i2
    | CONV_FPEXT => exact holds_parse_fpconv E _ ih _ _ _ _ _ h i2
    | CONV_SITOFP => exact holds_parse_fpconv E _ ih _ _ _ _ _ h i2
    | CONV_UITOFP => exact holds_parse_fpconv E _ ih _ _ _ _ _ h i2
    | CONV_FPTOSI => exact holds_parse_fpconv E _ ih _ _ _ _ _ h i2
    | CONV_FPTOUI => exact holds_parse_fpconv E _ ih _ _ _ _ _ h i2
    | X86BINARY =>
      obtain ⟨v, s3, h3, h⟩ := bind_ok_inv _ _ _ _ _ h
      exact holds_parse_x86 E _ ih _ _ _ _ _ h (keepsArena_yylval _ _ _ _ h3 i2)
    | OTHER => cases h

theorem reaches_held (exprs : List (Addr × Expr)) (r q : Addr) (hr : r ∈ held exprs)
    (hcl : ∀ p n, (p, n) ∈ exprs → ∀ q ∈ n.operands, q ∈ held exprs)
    (h : Reaches exprs r q) : q ∈ held exprs := by
  induction h with
  | root => exact hr
  | operand _ hpn hq _ => exact hcl _ _ hpn _ hq

end parse

/-! ## The bound on the nesting depth suffices -/

namespace parse

theorem fuelSafe_bind {α β : Type} {n : Nat} {m : M α} {f : α → M β} (hm : FuelSafe n m)
    (hf : ∀ a, FuelSafe n (f a)) : FuelSafe n (m >>= f) := by
  intro st hp
  obtain ⟨h1, h2⟩ := hm st hp
  cases hms : m st with
  | ok a st1 =>
    have hle := h2 a st1 hms
    obtain ⟨h3, h4⟩ := hf a st1 (Nat.lt_of_le_of_lt hle hp)
    rw [bind_ok _ _ _ _ _ hms]
    exact ⟨h3, fun b st' hb => Nat.le_trans (h4 b st' hb) hle⟩
  | exception e =>
    have : (m >>= f) st = .exception e := by
      show (match m st with
        | .ok a st1 => f a st1
        | .exception e => .exception e
        | .fatal msg => .fatal msg
        | .unreachable => .unreachable
        | .outOfFuel => .outOfFuel) = _
      rw [hms]
    rw [this]
    exact ⟨by simp, fun _ _ h => by cases h⟩
  | fatal msg =>
    have : (m >>= f) st = .fatal msg := by
      show (match m st with
        | .ok a st1 => f a st1
        | .exception e => .exception e
        | .fatal msg => .fatal msg
        | .unreachable => .unreachable
        | .outOfFuel => .outOfFuel) = _
      rw [hms]
    rw [this]
    exact ⟨by simp, fun _ _ h => by cases h⟩
  | unreachable =>
    have : (m >>= f) st = .unreachable := by
      show (match m st with
        | .ok a st1 => f a st1
        | .exception e => .exception e
        | .fatal msg => .fatal msg
        | .unreachable => .unreachable
        | .outOfFuel => .outOfFuel) = _
      rw [hms]
    rw [this]
    exact ⟨by simp, fun _ _ h => by cases h⟩
  | outOfFuel => exact absurd hms h1

theorem fuelSafe_of_step {α : Type} {n : Nat} {m : M α}
    (h : ∀ st, m st ≠ .outOfFuel ∧ ∀ (a : α) (st' : State), m st = .ok a st' →
      pending st' ≤ pending st) : FuelSafe n m :=
  fun st _ => h st

theorem fuelSafe_pure {α : Type} (n : Nat) (a : α) : FuelSafe n (pure a : M α) :=
  fuelSafe_of_step fun st => ⟨by simp [pure_eq], fun b st' h => by
    cases h
    exact Nat.le_refl _⟩

theorem fuelSafe_error {α : Type} (n : Nat) (s : String) : FuelSafe n (error s : M α) :=
  fuelSafe_of_step fun st => by
    rw [error_eq]
    exact ⟨by simp, fun _ _ h => by cases h⟩

theorem fuelSafe_UNREACHABLE {α : Type} (n : Nat) : FuelSafe n (UNREACHABLE : M α) :=
  fuelSafe_of_step fun st => ⟨fun h => (by cases h), fun _ _ h => (by cases h)⟩

theorem fuelSafe_report_fatal_error {α : Type} (n : Nat) (msg : String) :
    FuelSafe n (report_fatal_error msg : M α) :=
  fuelSafe_of_step fun st => ⟨fun h => (by cases h), fun _ _ h => (by cases h)⟩

theorem fuelSafe_ite {α : Type} {n : Nat} {c : Prop} [Decidable c] {m1 m2 : M α}
    (h1 : FuelSafe n m1) (h2 : FuelSafe n m2) : FuelSafe n (if c then m1 else m2) := by
  split
  · exact h1
  · exact h2

theorem get_new_token_pending (st st' : State) (t : token)
    (h : tokenizer_t.get_new_token st = .ok t st') :
    pending st' ≤ pending st ∧ (t ≠ .END → pending st' + 1 ≤ pending st)
      ∧ st'.tokenizer = st.tokenizer := by
  rcases st with ⟨input, v, l, tk, exprs, heap⟩
  cases input with
  | nil =>
    cases h
    exact ⟨Nat.le_refl _, fun h => absurd rfl h, rfl⟩
  | cons x rest =>
    cases x with
    | token t2 v2 l2 =>
      cases h
      refine ⟨?_, fun _ => ?_, rfl⟩
      · dsimp only [pending, List.length_cons]
        omega
      · dsimp only [pending, List.length_cons]
        omega
    | LexException s l2 => cases h

theorem get_new_token_ne (st : State) : tokenizer_t.get_new_token st ≠ .outOfFuel := by
  rcases st with ⟨input, v, l, tk, exprs, heap⟩
  cases input with
  | nil => simp [tokenizer_t.get_new_token]
  | cons x rest =>
    cases x <;> simp [tokenizer_t.get_new_token]

theorem operator_star_pending (st st' : State) (t : token)
    (h : tokenizer_t.operator_star st = .ok t st') :
    pending st' ≤ pending st ∧ (t ≠ .END → pending st' + 1 ≤ pending st) := by
  rw [operator_star_eq] at h
  split at h
  · rename_i hr
    cases h
    simp only [pending, hr, Bool.true_and, Bool.false_and, Bool.false_eq_true, if_false,
      Nat.add_zero]
    constructor
    · omega
    · intro hne
      have : (st.tokenizer.last != token.END) = true := by simp [hne]
      simp [this]
  · exact ⟨(get_new_token_pending st st' t h).1, (get_new_token_pending st st' t h).2.1⟩

theorem fuelSafe_operator_star (n : Nat) : FuelSafe n tokenizer_t.operator_star :=
  fuelSafe_of_step fun st => by
    refine ⟨?_, fun t st' h => (operator_star_pending st st' t h).1⟩
    rw [operator_star_eq]
    split
    · simp
    · exact get_new_token_ne st

theorem fuelSafe_peek (n : Nat) : FuelSafe n tokenizer_t.peek :=
  fuelSafe_of_step fun st => by
    rw [peek_eq]
    split
    · exact ⟨by simp, fun t st' h => by
        cases h
        exact Nat.le_refl _⟩
    · rename_i hr
      cases hg : tokenizer_t.get_new_token
          { st with tokenizer := { st.tokenizer with returned := true } } with
      | ok t st1 =>
        refine ⟨by simp, fun t' st' h => ?_⟩
        cases h
        obtain ⟨_, h2, h3⟩ := get_new_token_pending _ _ _ hg
        have hst : pending st = st.input.length := by
          simp [pending, hr]
        rw [hst]
        by_cases hte : t = .END
        · subst hte
          have hle := (get_new_token_pending _ _ _ hg).1
          simp only [pending, bne_self_eq_false, Bool.and_false, Bool.false_eq_true, if_false,
            Nat.add_zero] at hle ⊢
          have : (if (true && st.tokenizer.last != token.END) = true then 1 else 0) ≤ 1 := by
            split <;> omega
          rcases st with ⟨input, v, l, tk, exprs, heap⟩
          cases input with
          | nil =>
            cases hg
            simp
          | cons x rest =>
            cases x with
            | token t2 v2 l2 =>
              cases hg
              simp
            | LexException s l2 => cases hg
        · have h2' := h2 hte
          rcases st with ⟨input, v, l, tk, exprs, heap⟩
          cases input with
          | nil =>
            cases hg
            exact absurd rfl hte
          | cons x rest =>
            cases x with
            | token t2 v2 l2 =>
              cases hg
              simp only [pending, List.length_cons]
              split <;> omega
            | LexException s l2 => cases hg
      | exception e => exact ⟨by simp, fun _ _ h => by cases h⟩
      | fatal msg => exact ⟨by simp, fun _ _ h => by cases h⟩
      | unreachable => exact ⟨by simp, fun _ _ h => by cases h⟩
      | outOfFuel => exact absurd hg (get_new_token_ne _)

theorem fuelSafe_yylval (n : Nat) : FuelSafe n yylval :=
  fuelSafe_of_step fun st => by
    rw [yylval_eq]
    exact ⟨by simp, fun _ _ h => by
      cases h
      exact Nat.le_refl _⟩

theorem fuelSafe_make_unique (n : Nat) (e : Expr) : FuelSafe n (make_unique e) :=
  fuelSafe_of_step fun st => by
    rw [make_unique_eq]
    exact ⟨by simp, fun _ _ h => by
      cases h
      exact Nat.le_refl _⟩

theorem fuelSafe_emplace_back (n : Nat) (p : Addr × Expr) : FuelSafe n (emplace_back p) :=
  fuelSafe_of_step fun st => by
    rw [emplace_back_eq]
    exact ⟨by simp, fun _ _ h => by
      cases h
      exact Nat.le_refl _⟩

theorem fuelSafe_ensure (n : Nat) (E : Env) (e : token) : FuelSafe n (tokenizer_t.ensure E e) := by
  unfold tokenizer_t.ensure
  exact fuelSafe_bind (fuelSafe_operator_star n)
    (fun t => fuelSafe_ite (fuelSafe_error n _) (fuelSafe_pure n _))

theorem fuelSafe_isScalarType (n : Nat) : FuelSafe n tokenizer_t.isScalarType := by
  unfold tokenizer_t.isScalarType
  refine fuelSafe_bind (fuelSafe_peek n) (fun t => fuelSafe_ite (fuelSafe_pure n _) ?_)
  refine fuelSafe_bind (fuelSafe_peek n) (fun t => fuelSafe_ite (fuelSafe_pure n _) ?_)
  refine fuelSafe_bind (fuelSafe_peek n) (fun t => fuelSafe_ite (fuelSafe_pure n _) ?_)
  refine fuelSafe_bind (fuelSafe_peek n) (fun t => fuelSafe_ite (fuelSafe_pure n _) ?_)
  exact fuelSafe_bind (fuelSafe_peek n) (fun t => fuelSafe_pure n _)

theorem fuelSafe_isVectorType (n : Nat) : FuelSafe n tokenizer_t.isVectorType := by
  unfold tokenizer_t.isVectorType
  exact fuelSafe_bind (fuelSafe_peek n) (fun t => fuelSafe_pure n _)

theorem fuelSafe_parse_scalar_type (n : Nat) (E : Env) : FuelSafe n (parse_scalar_type E) := by
  unfold parse_scalar_type
  refine fuelSafe_bind (fuelSafe_peek n) (fun t => ?_)
  cases t <;> first
    | exact fuelSafe_UNREACHABLE n
    | exact fuelSafe_bind (fuelSafe_ensure n E _) (fun _ => fuelSafe_pure n _)
    | exact fuelSafe_bind (fuelSafe_ensure n E _)
        (fun _ => fuelSafe_bind (fuelSafe_yylval n) (fun _ => fuelSafe_pure n _))

theorem fuelSafe_parse_vector_type (n : Nat) (E : Env) : FuelSafe n (parse_vector_type E) := by
  unfold parse_vector_type
  refine fuelSafe_bind (fuelSafe_ensure n E _) (fun _ => ?_)
  refine fuelSafe_bind (fuelSafe_yylval n) (fun _ => ?_)
  refine fuelSafe_bind (fuelSafe_parse_scalar_type n E) (fun _ => ?_)
  exact fuelSafe_bind (fuelSafe_ensure n E _) (fun _ => fuelSafe_pure n _)

theorem fuelSafe_parse_type (n : Nat) (E : Env) : FuelSafe n (parse_type E) := by
  unfold parse_type
  refine fuelSafe_bind (fuelSafe_isScalarType n) (fun b => ?_)
  refine fuelSafe_ite (fuelSafe_parse_scalar_type n E) ?_
  refine fuelSafe_bind (fuelSafe_isVectorType n) (fun b => ?_)
  exact fuelSafe_ite (fuelSafe_parse_vector_type n E) (fuelSafe_UNREACHABLE n)

theorem fuelSafe_parse_number (n : Nat) (E : Env) : FuelSafe n (parse_number E) := by
  unfold parse_number
  refine fuelSafe_bind (fuelSafe_ensure n E _) (fun _ => ?_)
  exact fuelSafe_bind (fuelSafe_yylval n) (fun _ => fuelSafe_pure n _)

theorem fuelSafe_switch {α : Type} (n : Nat) (o : Option α) : FuelSafe n (switch o) := by
  cases o
  · exact fuelSafe_UNREACHABLE n
  · exact fuelSafe_pure n _

theorem fuelSafe_emplace (n : Nat) (e : Expr) :
    FuelSafe n (do
      let T ← make_unique e
      emplace_back T
      pure T.1 : M Addr) :=
  fuelSafe_bind (fuelSafe_make_unique n _)
    (fun _ => fuelSafe_bind (fuelSafe_emplace_back n _) (fun _ => fuelSafe_pure n _))

end parse

namespace parse

theorem ensure_consumes (E : Env) (e : token) (st s1 : State) (a : Unit)
    (h : tokenizer_t.ensure E e st = .ok a s1) (he : e ≠ .END) :
    pending s1 + 1 ≤ pending st := by
  unfold tokenizer_t.ensure at h
  obtain ⟨t, s, h1, h2⟩ := bind_ok_inv _ _ _ _ _ h
  by_cases hte : t = e
  · have hb : (t != e) = false := by simp [hte]
    rw [hb] at h2
    cases h2
    exact (operator_star_pending st s1 t h1).2 (hte ▸ he)
  · have hb : (t != e) = true := by simp [hte]
    rw [hb] at h2
    simp only [if_true] at h2
    rw [error_eq] at h2
    cases h2

theorem fuelSafe_parse_var (n : Nat) (E : Env) : FuelSafe n (Parser.parse_var E) := by
  unfold Parser.parse_var
  refine fuelSafe_bind (fuelSafe_parse_type n E) (fun _ => ?_)
  refine fuelSafe_bind (fuelSafe_ensure n E _) (fun _ => ?_)
  refine fuelSafe_bind (fuelSafe_yylval n) (fun v => ?_)
  refine fuelSafe_bind (fuelSafe_ensure n E _) (fun _ => ?_)
  cases E.lookup (erase_begin v.str) with
  | none => exact fuelSafe_report_fatal_error n _
  | some LV => exact fuelSafe_emplace n _

theorem fuelSafe_parse_const (n : Nat) (E : Env) : FuelSafe n (Parser.parse_const E) := by
  unfold Parser.parse_const
  refine fuelSafe_bind (fuelSafe_parse_type n E) (fun _ => ?_)
  refine fuelSafe_bind (fuelSafe_ensure n E _) (fun _ => ?_)
  refine fuelSafe_bind (fuelSafe_yylval n) (fun v => ?_)
  refine fuelSafe_bind (fuelSafe_ensure n E _) (fun _ => ?_)
  exact fuelSafe_emplace n _

theorem fuelSafe_parse_copy (n : Nat) (E : Env) : FuelSafe n (Parser.parse_copy E) := by
  unfold Parser.parse_copy
  refine fuelSafe_bind (fuelSafe_ensure n E _) (fun _ => ?_)
  refine fuelSafe_bind (fuelSafe_ensure n E _) (fun _ => ?_)
  refine fuelSafe_bind (fuelSafe_parse_const n E) (fun _ => ?_)
  refine fuelSafe_bind (fuelSafe_ensure n E _) (fun _ => ?_)
  exact fuelSafe_emplace n _

theorem fuelSafe_parse_shuffle (n : Nat) (E : Env) (parse_expr : M Addr)
    (hrec : FuelSafe n parse_expr) (op_token : token) :
    FuelSafe n (Parser.parse_shuffle E parse_expr op_token) := by
  unfold Parser.parse_shuffle
  refine fuelSafe_bind (fuelSafe_parse_vector_type n E) (fun _ => ?_)
  refine fuelSafe_bind hrec (fun _ => ?_)
  refine fuelSafe_bind
    (fuelSafe_ite (fuelSafe_bind hrec (fun _ => fuelSafe_pure n _)) (fuelSafe_pure n _))
    (fun _ => ?_)
  refine fuelSafe_bind (fuelSafe_ensure n E _) (fun _ => ?_)
  refine fuelSafe_bind (fuelSafe_ensure n E _) (fun _ => ?_)
  refine fuelSafe_bind (fuelSafe_parse_const n E) (fun _ => ?_)
  exact fuelSafe_emplace n _

theorem fuelSafe_parse_x86 (n : Nat) (E : Env) (parse_expr : M Addr)
    (hrec : FuelSafe n parse_expr) (ops : String) :
    FuelSafe n (Parser.parse_x86 E parse_expr ops) := by
  unfold Parser.parse_x86
  refine fuelSafe_bind hrec (fun _ => ?_)
  refine fuelSafe_bind hrec (fun _ => ?_)
  refine fuelSafe_bind (fuelSafe_ensure n E _) (fun _ => ?_)
  exact fuelSafe_emplace n _

theorem fuelSafe_parse_unary (n : Nat) (E : Env) (parse_expr : M Addr)
    (hrec : FuelSafe n parse_expr) (op_token : token) :
    FuelSafe n (Parser.parse_unary E parse_expr op_token) := by
  unfold Parser.parse_unary
  refine fuelSafe_bind (fuelSafe_switch n _) (fun _ => ?_)
  refine fuelSafe_bind (fuelSafe_parse_type n E) (fun _ => ?_)
  refine fuelSafe_bind hrec (fun _ => ?_)
  refine fuelSafe_bind (fuelSafe_ensure n E _) (fun _ => ?_)
  exact fuelSafe_emplace n _

theorem fuelSafe_parse_binary (n : Nat) (E : Env) (parse_expr : M Addr)
    (hrec : FuelSafe n parse_expr) (op_token : token) :
    FuelSafe n (Parser.parse_binary E parse_expr op_token) := by
  unfold Parser.parse_binary
  refine fuelSafe_bind (fuelSafe_switch n _) (fun _ => ?_)
  refine fuelSafe_bind (fuelSafe_parse_type n E) (fun _ => ?_)
  refine fuelSafe_bind hrec (fun _ => ?_)
  refine fuelSafe_bind hrec (fun _ => ?_)
  refine fuelSafe_bind (fuelSafe_ensure n E _) (fun _ => ?_)
  exact fuelSafe_emplace n _

theorem fuelSafe_parse_icmp (n : Nat) (E : Env) (parse_expr : M Addr)
    (hrec : FuelSafe n parse_expr) (op_token : token) :
    FuelSafe n (Parser.parse_icmp E parse_expr op_token) := by
  unfold Parser.parse_icmp
  refine fuelSafe_bind (fuelSafe_switch n _) (fun _ => ?_)
  refine fuelSafe_bind hrec (fun _ => ?_)
  refine fuelSafe_bind hrec (fun _ => ?_)
  refine fuelSafe_bind (fuelSafe_parse_number n E) (fun _ => ?_)
  refine fuelSafe_bind (fuelSafe_ensure n E _) (fun _ => ?_)
  exact fuelSafe_emplace n _

theorem fuelSafe_parse_fcmp (n : Nat) (E : Env) (parse_expr : M Addr)
    (hrec : FuelSafe n parse_expr) (op_token : token) :
    FuelSafe n (Parser.parse_fcmp E parse_expr op_token) := by
  unfold Parser.parse_fcmp
  refine fuelSafe_bind (fuelSafe_switch n _) (fun _ => ?_)
  refine fuelSafe_bind hrec (fun _ => ?_)
  refine fuelSafe_bind hrec (fun _ => ?_)
  refine fuelSafe_bind (fuelSafe_parse_number n E) (fun _ => ?_)
  refine fuelSafe_bind (fuelSafe_ensure n E _) (fun _ => ?_)
  exact fuelSafe_emplace n _

theorem fuelSafe_parse_intconv (n : Nat) (E : Env) (parse_expr : M Addr)
    (hrec : FuelSafe n parse_expr) (op_token : token) :
    FuelSafe n (Parser.parse_intconv E parse_expr op_token) := by
  unfold Parser.parse_intconv
  refine fuelSafe_bind (fuelSafe_switch n _) (fun _ => ?_)
  refine fuelSafe_bind hrec (fun _ => ?_)
  refine fuelSafe_bind (fuelSafe_parse_type n E) (fun _ => ?_)
  refine fuelSafe_bind (fuelSafe_parse_type n E) (fun _ => ?_)
  refine fuelSafe_bind (fuelSafe_ensure n E _) (fun _ => ?_)
  exact fuelSafe_emplace n _

theorem fuelSafe_parse_fpconv (n : Nat) (E : Env) (parse_expr : M Addr)
    (hrec : FuelSafe n parse_expr) (op_token : token) :
    FuelSafe n (Parser.parse_fpconv E parse_expr op_token) := by
  unfold Parser.parse_fpconv
  refine fuelSafe_bind (fuelSafe_switch n _) (fun _ => ?_)
  refine fuelSafe_bind hrec (fun _ => ?_)
  refine fuelSafe_bind (fuelSafe_parse_type n E) (fun _ => ?_)
  refine fuelSafe_bind (fuelSafe_ensure n E _) (fun _ => ?_)
  exact fuelSafe_emplace n _

theorem fuelSafe_parse_select (n : Nat) (E : Env) (parse_expr : M Addr)
    (hrec : FuelSafe n parse_expr) :
    FuelSafe n (Parser.parse_select E parse_expr) := by
  unfold Parser.parse_select
  refine fuelSafe_bind hrec (fun _ => ?_)
  refine fuelSafe_bind hrec (fun _ => ?_)
  refine fuelSafe_bind hrec (fun _ => ?_)
  refine fuelSafe_bind (fuelSafe_ensure n E _) (fun _ => ?_)
  exact fuelSafe_emplace n _

theorem fuelSafe_parse_insertelement (n : Nat) (E : Env) (parse_expr : M Addr)
    (hrec : FuelSafe n parse_expr) :
    FuelSafe n (Parser.parse_insertelement E parse_expr) := by
  unfold Parser.parse_insertelement
  refine fuelSafe_bind (fuelSafe_parse_type n E) (fun _ => ?_)
  refine fuelSafe_bind hrec (fun _ => ?_)
  refine fuelSafe_bind hrec (fun _ => ?_)
  refine fuelSafe_bind (fuelSafe_ensure n E _) (fun _ => ?_)
  refine fuelSafe_bind (fuelSafe_ensure n E _) (fun _ => ?_)
  refine fuelSafe_bind (fuelSafe_parse_const n E) (fun _ => ?_)
  refine fuelSafe_bind (fuelSafe_ensure n E _) (fun _ => ?_)
  exact fuelSafe_emplace n _

theorem fuelSafe_parse_extractelement (n : Nat) (E : Env) (parse_expr : M Addr)
    (hrec : FuelSafe n parse_expr) :
    FuelSafe n (Parser.parse_extractelement E parse_expr) := by
  unfold Parser.parse_extractelement
  refine fuelSafe_bind (fuelSafe_parse_type n E) (fun _ => ?_)
  refine fuelSafe_bind hrec (fun _ => ?_)
  refine fuelSafe_bind (fuelSafe_ensure n E _) (fun _ => ?_)
  refine fuelSafe_bind (fuelSafe_ensure n E _) (fun _ => ?_)
  refine fuelSafe_bind (fuelSafe_parse_const n E) (fun _ => ?_)
  refine fuelSafe_bind (fuelSafe_ensure n E _) (fun _ => ?_)
  exact fuelSafe_emplace n _

theorem fuelSafe_parse_expr (E : Env) (fuel : Nat) :
    FuelSafe fuel (Parser.parse_expr E fuel) := by
  induction fuel with
  | zero =>
    intro st hp
    exact absurd hp (Nat.not_lt_zero _)
  | succ fuel ih =>
    have hrest : FuelSafe fuel (tokenizer_t.operator_star >>= fun t =>
        match t with
        | .COPY => Parser.parse_copy E
        | .BITREVERSE | .BSWAP | .CTPOP | .CTLZ | .CTTZ | .FNEG | .FABS | .FCEIL | .FFLOOR
        | .FRINT | .FNEARBYINT | .FROUND | .FROUNDEVEN | .FTRUNC =>
          Parser.parse_unary E (Parser.parse_expr E fuel) t
        | .BAND | .BOR | .BXOR | .LSHR | .ASHR | .SHL | .ADD | .SUB | .MUL | .SDIV | .UDIV
        | .UMAX | .UMIN | .SMAX | .SMIN | .FADD | .FSUB | .FMUL | .FDIV | .FMAXNUM | .FMINNUM
        | .FMAXIMUM | .FMINIMUM | .COPYSIGN =>
          Parser.parse_binary E (Parser.parse_expr E fuel) t
        | .EQ | .NE | .ULT | .ULE | .UGT | .UGE | .SLT | .SLE | .SGT | .SGE =>
          Parser.parse_icmp E (Parser.parse_expr E fuel) t
        | .FCMP_TRUE | .FCMP_OEQ | .FCMP_OGT | .FCMP_OGE | .FCMP_OLT | .FCMP_OLE | .FCMP_ONE
        | .FCMP_ORD | .FCMP_UEQ | .FCMP_UGT | .FCMP_UGE | .FCMP_ULT | .FCMP_ULE | .FCMP_UNE
        | .FCMP_UNO | .FCMP_FALSE =>
          Parser.parse_fcmp E (Parser.parse_expr E fuel) t
        | .SHUFFLE | .BLEND => Parser.parse_shuffle E (Parser.parse_expr E fuel) t
        | .SELECT => Parser.parse_select E (Parser.parse_expr E fuel)
        | .INSERTELEMENT => Parser.parse_insertelement E (Parser.parse_expr E fuel)
        | .EXTRACTELEMENT => Parser.parse_extractelement E (Parser.parse_expr E fuel)
        | .CONV_ZEXT | .CONV_SEXT | .CONV_TRUNC =>
          Parser.parse_intconv E (Parser.parse_expr E fuel) t
        | .CONV_FPTRUNC | .CONV_FPEXT | .CONV_SITOFP | .CONV_UITOFP | .CONV_FPTOSI
        | .CONV_FPTOUI =>
          Parser.parse_fpconv E (Parser.parse_expr E fuel) t
        | .X86BINARY => do
          Parser.parse_x86 E (Parser.parse_expr E fuel) (← yylval).str
        | .VAR => Parser.parse_var E
        | .CONST => Parser.parse_const E
        | _ => UNREACHABLE) := by
      refine fuelSafe_bind (fuelSafe_operator_star fuel) (fun t => ?_)
      cases t with
      | END => exact fuelSafe_UNREACHABLE _
      | LPAREN => exact fuelSafe_UNREACHABLE _
      | RPAREN => exact fuelSafe_UNREACHABLE _
      | CSGT => exact fuelSafe_UNREACHABLE _
      | VECTOR_TYPE_PREFIX => exact fuelSafe_UNREACHABLE _
      | INT_TYPE => exact fuelSafe_UNREACHABLE _
      | FLOAT => exact fuelSafe_UNREACHABLE _
      | DOUBLE => exact fuelSafe_UNREACHABLE _
      | HALF => exact fuelSafe_UNREACHABLE _
      | FP128 => exact fuelSafe_UNREACHABLE _
      | REGISTER => exact fuelSafe_UNREACHABLE _
      | BITS => exact fuelSafe_UNREACHABLE _
      | LITERAL => exact fuelSafe_UNREACHABLE _
      | VAR => exact fuelSafe_parse_var _ E
      | CONST => exact fuelSafe_parse_const _ E
      | COPY => exact fuelSafe_parse_copy _ E
      | BITREVERSE => exact fuelSafe_parse_unary _ E _ ih _
      | BSWAP => exact fuelSafe_parse_unary _ E _ ih _
      | CTPOP => exact fuelSafe_parse_unary _ E _ ih _
      | CTLZ => exact fuelSafe_parse_unary _ E _ ih _
      | CTTZ => exact fuelSafe_parse_unary _ E _ ih _
      | FNEG => exact fuelSafe_parse_unary _ E _ ih _
      | FABS => exact fuelSafe_parse_unary _ E _ ih _
      | FCEIL => exact fuelSafe_parse_unary _ E _ ih _
      | FFLOOR => exact fuelSafe_parse_unary _ E _ ih _
      | FRINT => exact fuelSafe_parse_unary _ E _ ih _
      | FNEARBYINT => exact fuelSafe_parse_unary _ E _ ih _
      | FROUND => exact fuelSafe_parse_unary _ E _ ih _
      | FROUNDEVEN => exact fuelSafe_parse_unary _ E _ ih _
      | FTRUNC => exact fuelSafe_parse_unary _ E _ ih _
      | BAND => exact fuelSafe_parse_binary _ E _ ih _
      | BOR => exact fuelSafe_parse_binary _ E _ ih _
      | BXOR => exact fuelSafe_parse_binary _ E _ ih _
      | LSHR => exact fuelSafe_parse_binary _ E _ ih _
      | ASHR => exact fuelSafe_parse_binary _ E _ ih _
      | SHL => exact fuelSafe_parse_binary _ E _ ih _
      | ADD => exact fuelSafe_parse_binary _ E _ ih _
      | SUB => exact fuelSafe_parse_binary _ E _ ih _
      | MUL => exact fuelSafe_parse_binary _ E _ ih _
      | SDIV => exact fuelSafe_parse_binary _ E _ ih _
      | UDIV => exact fuelSafe_parse_binary _ E _ ih _
      | UMAX => exact fuelSafe_parse_binary _ E _ ih _
      | UMIN => exact fuelSafe_parse_binary _ E _ ih _
      | SMAX => exact fuelSafe_parse_binary _ E _ ih _
      | SMIN => exact fuelSafe_parse_binary _ E _ ih _
      | FADD => exact fuelSafe_parse_binary _ E _ ih _
      | FSUB => exact fuelSafe_parse_binary _ E _ ih _
      | FMUL => exact fuelSafe_parse_binary _ E _ ih _
      | FDIV => exact fuelSafe_parse_binary _ E _ ih _
      | FMAXNUM => exact fuelSafe_parse_binary _ E _ ih _
      | FMINNUM => exact fuelSafe_parse_binary _ E _ ih _
      | FMAXIMUM => exact fuelSafe_parse_binary _ E _ ih _
      | FMINIMUM => exact fuelSafe_parse_binary _ E _ ih _
      | COPYSIGN => exact fuelSafe_parse_binary _ E _ ih _
      | EQ => exact fuelSafe_parse_icmp _ E _ ih _
      | NE => exact fuelSafe_parse_icmp _ E _ ih _
      | ULT => exact fuelSafe_parse_icmp _ E _ ih _
      | ULE => exact fuelSafe_parse_icmp _ E _ ih _
      | UGT => exact fuelSafe_parse_icmp _ E _ ih _
      | UGE => exact fuelSafe_parse_icmp _ E _ ih _
      | SLT => exact fuelSafe_parse_icmp _ E _ ih _
      | SLE => exact fuelSafe_parse_icmp _ E _ ih _
      | SGT => exact fuelSafe_parse_icmp _ E _ ih _
      | SGE => exact fuelSafe_parse_icmp _ E _ ih _
      | FCMP_TRUE => exact fuelSafe_parse_fcmp _ E _ ih _
      | FCMP_OEQ => exact fuelSafe_parse_fcmp _ E _ ih _
      | FCMP_OGT => exact fuelSafe_parse_fcmp _ E _ ih _
      | FCMP_OGE => exact fuelSafe_parse_fcmp _ E _ ih _
      | FCMP_OLT => exact fuelSafe_parse_fcmp _ E _ ih _
      | FCMP_OLE => exact fuelSafe_parse_fcmp _ E _ ih _
      | FCMP_ONE => exact fuelSafe_parse_fcmp _ E _ ih _
      | FCMP_ORD => exact fuelSafe_parse_fcmp _ E _ ih _
      | FCMP_UEQ => exact fuelSafe_parse_fcmp _ E _ ih _
      | FCMP_UGT => exact fuelSafe_parse_fcmp _ E _ ih _
      | FCMP_UGE => exact fuelSafe_parse_fcmp _ E _ ih _
      | FCMP_ULT => exact fuelSafe_parse_fcmp _ E _ ih _
      | FCMP_ULE => exact fuelSafe_parse_fcmp _ E _ ih _
      | FCMP_UNE => exact fuelSafe_parse_fcmp _ E _ ih _
      | FCMP_UNO => exact fuelSafe_parse_fcmp _ E _ ih _
      | FCMP_FALSE => exact fuelSafe_parse_fcmp _ E _ ih _
      | SHUFFLE => exact fuelSafe_parse_shuffle _ E _ ih _
      | BLEND => exact fuelSafe_parse_shuffle _ E _ ih _
      | SELECT => exact fuelSafe_parse_select _ E _ ih
      | INSERTELEMENT => exact fuelSafe_parse_insertelement _ E _ ih
      | EXTRACTELEMENT => exact fuelSafe_parse_extractelement _ E _ ih
      | CONV_ZEXT => exact fuelSafe_parse_intconv _ E _ ih _
      | CONV_SEXT => exact fuelSafe_parse_intconv _ E _ ih _
      | CONV_TRUNC => exact fuelSafe_parse_intconv _ E _ ih _
      | CONV_FPTRUNC => exact fuelSafe_parse_fpconv _ E _ ih _
      | CONV_FPEXT => exact fuelSafe_parse_fpconv _ E _ ih _
      | CONV_SITOFP => exact fuelSafe_parse_fpconv _ E _ ih _
      | CONV_UITOFP => exact fuelSafe_parse_fpconv _ E _ ih _
      | CONV_FPTOSI => exact fuelSafe_parse_fpconv _ E _ ih _
      | CONV_FPTOUI => exact fuelSafe_parse_fpconv _ E _ ih _
      | X86BINARY =>
        exact fuelSafe_bind (fuelSafe_yylval _) (fun v => fuelSafe_parse_x86 _ E _ ih _)
      | OTHER => exact fuelSafe_UNREACHABLE _
    intro st hp
    unfold Parser.parse_expr
    cases he : tokenizer_t.ensure E .LPAREN st with
    | ok a s1 =>
      rw [bind_ok _ _ _ _ _ he]
      have hlt := ensure_consumes E _ st s1 a he (by decide)
      obtain ⟨h1, h2⟩ := hrest s1 (by omega)
      exact ⟨h1, fun b st' hb => Nat.le_trans (h2 b st' hb) (by omega)⟩
    | exception e =>
      rw [bind_eq, he]
      exact ⟨fun h => (by cases h), fun _ _ h => (by cases h)⟩
    | fatal msg =>
      rw [bind_eq, he]
      exact ⟨fun h => (by cases h), fun _ _ h => (by cases h)⟩
    | unreachable =>
      rw [bind_eq, he]
      exact ⟨fun h => (by cases h), fun _ _ h => (by cases h)⟩
    | outOfFuel =>
      exact absurd he (fuelSafe_ensure (pending st + 1) E .LPAREN st (Nat.lt_succ_self _)).1

end parse

namespace parse

/-- The bound `parse` gives to `parse_expr` is never used up. -/
theorem parse_ne_outOfFuel (E : Env) (F : Function) (st : State) :
    Parser.parse E F st ≠ .outOfFuel := by
  have hempty : FuelSafe (pending st + 1) tokenizer_t.empty := by
    unfold tokenizer_t.empty
    exact fuelSafe_bind (fuelSafe_peek _) (fun _ => fuelSafe_pure _ _)
  have h1 := (hempty st (Nat.lt_succ_self _)).1
  unfold Parser.parse
  cases he : tokenizer_t.empty st with
  | ok b st1 =>
    simp only []
    have h2 := (fuelSafe_parse_expr E (pending st1 + 1) st1 (Nat.lt_succ_self _)).1
    cases hp : Parser.parse_expr E (pending st1 + 1) st1 with
    | ok I st2 => simp
    | exception e => simp
    | fatal msg => simp
    | unreachable => simp
    | outOfFuel => exact absurd hp h2
  | exception e => simp
  | fatal msg => simp
  | unreachable => simp
  | outOfFuel => exact absurd he h1

theorem arenaOK_of_nil (st : State) (h : st.exprs = []) : ArenaOK st := by
  unfold ArenaOK held
  rw [h]
  exact ⟨List.nodup_nil, fun p hp => absurd hp (List.not_mem_nil p),
    fun p n hpn => absurd hpn (List.not_mem_nil _)⟩

/-- C19 (arena ownership): let the arena be in order before a call of
`parse_expr` (no address held twice, the addresses held are in use, the
operands of the nodes held are held; so it is for a new `Parser`). When the
call returns the root `r`, every node reachable from `r` through operand
links is held by `exprs`, at exactly one position of the list. -/
theorem parse_expr_arena (E : Env) (fuel : Nat) (st st' : State) (r : Addr)
    (h : Parser.parse_expr E fuel st = .ok r st') (harena : ArenaOK st) :
    ∀ q, Reaches st'.exprs r q → (held st'.exprs).count q = 1 := by
  obtain ⟨⟨hnd, _, hcl⟩, hown⟩ :=
    holds_parse_expr E fuel st r st' [] h ⟨harena, fun q hq => absurd hq (List.not_mem_nil q)⟩
  intro q hq
  exact List.count_eq_one_of_mem hnd
    (reaches_held _ r q (hown r (List.mem_cons_self _ _)) hcl hq)

theorem parse_expr_arena_witness :
    (held [(0, Expr.Var (.argument .VF 0 i32)),
        (1, .ReservedConst (type.Scalar 32 false) (some (.constantInt i32 255))),
        (2, .BinaryOp .band 0 1 (type.Scalar 32 false))]).count 1 = 1 :=
  parse_expr_arena exEnv 2 (exStart (exBandTokens "|i32 255|"))
    ⟨[], ⟨0, ""⟩, 1, ⟨.INT_TYPE, false⟩,
      [(0, .Var (.argument .VF 0 i32)),
       (1, .ReservedConst (type.Scalar 32 false) (some (.constantInt i32 255))),
       (2, .BinaryOp .band 0 1 (type.Scalar 32 false))], 3⟩
    2 (by decide) (arenaOK_of_nil _ rfl) 1
    (.operand .root (by decide : (2, Expr.BinaryOp .band 0 1 (type.Scalar 32 false)) ∈ _)
      (by decide))

end parse

/-! ## The expression IR's contract -/

/-- C21 (`isCommutative`): for every operator `k` of `BinaryInst`,
`isCommutative(k)` is true if and only if `k` is one of band, bor, bxor, add,
mul; it is false for sub, sdiv, udiv, lshr, ashr and shl. -/
theorem isCommutative_iff (k : BinaryInst.Op) :
    (BinaryInst.isCommutative k = true
        ↔ k = .band ∨ k = .bor ∨ k = .bxor ∨ k = .add ∨ k = .mul)
      ∧ (BinaryInst.isCommutative k = false
        ↔ k = .sub ∨ k = .sdiv ∨ k = .udiv ∨ k = .lshr ∨ k = .ashr ∨ k = .shl) := by
  cases k <;> simp [BinaryInst.isCommutative]

/-- C22 (type factories), as stated, fails: `Scalar(0, false)` has no bits,
and `Vectorizable(0, 8, false)` has lane 0 although it is not `Null()`. -/
theorem factory_counterexample :
    (type.Scalar 0 false).bits = 0
      ∧ (type.Integer 0).bits = 0
      ∧ (type.Vectorizable 0 8 false).lane = 0
      ∧ (type.IntegerVectorizable 0 8).lane = 0
      ∧ type.Vectorizable 0 8 false ≠ type.Null := by
  decide

/-- C22 (type factories), amended: the factories check nothing. `Float`,
`Double`, `Half` and `FP128` give lane 1 and 32, 64, 16 and 128 bits.
`Scalar` and `Integer` give lane 1 and the bits they are handed, so their
result has bits greater than 0 exactly when the argument is not 0.
`Vectorizable` and `IntegerVectorizable` give the lane count and the bits
they are handed, so their result has a lane count of at least 1 and bits
greater than 0 exactly when neither argument is 0. `Null` gives lane 0 and no
bits. -/
theorem factory_fields (lane bits : Nat) (fp : Bool) :
    (type.Float = ⟨1, 32, true⟩ ∧ type.Double = ⟨1, 64, true⟩
        ∧ type.Half = ⟨1, 16, true⟩ ∧ type.FP128 = ⟨1, 128, true⟩)
      ∧ (type.Scalar bits fp = ⟨1, bits, fp⟩ ∧ type.Integer bits = ⟨1, bits, false⟩)
      ∧ (type.Vectorizable lane bits fp = ⟨lane, bits, fp⟩
        ∧ type.IntegerVectorizable lane bits = ⟨lane, bits, false⟩)
      ∧ (1 ≤ (type.Scalar bits fp).lane ∧ 0 < (type.Scalar bits fp).bits ↔ bits ≠ 0)
      ∧ (1 ≤ (type.Vectorizable lane bits fp).lane ∧ 0 < (type.Vectorizable lane bits fp).bits
          ↔ lane ≠ 0 ∧ bits ≠ 0)
      ∧ type.Null = ⟨0, 0, false⟩ := by
  refine ⟨⟨rfl, rfl, rfl, rfl⟩, ⟨rfl, rfl⟩, ⟨rfl, rfl⟩, ?_, ?_, rfl⟩
  · show 1 ≤ 1 ∧ 0 < bits ↔ bits ≠ 0
    omega
  · show 1 ≤ lane ∧ 0 < bits ↔ lane ≠ 0 ∧ bits ≠ 0
    omega

/-- C23 (operand types of a binary node), as stated, fails: the constructor
of `BinaryInst` accepts a left operand of type `i32` and a right operand of
type `i64`, and the parser builds a binary node from the tokens of
`(add i32 (var i32 %x) (var i64 %w))`, whose operands are bound to an `i32`
and to an `i64` value. -/
theorem binary_types_counterexample :
    (Inst.BinaryInst .add (.Var (.argument .VF 0 i32))
        (.Var (.argument .VF 1 (.integer 64)))).getType = some i32
      ∧ (Inst.Var (.argument .VF 1 (.integer 64))).getType = some (.integer 64)
      ∧ parse.Parser.parse exMixedEnv exMixedF (exStart exMixedTokens)
        = .returned [⟨2, 0, 0⟩]
            ⟨[], ⟨0, ""⟩, 1, ⟨.INT_TYPE, false⟩,
              [(0, .Var (.argument .VF 0 i32)), (1, .Var (.argument .VF 1 (.integer 64))),
               (2, .BinaryOp .add 0 1 (type.Scalar 32 false))], 3⟩ := by
  decide


/-- C23 (operand types of a binary node), amended: the type of a `BinaryInst`
node is the type of its left operand, whatever the right operand is; the
constructor compares nothing. The parser does not look at the types of the
operands either: when the op token has a case in `parse_binary`, the type
annotation parses, the two calls of `parse_expr` return the nodes `a` and
`b`, and the next token is `RPAREN`, `parse_binary` returns a new binary
node over `a` and `b` that carries the annotated type. -/
theorem binary_types (k : BinaryInst.Op) (L R : Inst) (E : parse.Env)
    (parse_expr : parse.M Addr) (t : parse.token) (op : BinaryOp.Op) (workty : type)
    (a b : Addr) (st s1 s2 s3 s4 : parse.State)
    (hop : parse.Parser.parse_binary.op t = some op)
    (hty : parse.parse_type E st = .ok workty s1)
    (ha : parse_expr s1 = .ok a s2) (hb : parse_expr s2 = .ok b s3)
    (hrp : parse.tokenizer_t.operator_star s3 = .ok .RPAREN s4) :
    (Inst.BinaryInst k L R).getType = L.getType
      ∧ parse.Parser.parse_binary E parse_expr t st
        = .ok s4.heap
            { s4 with
              exprs := s4.exprs ++ [(s4.heap, .BinaryOp op a b workty)]
              heap := s4.heap + 1 } := by
  refine ⟨rfl, ?_⟩
  unfold parse.Parser.parse_binary
  rw [hop]
  rw [parse.bind_ok _ _ _ _ _ (show parse.switch (some op) st = .ok op st from rfl), parse.bind_ok _ _ _ _ _ hty,
    parse.bind_ok _ _ _ _ _ ha, parse.bind_ok _ _ _ _ _ hb,
    parse.bind_ok _ _ _ _ _ (parse.ensure_ok E _ _ _ hrp),
    parse.bind_ok _ _ _ _ _ (parse.make_unique_eq _ _),
    parse.bind_ok _ _ _ _ _ (parse.emplace_back_eq _ _)]
  rfl

theorem binary_types_witness :
    (Inst.BinaryInst .add (.Var (.argument .VF 0 i32))
        (.Var (.argument .VF 1 (.integer 64)))).getType = some i32
      ∧ parse.Parser.parse_binary exMixedEnv (parse.Parser.parse_expr exMixedEnv 1) .ADD
          ⟨exMixedTokens.drop 2, ⟨0, ""⟩, 1, ⟨.END, false⟩, [], 0⟩
        = .ok 2
            ⟨[], ⟨0, ""⟩, 1, ⟨.INT_TYPE, false⟩,
              [(0, .Var (.argument .VF 0 i32)), (1, .Var (.argument .VF 1 (.integer 64))),
               (2, .BinaryOp .add 0 1 (type.Scalar 32 false))], 3⟩ :=
  binary_types .add (.Var (.argument .VF 0 i32)) (.Var (.argument .VF 1 (.integer 64)))
    exMixedEnv (parse.Parser.parse_expr exMixedEnv 1) .ADD .add (type.Scalar 32 false) 0 1
    ⟨exMixedTokens.drop 2, ⟨0, ""⟩, 1, ⟨.END, false⟩, [], 0⟩
    ⟨exMixedTokens.drop 3, ⟨32, ""⟩, 1, ⟨.INT_TYPE, false⟩, [], 0⟩
    ⟨exMixedTokens.drop 8, ⟨0, ""⟩, 1, ⟨.INT_TYPE, false⟩,
      [(0, .Var (.argument .VF 0 i32))], 1⟩
    ⟨exMixedTokens.drop 13, ⟨0, ""⟩, 1, ⟨.INT_TYPE, false⟩,
      [(0, .Var (.argument .VF 0 i32)), (1, .Var (.argument .VF 1 (.integer 64)))], 2⟩
    ⟨[], ⟨0, ""⟩, 1, ⟨.INT_TYPE, false⟩,
      [(0, .Var (.argument .VF 0 i32)), (1, .Var (.argument .VF 1 (.integer 64)))], 2⟩
    (by decide) (by decide) (by decide) (by decide) (by decide)

/-- C29 (injectivity of the table) fails on the table: the operators with the
ordinals 96 and 97 are distinct and `getIntrinsicID` returns the same host
intrinsic, `x86_avx512_psllv_w_256`, for both, so the lookup is not
injective. -/
theorem getIntrinsicID_not_injective :
    (⟨96, by decide⟩ : X86IntrinBinOp.Op) ≠ ⟨97, by decide⟩
      ∧ getIntrinsicID ⟨96, by decide⟩ = getIntrinsicID ⟨97, by decide⟩
      ∧ ¬ Function.Injective getIntrinsicID := by
  refine ⟨by decide, by decide, ?_⟩
  intro hinj
  have h : (⟨96, by decide⟩ : X86IntrinBinOp.Op) = ⟨97, by decide⟩ := hinj (by decide)
  exact absurd h (by decide)

/-- The instructions inserted by a call of `codeGen` that returns: at most
one for each `BinaryInst` and `SIMDBinOpInst` occurrence in the tree
unfolding, and exactly one for each when the folder of the builder folds
nothing. -/
theorem codeGen_emitted_length (b : IRBuilderFolder) (intrinsicRetTy : String → Ty)
    (I : Inst) :
    ∀ (st : GenState) (v : Option Value) (st' : GenState),
      codeGen b intrinsicRetTy I st = .ok v st' →
      st'.emitted.length ≤ st.emitted.length + I.occurrences
        ∧ ((∀ emitted opcode v0 v1, b emitted opcode v0 v1 = none) →
            st'.emitted.length = st.emitted.length + I.occurrences) := by
  induction I with
  | Var x =>
    intro st v st' h
    unfold codeGen at h
    split at h
    · cases h
      exact ⟨Nat.le_refl _, fun _ => rfl⟩
    · cases h
      exact ⟨Nat.le_refl _, fun _ => rfl⟩
  | Ptr x =>
    intro st v st' h
    simp [codeGen] at h
  | ReservedConst t A =>
    intro st v st' h
    unfold codeGen at h
    split at h
    · cases h
      exact ⟨Nat.le_refl _, fun _ => rfl⟩
    · cases h
      exact ⟨Nat.le_refl _, fun _ => rfl⟩
  | UnaryInst op U ih =>
    intro st v st' h
    unfold codeGen at h
    cases hU : codeGen b intrinsicRetTy U st with
    | ok op0 st1 =>
      rw [hU] at h
      cases op
      simp only at h
      cases h
      exact ih st _ _ hU
    | fatal msg =>
      rw [hU] at h
      simp at h
    | undefined =>
      rw [hU] at h
      simp at h
  | BinaryInst K L R ihL ihR =>
    intro st v st' h
    unfold codeGen at h
    cases hL : codeGen b intrinsicRetTy L st with
    | ok op0 st1 =>
      rw [hL] at h
      simp only at h
      cases hR : codeGen b intrinsicRetTy R st1 with
      | ok op1 st2 =>
        rw [hR] at h
        obtain ⟨l1, e1⟩ := ihL st _ _ hL
        obtain ⟨l2, e2⟩ := ihR st1 _ _ hR
        cases op0 with
        | none => simp at h
        | some v0 =>
          cases op1 with
          | none => simp at h
          | some v1 =>
            obtain ⟨ext, hJ, hle, heq⟩ := CreateBinOp_emitted _ _ _ _ _ _ _ _ h
            rw [hJ, List.length_append]
            simp only [Inst.occurrences]
            refine ⟨by omega, fun hb => ?_⟩
            have h1 := e1 hb
            have h2 := e2 hb
            have h3 := heq (hb _ _ _ _)
            omega
      | fatal msg =>
        rw [hR] at h
        simp at h
      | undefined =>
        rw [hR] at h
        simp at h
    | fatal msg =>
      rw [hL] at h
      simp at h
    | undefined =>
      rw [hL] at h
      simp at h
  | ICmpInst c L R _ _ =>
    intro st v st' h
    simp [codeGen] at h
  | BitCastInst i a1 b1 c1 d1 _ =>
    intro st v st' h
    simp [codeGen] at h
  | SIMDBinOpInst K L R ihL ihR =>
    intro st v st' h
    unfold codeGen at h
    cases hL : codeGen b intrinsicRetTy L st with
    | ok op0 st1 =>
      rw [hL] at h
      simp only at h
      cases hR : codeGen b intrinsicRetTy R st1 with
      | ok op1 st2 =>
        rw [hR] at h
        obtain ⟨l1, e1⟩ := ihL st _ _ hL
        obtain ⟨l2, e2⟩ := ihR st1 _ _ hR
        cases op0 with
        | none => simp at h
        | some v0 =>
          cases op1 with
          | none => simp at h
          | some v1 =>
            obtain ⟨J, hJ⟩ := insertInst_emitted _ _ _ _ _ _ _ h
            rw [hJ, List.length_append]
            have hst : ∀ (l : List String), ({ st2 with IntrinsicDecls := l } : GenState).emitted
                = st2.emitted := fun _ => rfl
            rw [hst]
            simp only [Inst.occurrences, List.length_singleton]
            refine ⟨by omega, fun hb => ?_⟩
            have h1 := e1 hb
            have h2 := e2 hb
            omega
      | fatal msg =>
        rw [hR] at h
        simp at h
      | undefined =>
        rw [hR] at h
        simp at h
    | fatal msg =>
      rw [hL] at h
      simp at h
    | undefined =>
      rw [hL] at h
      simp at h
  | ShuffleVectorInst L R M _ _ _ =>
    intro st v st' h
    simp [codeGen] at h


theorem PtrMap.index_of_entry {K : Type} [DecidableEq K] (m : PtrMap K) (k : K) (v : Value)
    (h : m.entry k = some v) : m.index k = (some v, m) := by
  unfold PtrMap.entry at h
  unfold PtrMap.index
  cases hf : m.find? (fun e => e.1 == k) with
  | none =>
    rw [hf] at h
    simp at h
  | some e =>
    rw [hf] at h
    have h2 : e.2 = some v := h
    simp only [h2]

theorem lowers_congr (st st1 : GenState) (I : Inst) (hV : st1.VMap = st.VMap)
    (hc : st1.constMap = st.constMap) : I.lowers st1 = I.lowers st := by
  induction I with
  | Var x => simp only [Inst.lowers, hV]
  | Ptr x => rfl
  | ReservedConst t A => simp only [Inst.lowers, hc]
  | UnaryInst op U ih => simpa only [Inst.lowers] using ih
  | BinaryInst K L R ihL ihR => simp only [Inst.lowers, ihL, ihR]
  | ICmpInst c L R _ _ => rfl
  | BitCastInst i a1 b1 c1 d1 _ => rfl
  | SIMDBinOpInst K L R ihL ihR => simp only [Inst.lowers, ihL, ihR]
  | ShuffleVectorInst L R M _ _ _ => rfl

/-- A tree that lowers from `st` is lowered to a value, and the maps stay as
they are. -/
theorem codeGen_returns (b : IRBuilderFolder) (intrinsicRetTy : String → Ty) (I : Inst) :
    ∀ st : GenState, I.lowers st = true →
      ∃ v st', codeGen b intrinsicRetTy I st = .ok (some v) st'
        ∧ st'.VMap = st.VMap ∧ st'.constMap = st.constMap := by
  induction I with
  | Var x =>
    intro st h
    simp only [Inst.lowers, Bool.or_eq_true] at h
    unfold codeGen
    by_cases he : st.VMap.isEmpty = true
    · rw [if_pos he]
      exact ⟨x, st, rfl, rfl, rfl⟩
    · rw [if_neg he]
      rcases h with h | h
      · exact absurd h he
      · obtain ⟨v, hv⟩ := Option.isSome_iff_exists.mp h
        rw [PtrMap.index_of_entry _ _ _ hv]
        exact ⟨v, _, rfl, rfl, rfl⟩
  | Ptr x =>
    intro st h
    simp [Inst.lowers] at h
  | ReservedConst t A =>
    intro st h
    unfold Inst.lowers at h
    unfold codeGen
    cases hc : st.constMap with
    | none =>
      rw [hc] at h
      obtain ⟨v, hv⟩ := Option.isSome_iff_exists.mp h
      subst hv
      exact ⟨v, st, rfl, rfl, hc⟩
    | some cm =>
      rw [hc] at h
      obtain ⟨v, hv⟩ := Option.isSome_iff_exists.mp h
      simp only
      rw [PtrMap.index_of_entry _ _ _ hv]
      exact ⟨v, _, rfl, rfl, rfl⟩
  | UnaryInst op U ih =>
    intro st h
    obtain ⟨v, st1, h1, hV, hc⟩ := ih st h
    unfold codeGen
    rw [h1]
    cases op
    exact ⟨v, st1, rfl, hV, hc⟩
  | BinaryInst K L R ihL ihR =>
    intro st h
    simp only [Inst.lowers, Bool.and_eq_true] at h
    obtain ⟨v0, st1, h1, hV1, hc1⟩ := ihL st h.1
    obtain ⟨v1, st2, h2, hV2, hc2⟩ := ihR st1 ((lowers_congr st st1 R hV1 hc1).trans h.2)
    unfold codeGen
    rw [h1]
    simp only
    rw [h2]
    simp only [IRBuilder.CreateBinOp]
    cases b st2.emitted (binaryOpcode K).1 v0 v1 with
    | some w => exact ⟨w, st2, rfl, hV2.trans hV1, hc2.trans hc1⟩
    | none => exact ⟨_, _, rfl, hV2.trans hV1, hc2.trans hc1⟩
  | ICmpInst c L R _ _ =>
    intro st h
    simp [Inst.lowers] at h
  | BitCastInst i a1 b1 c1 d1 _ =>
    intro st h
    simp [Inst.lowers] at h
  | SIMDBinOpInst K L R ihL ihR =>
    intro st h
    simp only [Inst.lowers, Bool.and_eq_true] at h
    obtain ⟨v0, st1, h1, hV1, hc1⟩ := ihL st h.1
    obtain ⟨v1, st2, h2, hV2, hc2⟩ := ihR st1 ((lowers_congr st st1 R hV1 hc1).trans h.2)
    unfold codeGen
    rw [h1]
    simp only
    rw [h2]
    exact ⟨_, _, rfl, hV2.trans hV1, hc2.trans hc1⟩
  | ShuffleVectorInst L R M _ _ _ =>
    intro st h
    simp [Inst.lowers] at h

/-- C30 (no memoization), as stated, fails for a builder that folds: with a
folder that folds constants as the default folder of `llvm::IRBuilder` does,
the tree `(c0 + c1) + x` over two constant nodes bound to the constants 1
and 2 has two `BinaryInst` occurrences, and `codeGen` inserts the single
instruction `add i32 3, %x`. -/
theorem codeGen_no_memo_counterexample :
    (Inst.BinaryInst .add
        (.BinaryInst .add (.ReservedConst i32 (some (.argument .F 0 i32)))
          (.ReservedConst i32 (some (.argument .F 1 i32))))
        (.Var (.argument .VF 0 i32))).occurrences = 2
      ∧ codeGen exConstantFolder (fun _ => i32)
          (.BinaryInst .add
            (.BinaryInst .add (.ReservedConst i32 (some (.argument .F 0 i32)))
              (.ReservedConst i32 (some (.argument .F 1 i32))))
            (.Var (.argument .VF 0 i32)))
          ⟨[], some exConstMap, [], 0, []⟩
        = .ok (some (.instruction .F 0 i32))
            ⟨[], some exConstMap,
              [⟨0, .add, i32, [.constantInt i32 3, .argument .VF 0 i32], [], "add", []⟩],
              1, []⟩ := by
  decide

/-- C30 (no memoization), amended: a tree of `Var`, `ReservedConst`,
`UnaryInst`, `BinaryInst` and `SIMDBinOpInst` nodes whose leaves lower to
non-null values is lowered to a value, whatever the folder of the builder.
The number of instructions `codeGen` inserts is at most the number of
`BinaryInst` and `SIMDBinOpInst` occurrences in the tree unfolding from the
root, and with a builder that folds nothing (`llvm::NoFolder`) it is exactly
that number: `codeGen` keeps no memo, and a node under two parents is
lowered once for each of them. -/
theorem codeGen_no_memo (b : IRBuilderFolder) (intrinsicRetTy : String → Ty) (I : Inst)
    (st : GenState) (h : I.lowers st = true) :
    (∃ v st', codeGen b intrinsicRetTy I st = .ok (some v) st'
        ∧ st'.emitted.length ≤ st.emitted.length + I.occurrences)
      ∧ ∃ v st', codeGen NoFolder intrinsicRetTy I st = .ok (some v) st'
        ∧ st'.emitted.length = st.emitted.length + I.occurrences := by
  obtain ⟨v, st', h1, _, _⟩ := codeGen_returns b intrinsicRetTy I st h
  obtain ⟨w, st2, h2, _, _⟩ := codeGen_returns NoFolder intrinsicRetTy I st h
  exact ⟨⟨v, st', h1, (codeGen_emitted_length b intrinsicRetTy I st _ st' h1).1⟩,
    w, st2, h2, (codeGen_emitted_length NoFolder intrinsicRetTy I st _ st2 h2).2
      (fun _ _ _ _ => rfl)⟩

theorem codeGen_no_memo_witness :
    (∃ v st', codeGen exConstantFolder (fun _ => i32) (.BinaryInst .add exShared exShared)
          ⟨[], none, [], 0, []⟩
        = .ok (some v) st'
        ∧ st'.emitted.length ≤ 0 + 3)
      ∧ ∃ v st', codeGen NoFolder (fun _ => i32) (.BinaryInst .add exShared exShared)
          ⟨[], none, [], 0, []⟩
        = .ok (some v) st'
        ∧ st'.emitted.length = 0 + 3 :=
  codeGen_no_memo exConstantFolder (fun _ => i32) (.BinaryInst .add exShared exShared)
    ⟨[], none, [], 0, []⟩ (by decide)


/-! ## The deletion step -/

/-- C26 (deletion step), as stated, fails: for the root `%v` of `exStraight`
the cloned block holds `%a`, `%v`, the inserted return and its own
terminator `ret i32 %v`; the deletion loops erase that terminator. -/
theorem deletion_counterexample :
    (clonedFunction exStraight (.instruction .VF 2 i32)).instructions.map
        (fun I => (I.id, I.opcode, I.opcode.isTerminator))
        = [(1, .add, false), (2, .mul, false), (4, .ret, true), (3, .ret, true)]
      ∧ (retInst exStraight (.instruction .VF 2 i32)).id = 4
      ∧ (deleteNonCandidates
          (clonedCandidates exStraight (.instruction .VF 2 i32)
            (candidates 5 exStraight (.instruction .VF 2 i32) []))
          (clonedFunction exStraight (.instruction .VF 2 i32))).instructions.map
        (fun I => (I.id, I.opcode, I.opcode.isTerminator))
        = [(1, .add, false), (2, .mul, false), (4, .ret, true)] := by
  decide

theorem mem_pruned_instructions (dead : List Value) (Fn : Function) (J' : Instruction) :
    J' ∈ (pruned dead Fn).instructions ↔
      ∃ J0 ∈ Fn.instructions, dead.contains (J0.asValue .F) = false
        ∧ J' = { J0 with operands := J0.operands.map (poisonDead dead) } := by
  unfold Function.instructions pruned
  simp only [List.mem_flatMap, List.mem_map]
  constructor
  · rintro ⟨BB', ⟨BB, hBB, rfl⟩, hJ'⟩
    have hJ2 : J' ∈ (BB.insts.filter (fun I => !(dead.contains (I.asValue .F)))).map
        (fun I => { I with operands := I.operands.map (poisonDead dead) }) := hJ'
    simp only [List.mem_map, List.mem_filter] at hJ2
    obtain ⟨J0, ⟨hI0, hk⟩, rfl⟩ := hJ2
    refine ⟨J0, ⟨BB, hBB, hI0⟩, ?_, rfl⟩
    simpa using hk
  · rintro ⟨J0, ⟨BB, hBB, hI0⟩, hk, rfl⟩
    refine ⟨_, ⟨BB, hBB, rfl⟩, ?_⟩
    show _ ∈ (BB.insts.filter (fun I => !(dead.contains (I.asValue .F)))).map
        (fun I => { I with operands := I.operands.map (poisonDead dead) })
    simp only [List.mem_map, List.mem_filter]
    exact ⟨J0, ⟨hI0, by simpa using hk⟩, rfl⟩

/-- C26 (deletion step), amended: an instruction of the new function as it
is before the deletion loops is erased by them if and only if it is not in
`ClonedCandidates`, that is, if and only if it is neither the clone of a
candidate nor the inserted return. Terminators are on no list of their own:
a terminator is kept only when it is the clone of a candidate. -/
theorem deletion_iff (VF : Function) (V : Value) (C : List Value) (J : Instruction)
    (hJ : J ∈ (clonedFunction VF V).instructions) :
    (∀ J' ∈ (deleteNonCandidates (clonedCandidates VF V C)
          (clonedFunction VF V)).instructions, J'.asValue .F ≠ J.asValue .F)
      ↔ ¬ ((∃ W ∈ C, VMap W = J.asValue .F) ∨ J.asValue .F = (retInst VF V).asValue .F) := by
  have hret : (retInst VF V).asValue .F = .instruction .F VF.freshId .void := rfl
  rw [hret, ← mem_clonedCandidates VF V C, deleteNonCandidates_eq]
  have hord : J.asValue .F ∈ deletionOrder (clonedFunction VF V) := by
    unfold Function.instructions at hJ
    obtain ⟨BB, hBB, hI⟩ := List.mem_flatMap.mp hJ
    exact mem_deletionOrder _ BB J hBB hI
  have hdead : ∀ v, v ∈ erased (clonedCandidates VF V C) (deletionOrder (clonedFunction VF V)) []
      ↔ v ∈ deletionOrder (clonedFunction VF V)
        ∧ (clonedCandidates VF V C).contains v = false := by
    intro v
    rw [mem_erased]
    simp
  have hcontains : ∀ (l : List Value) (v : Value), l.contains v = false ↔ v ∉ l := by
    intro l v
    rw [← Bool.not_eq_true, List.contains, List.elem_iff]
  constructor
  · intro h hmem
    refine h { J with operands := J.operands.map (poisonDead
      (erased (clonedCandidates VF V C) (deletionOrder (clonedFunction VF V)) [])) } ?_ rfl
    rw [mem_pruned_instructions]
    refine ⟨J, hJ, ?_, rfl⟩
    rw [hcontains, hdead, hcontains]
    exact fun hd => hd.2 hmem
  · intro hnot J' hJ' heq
    rw [mem_pruned_instructions] at hJ'
    obtain ⟨J0, _, hk, rfl⟩ := hJ'
    have heq0 : J0.asValue .F = J.asValue .F := heq
    rw [heq0, hcontains, hdead, hcontains] at hk
    exact hk ⟨hord, hnot⟩

theorem deletion_iff_witness :
    (∀ J' ∈ (deleteNonCandidates
          (clonedCandidates exStraight (.instruction .VF 2 i32)
            (candidates 5 exStraight (.instruction .VF 2 i32) []))
          (clonedFunction exStraight (.instruction .VF 2 i32))).instructions,
        J'.asValue .F ≠ .instruction .F 3 .void)
      ↔ ¬ ((∃ W ∈ candidates 5 exStraight (.instruction .VF 2 i32) [],
              VMap W = .instruction .F 3 .void)
            ∨ Value.instruction .F 3 .void
              = (retInst exStraight (.instruction .VF 2 i32)).asValue .F) :=
  deletion_iff exStraight (.instruction .VF 2 i32)
    (candidates 5 exStraight (.instruction .VF 2 i32) [])
    ⟨3, .ret, .void, [.instruction .F 2 i32], [], "", []⟩ (by decide)


/-! ## The worklist loop: termination and the candidate set -/

theorem harvestState_candidates (D : Nat) (VF : Function) :
    ∀ (fuel : Nat) (wl C : List (Value × Nat)),
      (harvestState D VF fuel wl C).2.map Prod.fst = harvest D VF fuel wl (C.map Prod.fst) := by
  intro fuel
  induction fuel with
  | zero => intro wl C; rfl
  | succ fuel ih =>
    intro wl C
    cases wl with
    | nil => rfl
    | cons e rest =>
      obtain ⟨W, d⟩ := e
      simp only [harvestState, harvest]
      by_cases hd : d > D
      · simp only [hd, if_true]
        exact ih _ _
      · simp only [hd, if_false]
        cases hI : VF.resolve .VF W with
        | none => exact ih _ _
        | some I =>
          dsimp only
          by_cases hu : haveUnknownOperand I = true
          · simp only [hu, if_true]
            exact ih _ _
          · simp only [hu, if_false, Bool.false_eq_true]
            by_cases hc : (C.map Prod.fst).contains W = true
            · simp only [hc, if_true]
              exact ih _ _
            · simp only [hc, if_false, Bool.false_eq_true]
              rw [ih]
              simp

theorem harvestState_empty (D : Nat) (VF : Function) :
    ∀ (fuel : Nat) (wl C : List (Value × Nat)),
      wl.length + pendingOperands (C.map Prod.fst) VF.instructions < fuel →
      (harvestState D VF fuel wl C).1 = [] := by
  intro fuel
  induction fuel with
  | zero => intro wl C h; omega
  | succ fuel ih =>
    intro wl C h
    cases wl with
    | nil => rfl
    | cons e rest =>
      obtain ⟨W, d⟩ := e
      simp only [List.length_cons] at h
      have hrec : (harvestState D VF fuel rest C).1 = [] := ih rest C (by omega)
      simp only [harvestState]
      split
      · exact hrec
      · split
        · exact hrec
        · rename_i I hI
          split
          · exact hrec
          · split
            · exact hrec
            · rename_i hnotin
              have hW : (C.map Prod.fst).contains W = false := by simpa using hnotin
              have hp := pendingOperands_insert (C.map Prod.fst) W hW I
                (resolve_eq_asValue VF .VF W I hI).symm VF.instructions
                (resolve_mem VF .VF W I hI)
              have hl := pushOperands_length I d
              apply ih
              rw [List.length_append, List.map_append]
              simp only [List.map_cons, List.map_nil]
              omega

/-- C24 (termination of the worklist loop): for every enclosing function,
every root, every seeded worklist and every value of `slicer_max_depth`,
the worklist is empty after at most `harvestFuel` pops (the length of the
initial worklist plus the number of operands of the function's
instructions, plus one), and the candidate set at that point is the one
`extractExpr` goes on with. -/
theorem harvest_terminates (D : Nat) (VF : Function) (V : Value)
    (Worklist : List (Value × Nat)) :
    (harvestState D VF (harvestFuel VF ((V, 0) :: Worklist)) ((V, 0) :: Worklist) []).1 = []
      ∧ (harvestState D VF (harvestFuel VF ((V, 0) :: Worklist)) ((V, 0) :: Worklist) []).2.map
          Prod.fst = candidates D VF V Worklist := by
  constructor
  · apply harvestState_empty
    have hp : pendingOperands [] VF.instructions
        = (VF.instructions.map (fun I => I.operands.length)).sum := by
      unfold pendingOperands
      simp
    simp only [List.map_nil]
    rw [hp]
    unfold harvestFuel
    omega
  · rw [harvestState_candidates]
    rfl


/-! ## The candidate set is the set of chain ends -/

namespace parse

theorem peek_stream (st st' : State) (t : token) (h : tokenizer_t.peek st = .ok t st') :
    t = stream st 0 ∧ (∀ i, stream st' i = stream st i) ∧ st'.tokenizer = ⟨t, true⟩ := by
  rcases st with ⟨input, v, l, ⟨last, returned⟩, exprs, heap⟩
  cases returned
  · cases input with
    | nil =>
      cases h
      refine ⟨rfl, fun i => ?_, rfl⟩
      cases i <;> rfl
    | cons x rest =>
      cases x with
      | token t2 v2 l2 =>
        cases h
        exact ⟨rfl, fun i => rfl, rfl⟩
      | LexException s l2 => cases h
  · cases h
    exact ⟨rfl, fun i => rfl, rfl⟩

theorem operator_star_stream (st st' : State) (t : token)
    (h : tokenizer_t.operator_star st = .ok t st') :
    t = stream st 0 ∧ ∀ i, stream st' i = stream st (i + 1) := by
  rcases st with ⟨input, v, l, ⟨last, returned⟩, exprs, heap⟩
  cases returned
  · cases input with
    | nil =>
      cases h
      exact ⟨rfl, fun i => rfl⟩
    | cons x rest =>
      cases x with
      | token t2 v2 l2 =>
        cases h
        exact ⟨rfl, fun i => rfl⟩
      | LexException s l2 => cases h
  · cases h
    exact ⟨rfl, fun i => rfl⟩

theorem consumeIf_stream (e : token) (st st' : State) (b : Bool)
    (h : tokenizer_t.consumeIf e st = .ok b st') :
    b = (stream st 0 == e)
      ∧ ∀ i, stream st' i = stream st (if b then i + 1 else i) := by
  unfold tokenizer_t.consumeIf at h
  obtain ⟨t, s1, h1, h2⟩ := bind_ok_inv _ _ _ _ _ h
  obtain ⟨ht, hs, htk⟩ := peek_stream st s1 t h1
  rcases s1 with ⟨input, v, l, ⟨last, returned⟩, exprs, heap⟩
  simp only [tokenizer_t.mk.injEq] at htk
  obtain ⟨rfl, rfl⟩ := htk
  by_cases hte : last = e
  · have hb : (last == e) = true := by simp [hte]
    rw [hb] at h2
    cases h2
    refine ⟨by rw [← ht, hb], fun i => ?_⟩
    rw [if_pos rfl, ← hs (i + 1)]
    rfl
  · have hb : (last == e) = false := by simp [hte]
    rw [hb] at h2
    cases h2
    refine ⟨by rw [← ht, hb], fun i => ?_⟩
    simp only [Bool.false_eq_true, if_false]
    exact hs i

theorem ensure_stream (E : Env) (e : token) (st st' : State) (a : Unit)
    (h : tokenizer_t.ensure E e st = .ok a st') :
    stream st 0 = e ∧ ∀ i, stream st' i = stream st (i + 1) := by
  unfold tokenizer_t.ensure at h
  obtain ⟨t, s1, h1, h2⟩ := bind_ok_inv _ _ _ _ _ h
  obtain ⟨ht, hs⟩ := operator_star_stream st s1 t h1
  by_cases hte : t = e
  · have hb : (t != e) = false := by simp [hte]
    rw [hb] at h2
    cases h2
    exact ⟨by rw [← ht, hte], hs⟩
  · have hb : (t != e) = true := by simp [hte]
    rw [hb] at h2
    simp only [if_true] at h2
    rw [error_eq] at h2
    cases h2

theorem isTypeToken_eq (t : token) :
    t.isTypeToken = ((t == .INT_TYPE || t == .FLOAT || t == .DOUBLE || t == .HALF
      || t == .FP128) || t == .VECTOR_TYPE_PREFIX) := by
  cases t <;> rfl

theorem isType_eq (st st1 : State) (t : token) (h : tokenizer_t.peek st = .ok t st1) :
    tokenizer_t.isType st = .ok t.isTypeToken st1 := by
  unfold tokenizer_t.isType
  rw [bind_ok _ _ _ _ _ (isScalarType_eq st st1 t h), isTypeToken_eq]
  cases hs : (t == token.INT_TYPE || t == token.FLOAT || t == token.DOUBLE || t == token.HALF
      || t == token.FP128)
  · simp only [Bool.false_eq_true, if_false, Bool.false_or]
    exact isVectorType_eq st1 st1 t (peek_idem st st1 t h)
  · rfl

/-- A call that returns is a call of reading without lookahead, and the
tokens ahead after it are those that reading left. -/
theorem run_direct (E : Env) (c : Call) (st st' : State) (r : Ret)
    (h : c.run E st = .ok r st') (s : Nat → token) (n : Nat)
    (hs : ∀ i, stream st i = s (i + n)) :
    ∃ n', c.direct s n = some (r, n') ∧ n ≤ n' ∧ ∀ i, stream st' i = s (i + n') := by
  have h0 : stream st 0 = s n := by rw [hs 0, Nat.zero_add]
  cases c with
  | operator_star =>
    obtain ⟨t, s1, h1, h2⟩ := bind_ok_inv _ _ _ _ _ h
    obtain ⟨ht, hsh⟩ := operator_star_stream st s1 t h1
    cases h2
    refine ⟨n + 1, by rw [ht, h0]; rfl, Nat.le_succ _, fun i => ?_⟩
    rw [hsh i, hs (i + 1)]
    congr 1
    omega
  | peek =>
    obtain ⟨t, s1, h1, h2⟩ := bind_ok_inv _ _ _ _ _ h
    obtain ⟨ht, hsh, _⟩ := peek_stream st s1 t h1
    cases h2
    exact ⟨n, by rw [ht, h0]; rfl, le_refl _, fun i => by rw [hsh i, hs i]⟩
  | consumeIf e =>
    obtain ⟨b, s1, h1, h2⟩ := bind_ok_inv _ _ _ _ _ h
    obtain ⟨hb, hsh⟩ := consumeIf_stream e st s1 b h1
    cases h2
    rw [h0] at hb
    cases b
    · refine ⟨n, ?_, le_refl _, fun i => ?_⟩
      · simp only [Call.direct, ← hb, Bool.false_eq_true, if_false]
      · rw [hsh i]
        simp only [Bool.false_eq_true, if_false]
        exact hs i
    · refine ⟨n + 1, ?_, Nat.le_succ _, fun i => ?_⟩
      · simp only [Call.direct, ← hb, if_true]
      · rw [hsh i, if_pos rfl, hs (i + 1)]
        congr 1
        omega
  | ensure e =>
    obtain ⟨a, s1, h1, h2⟩ := bind_ok_inv _ _ _ _ _ h
    obtain ⟨he, hsh⟩ := ensure_stream E e st s1 a h1
    cases h2
    rw [h0] at he
    refine ⟨n + 1, ?_, Nat.le_succ _, fun i => ?_⟩
    · simp only [Call.direct, he, beq_self_eq_true, if_true]
    · rw [hsh i, hs (i + 1)]
      congr 1
      omega
  | empty =>
    obtain ⟨b, s1, h1, h2⟩ := bind_ok_inv _ _ _ _ _ h
    cases h2
    obtain ⟨t, s2, h3, h4⟩ := bind_ok_inv _ _ _ _ _ h1
    obtain ⟨ht, hsh, _⟩ := peek_stream st s2 t h3
    cases h4
    exact ⟨n, by rw [ht, h0]; rfl, le_refl _, fun i => by rw [hsh i, hs i]⟩
  | isType =>
    obtain ⟨b, s1, h1, h2⟩ := bind_ok_inv _ _ _ _ _ h
    cases h2
    cases hp : tokenizer_t.peek st with
    | ok t s2 =>
      obtain ⟨ht, hsh, _⟩ := peek_stream st s2 t hp
      rw [isType_eq st s2 t hp] at h1
      cases h1
      exact ⟨n, by rw [ht, h0]; rfl, le_refl _, fun i => by rw [hsh i, hs i]⟩
    | exception e =>
      exfalso
      simp [tokenizer_t.isType, tokenizer_t.isScalarType, bind_eq, hp] at h1
    | fatal m =>
      exfalso
      simp [tokenizer_t.isType, tokenizer_t.isScalarType, bind_eq, hp] at h1
    | unreachable =>
      exfalso
      simp [tokenizer_t.isType, tokenizer_t.isScalarType, bind_eq, hp] at h1
    | outOfFuel =>
      exfalso
      simp [tokenizer_t.isType, tokenizer_t.isScalarType, bind_eq, hp] at h1
  | isScalarType =>
    obtain ⟨b, s1, h1, h2⟩ := bind_ok_inv _ _ _ _ _ h
    cases h2
    cases hp : tokenizer_t.peek st with
    | ok t s2 =>
      obtain ⟨ht, hsh, _⟩ := peek_stream st s2 t hp
      rw [isScalarType_eq st s2 t hp] at h1
      cases h1
      exact ⟨n, by rw [ht, h0]; rfl, le_refl _, fun i => by rw [hsh i, hs i]⟩
    | exception e =>
      exfalso
      simp [tokenizer_t.isScalarType, bind_eq, hp] at h1
    | fatal m =>
      exfalso
      simp [tokenizer_t.isScalarType, bind_eq, hp] at h1
    | unreachable =>
      exfalso
      simp [tokenizer_t.isScalarType, bind_eq, hp] at h1
    | outOfFuel =>
      exfalso
      simp [tokenizer_t.isScalarType, bind_eq, hp] at h1
  | isVectorType =>
    obtain ⟨b, s1, h1, h2⟩ := bind_ok_inv _ _ _ _ _ h
    cases h2
    obtain ⟨t, s2, h3, h4⟩ := bind_ok_inv _ _ _ _ _ h1
    obtain ⟨ht, hsh, _⟩ := peek_stream st s2 t h3
    cases h4
    exact ⟨n, by rw [ht, h0]; rfl, le_refl _, fun i => by rw [hsh i, hs i]⟩

theorem peek_total (st : State) (hlex : ∀ l ∈ st.input, l.isToken = true) :
    ∃ st', tokenizer_t.peek st = .ok (stream st 0) st'
      ∧ ∀ l ∈ st'.input, l.isToken = true := by
  rcases st with ⟨input, v, l, ⟨last, returned⟩, exprs, heap⟩
  cases returned
  · cases input with
    | nil => exact ⟨_, rfl, hlex⟩
    | cons x rest =>
      cases x with
      | token t2 v2 l2 => exact ⟨_, rfl, fun l hl => hlex l (List.mem_cons_of_mem _ hl)⟩
      | LexException s l2 =>
        have := hlex _ (List.mem_cons_self _ _)
        cases this
  · exact ⟨_, rfl, hlex⟩

theorem operator_star_total (st : State) (hlex : ∀ l ∈ st.input, l.isToken = true) :
    ∃ st', tokenizer_t.operator_star st = .ok (stream st 0) st'
      ∧ ∀ l ∈ st'.input, l.isToken = true := by
  rcases st with ⟨input, v, l, ⟨last, returned⟩, exprs, heap⟩
  cases returned
  · cases input with
    | nil => exact ⟨_, rfl, hlex⟩
    | cons x rest =>
      cases x with
      | token t2 v2 l2 => exact ⟨_, rfl, fun l hl => hlex l (List.mem_cons_of_mem _ hl)⟩
      | LexException s l2 =>
        have := hlex _ (List.mem_cons_self _ _)
        cases this
  · exact ⟨_, rfl, hlex⟩

theorem consumeIf_total (e : token) (st : State) (hlex : ∀ l ∈ st.input, l.isToken = true) :
    ∃ st', tokenizer_t.consumeIf e st = .ok (stream st 0 == e) st'
      ∧ ∀ l ∈ st'.input, l.isToken = true := by
  obtain ⟨s1, hp, hl1⟩ := peek_total st hlex
  unfold tokenizer_t.consumeIf
  rw [bind_ok _ _ _ _ _ hp]
  rcases s1 with ⟨input, v, l, ⟨last, returned⟩, exprs, heap⟩
  cases hb : (stream st 0 == e)
  · exact ⟨_, rfl, hl1⟩
  · exact ⟨_, rfl, hl1⟩

/-- On a text the lexer reads without a `LexException`, a call returns
whenever reading without lookahead does, and returns the same. -/
theorem run_total (E : Env) (c : Call) (st : State)
    (hlex : ∀ l ∈ st.input, l.isToken = true) (s : Nat → token) (n n' : Nat) (r : Ret)
    (hs : ∀ i, stream st i = s (i + n)) (h : c.direct s n = some (r, n')) :
    ∃ st', c.run E st = .ok r st' ∧ ∀ l ∈ st'.input, l.isToken = true := by
  have h0 : stream st 0 = s n := by rw [hs 0, Nat.zero_add]
  cases c with
  | operator_star =>
    obtain ⟨s1, h1, hl1⟩ := operator_star_total st hlex
    simp only [Call.direct, Option.some.injEq, Prod.mk.injEq] at h
    refine ⟨s1, ?_, hl1⟩
    show (tokenizer_t.operator_star >>= fun t => pure (Ret.tok t)) st = _
    rw [bind_ok _ _ _ _ _ h1, pure_eq, h0, h.1]
  | peek =>
    obtain ⟨s1, h1, hl1⟩ := peek_total st hlex
    simp only [Call.direct, Option.some.injEq, Prod.mk.injEq] at h
    refine ⟨s1, ?_, hl1⟩
    show (tokenizer_t.peek >>= fun t => pure (Ret.tok t)) st = _
    rw [bind_ok _ _ _ _ _ h1, pure_eq, h0, h.1]
  | consumeIf e =>
    obtain ⟨s1, h1, hl1⟩ := consumeIf_total e st hlex
    refine ⟨s1, ?_, hl1⟩
    show (tokenizer_t.consumeIf e >>= fun b => pure (Ret.bool b)) st = _
    rw [bind_ok _ _ _ _ _ h1, pure_eq, h0]
    simp only [Call.direct] at h
    cases hb : (s n == e)
    · rw [hb] at h
      simp only [Bool.false_eq_true, if_false, Option.some.injEq, Prod.mk.injEq] at h
      rw [h.1]
    · rw [hb] at h
      simp only [if_true, Option.some.injEq, Prod.mk.injEq] at h
      rw [h.1]
  | ensure e =>
    obtain ⟨s1, h1, hl1⟩ := operator_star_total st hlex
    simp only [Call.direct] at h
    cases hb : (s n == e)
    · rw [hb] at h
      simp at h
    · rw [hb] at h
      simp only [if_true, Option.some.injEq, Prod.mk.injEq] at h
      have hse : stream st 0 = e := by
        rw [h0]
        exact eq_of_beq hb
      rw [hse] at h1
      refine ⟨s1, ?_, hl1⟩
      show (tokenizer_t.ensure E e >>= fun _ => pure Ret.void) st = _
      rw [bind_ok _ _ _ _ _ (ensure_ok E e st s1 h1), pure_eq, h.1]
  | empty =>
    obtain ⟨s1, h1, hl1⟩ := peek_total st hlex
    simp only [Call.direct, Option.some.injEq, Prod.mk.injEq] at h
    refine ⟨s1, ?_, hl1⟩
    have he : tokenizer_t.empty st = .ok (stream st 0 == .END) s1 := by
      unfold tokenizer_t.empty
      rw [bind_ok _ _ _ _ _ h1]
      rfl
    show (tokenizer_t.empty >>= fun b => pure (Ret.bool b)) st = _
    rw [bind_ok _ _ _ _ _ he, pure_eq, h0, h.1]
  | isType =>
    obtain ⟨s1, h1, hl1⟩ := peek_total st hlex
    simp only [Call.direct, Option.some.injEq, Prod.mk.injEq] at h
    refine ⟨s1, ?_, hl1⟩
    show (tokenizer_t.isType >>= fun b => pure (Ret.bool b)) st = _
    rw [bind_ok _ _ _ _ _ (isType_eq st s1 _ h1), pure_eq, h0, h.1]
  | isScalarType =>
    obtain ⟨s1, h1, hl1⟩ := peek_total st hlex
    simp only [Call.direct, Option.some.injEq, Prod.mk.injEq] at h
    refine ⟨s1, ?_, hl1⟩
    show (tokenizer_t.isScalarType >>= fun b => pure (Ret.bool b)) st = _
    rw [bind_ok _ _ _ _ _ (isScalarType_eq st s1 _ h1), pure_eq, h0, h.1]
  | isVectorType =>
    obtain ⟨s1, h1, hl1⟩ := peek_total st hlex
    simp only [Call.direct, Option.some.injEq, Prod.mk.injEq] at h
    refine ⟨s1, ?_, hl1⟩
    show (tokenizer_t.isVectorType >>= fun b => pure (Ret.bool b)) st = _
    rw [bind_ok _ _ _ _ _ (isVectorType_eq st s1 _ h1), pure_eq, h0, h.1]

theorem calls_direct (E : Env) (s : Nat → token) :
    ∀ (cs : List Call) (st st' : State) (rs : List Ret) (n : Nat),
      calls E cs st = .ok rs st' → (∀ i, stream st i = s (i + n)) →
      ∃ n', directCalls s n cs = some (rs, n') ∧ n ≤ n' ∧ ∀ i, stream st' i = s (i + n') := by
  intro cs
  induction cs with
  | nil =>
    intro st st' rs n h hs
    cases h
    exact ⟨n, rfl, le_refl _, hs⟩
  | cons c cs ih =>
    intro st st' rs n h hs
    have h' : (c.run E >>= fun r => calls E cs >>= fun rs => pure (r :: rs)) st
        = .ok rs st' := h
    obtain ⟨r, s1, h1, h2⟩ := bind_ok_inv _ _ _ _ _ h'
    obtain ⟨rs1, s2, h3, h4⟩ := bind_ok_inv _ _ _ _ _ h2
    obtain ⟨n1, hd1, hle1, hs1⟩ := run_direct E c st s1 r h1 s n hs
    obtain ⟨n2, hd2, hle2, hs2⟩ := ih s1 s2 rs1 n1 h3 hs1
    cases h4
    refine ⟨n2, ?_, le_trans hle1 hle2, hs2⟩
    simp only [directCalls, hd1, hd2]

theorem calls_total (E : Env) (s : Nat → token) :
    ∀ (cs : List Call) (st : State) (rs : List Ret) (n n' : Nat),
      (∀ l ∈ st.input, l.isToken = true) → (∀ i, stream st i = s (i + n)) →
      directCalls s n cs = some (rs, n') → ∃ st', calls E cs st = .ok rs st' := by
  intro cs
  induction cs with
  | nil =>
    intro st rs n n' _ _ h
    simp only [directCalls, Option.some.injEq, Prod.mk.injEq] at h
    exact ⟨st, by rw [← h.1]; rfl⟩
  | cons c cs ih =>
    intro st rs n n' hlex hs h
    simp only [directCalls] at h
    cases hd : c.direct s n with
    | none =>
      rw [hd] at h
      cases h
    | some p =>
      obtain ⟨r, n1⟩ := p
      rw [hd] at h
      dsimp only at h
      cases hd2 : directCalls s n1 cs with
      | none =>
        rw [hd2] at h
        cases h
      | some q =>
        obtain ⟨rs1, n2⟩ := q
        rw [hd2] at h
        simp only [Option.some.injEq, Prod.mk.injEq] at h
        obtain ⟨s1, h1, hl1⟩ := run_total E c st hlex s n n1 r hs hd
        obtain ⟨n1', hd1', _, hs1⟩ := run_direct E c st s1 r h1 s n hs
        rw [hd] at hd1'
        simp only [Option.some.injEq, Prod.mk.injEq, true_and] at hd1'
        subst hd1'
        obtain ⟨s2, h2⟩ := ih s1 rs1 n1 n2 hl1 hs1 hd2
        refine ⟨s2, ?_⟩
        show (c.run E >>= fun r => calls E cs >>= fun rs => pure (r :: rs)) st = _
        rw [bind_ok _ _ _ _ _ h1, bind_ok _ _ _ _ _ h2, pure_eq, h.1]

/-- C27 (one-token lookahead is transparent): whenever a sequence of calls
of `operator*`, `peek`, `consumeIf`, `ensure`, `empty`, `isType`,
`isScalarType` and `isVectorType` returns, the calls returned what reading
without lookahead returns on the tokens ahead at the start, `n` tokens were
consumed, and the tokens ahead afterwards are those from position `n` on:
none is skipped and none is read twice. In reading without lookahead
`peek` returns the token the next consuming read returns, and
`consumeIf(e)` consumes a token exactly when the next token is `e`. On a
text the lexer reads without a `LexException` the sequence of calls returns
whenever reading without lookahead does (that is, unless an `ensure` finds
another token than its own). -/
theorem lookahead_transparent (E : Env) (cs : List Call) (st : State) :
    (∀ rs st', calls E cs st = .ok rs st' →
        ∃ n, directCalls (stream st) 0 cs = some (rs, n)
          ∧ ∀ i, stream st' i = stream st (i + n))
      ∧ ((∀ l ∈ st.input, l.isToken = true) → ∀ rs n,
          directCalls (stream st) 0 cs = some (rs, n) →
          ∃ st', calls E cs st = .ok rs st') := by
  constructor
  · intro rs st' h
    obtain ⟨n, hd, _, hs⟩ := calls_direct E (stream st) cs st st' rs 0 h (fun i => rfl)
    exact ⟨n, hd, hs⟩
  · intro hlex rs n h
    exact calls_total E (stream st) cs st rs 0 n hlex (fun i => rfl) h

theorem lookahead_transparent_witness :
    (∃ n, directCalls (stream (exStart exUgtTokens)) 0
          [.peek, .consumeIf .RPAREN, .isType, .ensure .LPAREN, .peek, .consumeIf .UGT,
            .operator_star, .empty]
        = some ([.tok .LPAREN, .bool false, .bool false, .void, .tok .UGT, .bool true,
            .tok .LPAREN, .bool false], n)
      ∧ ∀ i, stream ⟨exUgtTokens.drop 4, ⟨0, ""⟩, 1, ⟨.VAR, true⟩, [], 0⟩ i
          = stream (exStart exUgtTokens) (i + n))
      ∧ ∃ st', calls exEnv [.peek, .consumeIf .RPAREN, .isType, .ensure .LPAREN, .peek,
          .consumeIf .UGT, .operator_star, .empty] (exStart exUgtTokens)
        = .ok [.tok .LPAREN, .bool false, .bool false, .void, .tok .UGT, .bool true,
            .tok .LPAREN, .bool false] st' :=
  ⟨(lookahead_transparent exEnv _ (exStart exUgtTokens)).1 _ _ (by decide),
   (lookahead_transparent exEnv _ (exStart exUgtTokens)).2 (by decide) _ 3 (by decide)⟩

end parse

/-! ## The parentheses of a production -/

namespace parse

/-- C28 (a production consumes one balanced group) fails for `shuffle` and
`blend`: `parse_shuffle` returns right after the mask, without the
`ensure(RPAREN)` that `parse_extractelement` and `parse_insertelement` make
at the same place. On the tokens of
`(shuffle <4 x i32> (var i32 %x) (const i32 255))` and of
`(blend <4 x i32> (var i32 %x) (var i32 %y) (const i32 255))` the call of
`parse_expr` returns with the closing parenthesis of the group still to be
read, where on `(extractelement i32 (var i32 %x) (const i32 255))` it
returns with nothing left; and with the shuffle as the first operand of an
addition, the call for the second operand finds that parenthesis in place
of its sibling, throws `expected token: LPAREN, got: RPAREN`, and `parse`
ends the process with exit status 1. -/
theorem parse_shuffle_unbalanced :
    Parser.parse_expr exEnv 2 (exStart exShuffleTokens)
        = .ok 2 ⟨[lexeme .RPAREN], ⟨0, ""⟩, 1, ⟨.INT_TYPE, false⟩,
            [(0, .Var (.argument .VF 0 i32)),
             (1, .ReservedConst (type.Scalar 32 false) (some (.constantInt i32 255))),
             (2, .FakeShuffleInst 0 none 1 ((type.Scalar 32 false).getAsVector 4))], 3⟩
      ∧ Parser.parse_expr exEnv 2 (exStart exBlendTokens)
        = .ok 3 ⟨[lexeme .RPAREN], ⟨0, ""⟩, 1, ⟨.INT_TYPE, false⟩,
            [(0, .Var (.argument .VF 0 i32)),
             (1, .Var (.argument .VF 1 i32)),
             (2, .ReservedConst (type.Scalar 32 false) (some (.constantInt i32 255))),
             (3, .FakeShuffleInst 0 (some 1) 2 ((type.Scalar 32 false).getAsVector 4))], 4⟩
      ∧ Parser.parse_expr exEnv 2 (exStart exExtractTokens)
        = .ok 2 ⟨[], ⟨0, ""⟩, 1, ⟨.INT_TYPE, false⟩,
            [(0, .Var (.argument .VF 0 i32)),
             (1, .ReservedConst (type.Scalar 32 false) (some (.constantInt i32 255))),
             (2, .ExtractElement 0 1 (type.Scalar 32 false))], 3⟩
      ∧ Parser.parse_expr exEnv 3 (exStart exShuffleOperandTokens)
        = .exception ⟨"expected token: LPAREN, got: RPAREN", 1⟩
      ∧ Parser.parse exEnv exParseF (exStart exShuffleOperandTokens) = .exit 1 := by
  decide

end parse

/-! ## The type annotation of a variable -/

namespace parse

/-- C31 (the annotation of `var` is not used): let the tokens read be
`LPAREN`, `VAR`, a type annotation that `parse_type` parses into any type
`ty`, `REGISTER` and `RPAREN`, and let the register text without its first
character name the value `LV` in the symbol table of `F`, whatever that
table holds (`LV` may be an argument, a basic block or an instruction).
Then `parse_expr` returns a new `Var` node made from `LV` alone, appended to
`exprs`; `ty` occurs nowhere in the result, no exception is thrown and no
error is reported, whatever `ty` and the type of `LV` are. The type of a
`Var` made from `LV` is the type of `LV`. -/
theorem parse_var_annotation_unused (E : Env) (fuel : Nat) (st s0 s1 s2 s3 s4 : State)
    (ty : type) (LV : Value)
    (hlp : tokenizer_t.operator_star st = .ok .LPAREN s0)
    (hvar : tokenizer_t.operator_star s0 = .ok .VAR s1)
    (hty : parse_type E s1 = .ok ty s2)
    (hreg : tokenizer_t.operator_star s2 = .ok .REGISTER s3)
    (hrp : tokenizer_t.operator_star s3 = .ok .RPAREN s4)
    (hl : E.lookup (erase_begin s3.yylval.str) = some LV) :
    Parser.parse_expr E (fuel + 1) st
        = .ok s4.heap
            { s4 with
              exprs := s4.exprs ++ [(s4.heap, .Var LV)]
              heap := s4.heap + 1 }
      ∧ (Inst.Var LV).getType = some LV.getType := by
  refine ⟨?_, rfl⟩
  unfold Parser.parse_expr
  rw [bind_ok _ _ _ _ _ (ensure_ok E _ _ _ hlp), bind_ok _ _ _ _ _ hvar]
  show Parser.parse_var E s1 = _
  unfold Parser.parse_var
  rw [bind_ok _ _ _ _ _ hty, bind_ok _ _ _ _ _ (ensure_ok E _ _ _ hreg),
    bind_ok _ _ _ _ _ (yylval_eq s3), bind_ok _ _ _ _ _ (ensure_ok E _ _ _ hrp)]
  simp only [hl]
  rw [bind_ok _ _ _ _ _ (make_unique_eq _ _), bind_ok _ _ _ _ _ (emplace_back_eq _ _)]
  rfl

theorem parse_var_annotation_unused_witness :
    (Parser.parse_expr exEnv 1 (exStart exVarMismatchTokens)
        = .ok 0 ⟨[], ⟨0, ""⟩, 1, ⟨.INT_TYPE, false⟩, [(0, .Var (.argument .VF 0 i32))], 1⟩
      ∧ (Inst.Var (.argument .VF 0 i32)).getType = some i32)
    ∧ (Parser.parse_expr exEnv 1 (exStart exVarBlockTokens)
        = .ok 0 ⟨[], ⟨0, ""⟩, 1, ⟨.INT_TYPE, false⟩, [(0, .Var (.basicBlock .VF 0))], 1⟩
      ∧ (Inst.Var (.basicBlock .VF 0)).getType = some .label) :=
  ⟨parse_var_annotation_unused exEnv 0 (exStart exVarMismatchTokens)
      ⟨exVarMismatchTokens.drop 1, ⟨0, ""⟩, 1, ⟨.END, false⟩, [], 0⟩
      ⟨exVarMismatchTokens.drop 2, ⟨0, ""⟩, 1, ⟨.END, false⟩, [], 0⟩
      ⟨exVarMismatchTokens.drop 3, ⟨64, ""⟩, 1, ⟨.INT_TYPE, false⟩, [], 0⟩
      ⟨exVarMismatchTokens.drop 4, ⟨0, "%x"⟩, 1, ⟨.INT_TYPE, false⟩, [], 0⟩
      ⟨[], ⟨0, ""⟩, 1, ⟨.INT_TYPE, false⟩, [], 0⟩
      (type.Scalar 64 false) (.argument .VF 0 i32)
      (by decide) (by decide) (by decide) (by decide) (by decide) (by decide),
   parse_var_annotation_unused exEnv 0 (exStart exVarBlockTokens)
      ⟨exVarBlockTokens.drop 1, ⟨0, ""⟩, 1, ⟨.END, false⟩, [], 0⟩
      ⟨exVarBlockTokens.drop 2, ⟨0, ""⟩, 1, ⟨.END, false⟩, [], 0⟩
      ⟨exVarBlockTokens.drop 3, ⟨32, ""⟩, 1, ⟨.INT_TYPE, false⟩, [], 0⟩
      ⟨exVarBlockTokens.drop 4, ⟨0, "%entry"⟩, 1, ⟨.INT_TYPE, false⟩, [], 0⟩
      ⟨[], ⟨0, ""⟩, 1, ⟨.INT_TYPE, false⟩, [], 0⟩
      (type.Scalar 32 false) (.basicBlock .VF 0)
      (by decide) (by decide) (by decide) (by decide) (by decide) (by decide)⟩

end parse

/-! ## What follows the first expression is not read -/

namespace parse

theorem extend_nil (st : State) : extend [] st = st := by
  rcases st with ⟨input, v, l, tk, exprs, heap⟩
  simp [extend]

theorem pending_extend (extra : List Lexeme) (st : State) :
    pending st ≤ pending (extend extra st) := by
  rcases st with ⟨input, v, l, tk, exprs, heap⟩
  simp only [pending, extend, List.length_append]
  omega

theorem extends_bind {α β : Type} {extra : List Lexeme} {m m' : M α} {f f' : α → M β}
    (hm : Extends extra m m') (hf : ∀ a, Extends extra (f a) (f' a)) :
    Extends extra (m >>= f) (m' >>= f') := by
  intro st b st' h
  obtain ⟨a, s1, h1, h2⟩ := bind_ok_inv _ _ _ _ _ h
  rw [bind_ok _ _ _ _ _ (hm st a s1 h1)]
  exact hf a s1 b st' h2

theorem extends_pure {α : Type} (extra : List Lexeme) (a : α) :
    Extends extra (pure a : M α) (pure a) := by
  intro st b st' h
  cases h
  rfl

theorem extends_UNREACHABLE {α : Type} (extra : List Lexeme) :
    Extends extra (UNREACHABLE : M α) UNREACHABLE := by
  intro st b st' h
  cases h

theorem extends_report_fatal_error {α : Type} (extra : List Lexeme) (msg : String) :
    Extends extra (report_fatal_error msg : M α) (report_fatal_error msg) := by
  intro st b st' h
  cases h

theorem extends_ite {α : Type} {extra : List Lexeme} {c : Prop} [Decidable c]
    {m1 m1' m2 m2' : M α} (h1 : Extends extra m1 m1') (h2 : Extends extra m2 m2') :
    Extends extra (if c then m1 else m2) (if c then m1' else m2') := by
  split
  · exact h1
  · exact h2

theorem extends_yylval (extra : List Lexeme) : Extends extra yylval yylval := by
  intro st b st' h
  rcases st with ⟨input, v, l, tk, exprs, heap⟩
  cases h
  rfl

theorem extends_make_unique (extra : List Lexeme) (n : Expr) :
    Extends extra (make_unique n) (make_unique n) := by
  intro st b st' h
  rcases st with ⟨input, v, l, tk, exprs, heap⟩
  cases h
  rfl

theorem extends_emplace_back (extra : List Lexeme) (p : Addr × Expr) :
    Extends extra (emplace_back p) (emplace_back p) := by
  intro st b st' h
  rcases st with ⟨input, v, l, tk, exprs, heap⟩
  cases h
  rfl

theorem extends_switch {α : Type} (extra : List Lexeme) (o : Option α) :
    Extends extra (switch o) (switch o) := by
  cases o
  · exact extends_UNREACHABLE extra
  · exact extends_pure extra _

theorem extends_emplace (extra : List Lexeme) (e : Expr) :
    Extends extra
      (do
        let T ← make_unique e
        emplace_back T
        pure T.1 : M Addr)
      (do
        let T ← make_unique e
        emplace_back T
        pure T.1 : M Addr) :=
  extends_bind (extends_make_unique extra _)
    (fun _ => extends_bind (extends_emplace_back extra _) (fun _ => extends_pure extra _))

/-- A read that delivers a token other than `END` delivers the same token
when the text goes on. -/
theorem operator_star_extend (extra : List Lexeme) (st st' : State) (t : token)
    (h : tokenizer_t.operator_star st = .ok t st') (ht : t ≠ .END) :
    tokenizer_t.operator_star (extend extra st) = .ok t (extend extra st') := by
  rcases st with ⟨input, v, l, ⟨last, returned⟩, exprs, heap⟩
  cases returned
  · cases input with
    | nil =>
      cases h
      exact absurd rfl ht
    | cons x rest =>
      cases x with
      | token t2 v2 l2 =>
        cases h
        rfl
      | LexException s l2 => cases h
  · cases h
    rfl

theorem peek_extend (extra : List Lexeme) (st st' : State) (t : token)
    (h : tokenizer_t.peek st = .ok t st') (ht : t ≠ .END) :
    tokenizer_t.peek (extend extra st) = .ok t (extend extra st') := by
  rcases st with ⟨input, v, l, ⟨last, returned⟩, exprs, heap⟩
  cases returned
  · cases input with
    | nil =>
      cases h
      exact absurd rfl ht
    | cons x rest =>
      cases x with
      | token t2 v2 l2 =>
        cases h
        rfl
      | LexException s l2 => cases h
  · cases h
    rfl

theorem extends_operator_star_bind {α : Type} {extra : List Lexeme} {k k' : token → M α}
    (hend : ∀ st a st', k .END st ≠ .ok a st') (hk : ∀ t, Extends extra (k t) (k' t)) :
    Extends extra (tokenizer_t.operator_star >>= k) (tokenizer_t.operator_star >>= k') := by
  intro st b st' h
  obtain ⟨t, s1, h1, h2⟩ := bind_ok_inv _ _ _ _ _ h
  have ht : t ≠ .END := by
    rintro rfl
    exact hend s1 b st' h2
  rw [bind_ok _ _ _ _ _ (operator_star_extend extra st s1 t h1 ht)]
  exact hk t s1 b st' h2

theorem extends_peek_bind {α : Type} {extra : List Lexeme} {k k' : token → M α}
    (hend : ∀ st a st', k .END st ≠ .ok a st') (hk : ∀ t, Extends extra (k t) (k' t)) :
    Extends extra (tokenizer_t.peek >>= k) (tokenizer_t.peek >>= k') := by
  intro st b st' h
  obtain ⟨t, s1, h1, h2⟩ := bind_ok_inv _ _ _ _ _ h
  have ht : t ≠ .END := by
    rintro rfl
    exact hend s1 b st' h2
  rw [bind_ok _ _ _ _ _ (peek_extend extra st s1 t h1 ht)]
  exact hk t s1 b st' h2

theorem extends_ensure (extra : List Lexeme) (E : Env) (e : token) (he : e ≠ .END) :
    Extends extra (tokenizer_t.ensure E e) (tokenizer_t.ensure E e) := by
  intro st a st' h
  have h0 := h
  unfold tokenizer_t.ensure at h0
  obtain ⟨t, s1, h1, h2⟩ := bind_ok_inv _ _ _ _ _ h0
  rw [ensure_eq E e t st s1 h1] at h
  by_cases hte : t = e
  · rw [if_pos hte] at h
    injection h with _ hs
    subst hte
    rw [← hs]
    exact ensure_ok E t _ _ (operator_star_extend extra st s1 t h1 he)
  · rw [if_neg hte] at h
    cases h

theorem extends_parse_scalar_type (extra : List Lexeme) (E : Env) :
    Extends extra (parse_scalar_type E) (parse_scalar_type E) := by
  unfold parse_scalar_type
  refine extends_peek_bind (fun st a st' h => by cases h) (fun t => ?_)
  cases t <;> first
    | exact extends_UNREACHABLE extra
    | exact extends_bind (extends_ensure extra E _ (by decide)) (fun _ => extends_pure extra _)
    | exact extends_bind (extends_ensure extra E _ (by decide))
        (fun _ => extends_bind (extends_yylval extra) (fun _ => extends_pure extra _))

theorem extends_parse_vector_type (extra : List Lexeme) (E : Env) :
    Extends extra (parse_vector_type E) (parse_vector_type E) := by
  unfold parse_vector_type
  refine extends_bind (extends_ensure extra E _ (by decide)) (fun _ => ?_)
  refine extends_bind (extends_yylval extra) (fun _ => ?_)
  refine extends_bind (extends_parse_scalar_type extra E) (fun _ => ?_)
  exact extends_bind (extends_ensure extra E _ (by decide)) (fun _ => extends_pure extra _)

theorem extends_parse_type (extra : List Lexeme) (E : Env) :
    Extends extra (parse_type E) (parse_type E) := by
  intro st ty st' h
  unfold parse_type at h
  obtain ⟨b, s1, hb, h2⟩ := bind_ok_inv _ _ _ _ _ h
  have hb0 := hb
  unfold tokenizer_t.isScalarType at hb0
  obtain ⟨t, sA, hp, _⟩ := bind_ok_inv _ _ _ _ _ hb0
  rw [isScalarType_eq st sA t hp] at hb
  injection hb with hb1 hb2
  rw [← hb1, ← hb2] at h2
  have hv := isVectorType_eq sA sA t (peek_idem st sA t hp)
  have hne : t ≠ .END := by
    rintro rfl
    rw [if_neg (by decide), bind_ok _ _ _ _ _ hv] at h2
    cases h2
  have hp' := peek_extend extra st sA t hp hne
  have hv' := isVectorType_eq (extend extra sA) (extend extra sA) t
    (peek_idem _ _ t hp')
  unfold parse_type
  rw [bind_ok _ _ _ _ _ (isScalarType_eq _ _ t hp')]
  by_cases hs : (t == token.INT_TYPE || t == token.FLOAT || t == token.DOUBLE
      || t == token.HALF || t == token.FP128) = true
  · rw [if_pos hs] at h2 ⊢
    exact extends_parse_scalar_type extra E sA ty st' h2
  · rw [if_neg hs] at h2 ⊢
    rw [bind_ok _ _ _ _ _ hv] at h2
    rw [bind_ok _ _ _ _ _ hv']
    by_cases hvec : (t == token.VECTOR_TYPE_PREFIX) = true
    · rw [if_pos hvec] at h2 ⊢
      exact extends_parse_vector_type extra E sA ty st' h2
    · rw [if_neg hvec] at h2
      cases h2

theorem extends_parse_number (extra : List Lexeme) (E : Env) :
    Extends extra (parse_number E) (parse_number E) := by
  unfold parse_number
  refine extends_bind (extends_ensure extra E _ (by decide)) (fun _ => ?_)
  exact extends_bind (extends_yylval extra) (fun _ => extends_pure extra _)

theorem extends_parse_var (extra : List Lexeme) (E : Env) :
    Extends extra (Parser.parse_var E) (Parser.parse_var E) := by
  unfold Parser.parse_var
  refine extends_bind (extends_parse_type extra E) (fun _ => ?_)
  refine extends_bind (extends_ensure extra E _ (by decide)) (fun _ => ?_)
  refine extends_bind (extends_yylval extra) (fun v => ?_)
  refine extends_bind (extends_ensure extra E _ (by decide)) (fun _ => ?_)
  cases E.lookup (erase_begin v.str) with
  | none => exact extends_report_fatal_error extra _
  | some LV => exact extends_emplace extra _

theorem extends_parse_const (extra : List Lexeme) (E : Env) :
    Extends extra (Parser.parse_const E) (Parser.parse_const E) := by
  unfold Parser.parse_const
  refine extends_bind (extends_parse_type extra E) (fun _ => ?_)
  refine extends_bind (extends_ensure extra E _ (by decide)) (fun _ => ?_)
  refine extends_bind (extends_yylval extra) (fun v => ?_)
  refine extends_bind (extends_ensure extra E _ (by decide)) (fun _ => ?_)
  exact extends_emplace extra _

theorem extends_parse_copy (extra : List Lexeme) (E : Env) :
    Extends extra (Parser.parse_copy E) (Parser.parse_copy E) := by
  unfold Parser.parse_copy
  refine extends_bind (extends_ensure extra E _ (by decide)) (fun _ => ?_)
  refine extends_bind (extends_ensure extra E _ (by decide)) (fun _ => ?_)
  refine extends_bind (extends_parse_const extra E) (fun _ => ?_)
  refine extends_bind (extends_ensure extra E _ (by decide)) (fun _ => ?_)
  exact extends_emplace extra _

theorem extends_parse_shuffle (extra : List Lexeme) (E : Env) (pe pe' : M Addr)
    (hrec : Extends extra pe pe') (op_token : token) :
    Extends extra (Parser.parse_shuffle E pe op_token) (Parser.parse_shuffle E pe' op_token) := by
  unfold Parser.parse_shuffle
  refine extends_bind (extends_parse_vector_type extra E) (fun _ => ?_)
  refine extends_bind hrec (fun _ => ?_)
  refine extends_bind
    (extends_ite (extends_bind hrec (fun _ => extends_pure extra _)) (extends_pure extra _))
    (fun _ => ?_)
  refine extends_bind (extends_ensure extra E _ (by decide)) (fun _ => ?_)
  refine extends_bind (extends_ensure extra E _ (by decide)) (fun _ => ?_)
  refine extends_bind (extends_parse_const extra E) (fun _ => ?_)
  exact extends_emplace extra _

theorem extends_parse_x86 (extra : List Lexeme) (E : Env) (pe pe' : M Addr)
    (hrec : Extends extra pe pe') (ops : String) :
    Extends extra (Parser.parse_x86 E pe ops) (Parser.parse_x86 E pe' ops) := by
  unfold Parser.parse_x86
  refine extends_bind hrec (fun _ => ?_)
  refine extends_bind hrec (fun _ => ?_)
  refine extends_bind (extends_ensure extra E _ (by decide)) (fun _ => ?_)
  exact extends_emplace extra _

theorem extends_parse_unary (extra : List Lexeme) (E : Env) (pe pe' : M Addr)
    (hrec : Extends extra pe pe') (op_token : token) :
    Extends extra (Parser.parse_unary E pe op_token) (Parser.parse_unary E pe' op_token) := by
  unfold Parser.parse_unary
  refine extends_bind (extends_switch extra _) (fun _ => ?_)
  refine extends_bind (extends_parse_type extra E) (fun _ => ?_)
  refine extends_bind hrec (fun _ => ?_)
  refine extends_bind (extends_ensure extra E _ (by decide)) (fun _ => ?_)
  exact extends_emplace extra _

theorem extends_parse_binary (extra : List Lexeme) (E : Env) (pe pe' : M Addr)
    (hrec : Extends extra pe pe') (op_token : token) :
    Extends extra (Parser.parse_binary E pe op_token) (Parser.parse_binary E pe' op_token) := by
  unfold Parser.parse_binary
  refine extends_bind (extends_switch extra _) (fun _ => ?_)
  refine extends_bind (extends_parse_type extra E) (fun _ => ?_)
  refine extends_bind hrec (fun _ => ?_)
  refine extends_bind hrec (fun _ => ?_)
  refine extends_bind (extends_ensure extra E _ (by decide)) (fun _ => ?_)
  exact extends_emplace extra _

theorem extends_parse_icmp (extra : List Lexeme) (E : Env) (pe pe' : M Addr)
    (hrec : Extends extra pe pe') (op_token : token) :
    Extends extra (Parser.parse_icmp E pe op_token) (Parser.parse_icmp E pe' op_token) := by
  unfold Parser.parse_icmp
  refine extends_bind (extends_switch extra _) (fun _ => ?_)
  refine extends_bind hrec (fun _ => ?_)
  refine extends_bind hrec (fun _ => ?_)
  refine extends_bind (extends_parse_number extra E) (fun _ => ?_)
  refine extends_bind (extends_ensure extra E _ (by decide)) (fun _ => ?_)
  exact extends_emplace extra _

theorem extends_parse_fcmp (extra : List Lexeme) (E : Env) (pe pe' : M Addr)
    (hrec : Extends extra pe pe') (op_token : token) :
    Extends extra (Parser.parse_fcmp E pe op_token) (Parser.parse_fcmp E pe' op_token) := by
  unfold Parser.parse_fcmp
  refine extends_bind (extends_switch extra _) (fun _ => ?_)
  refine extends_bind hrec (fun _ => ?_)
  refine extends_bind hrec (fun _ => ?_)
  refine extends_bind (extends_parse_number extra E) (fun _ => ?_)
  refine extends_bind (extends_ensure extra E _ (by decide)) (fun _ => ?_)
  exact extends_emplace extra _

theorem extends_parse_intconv (extra : List Lexeme) (E : Env) (pe pe' : M Addr)
    (hrec : Extends extra pe pe') (op_token : token) :
    Extends extra (Parser.parse_intconv E pe op_token) (Parser.parse_intconv E pe' op_token) := by
  unfold Parser.parse_intconv
  refine extends_bind (extends_switch extra _) (fun _ => ?_)
  refine extends_bind hrec (fun _ => ?_)
  refine extends_bind (extends_parse_type extra E) (fun _ => ?_)
  refine extends_bind (extends_parse_type extra E) (fun _ => ?_)
  refine extends_bind (extends_ensure extra E _ (by decide)) (fun _ => ?_)
  exact extends_emplace extra _

theorem extends_parse_fpconv (extra : List Lexeme) (E : Env) (pe pe' : M Addr)
    (hrec : Extends extra pe pe') (op_token : token) :
    Extends extra (Parser.parse_fpconv E pe op_token) (Parser.parse_fpconv E pe' op_token) := by
  unfold Parser.parse_fpconv
  refine extends_bind (extends_switch extra _) (fun _ => ?_)
  refine extends_bind hrec (fun _ => ?_)
  refine extends_bind (extends_parse_type extra E) (fun _ => ?_)
  refine extends_bind (extends_ensure extra E _ (by decide)) (fun _ => ?_)
  exact extends_emplace extra _

theorem extends_parse_select (extra : List Lexeme) (E : Env) (pe pe' : M Addr)
    (hrec : Extends extra pe pe') :
    Extends extra (Parser.parse_select E pe) (Parser.parse_select E pe') := by
  unfold Parser.parse_select
  refine extends_bind hrec (fun _ => ?_)
  refine extends_bind hrec (fun _ => ?_)
  refine extends_bind hrec (fun _ => ?_)
  refine extends_bind (extends_ensure extra E _ (by decide)) (fun _ => ?_)
  exact extends_emplace extra _

theorem extends_parse_insertelement (extra : List Lexeme) (E : Env) (pe pe' : M Addr)
    (hrec : Extends extra pe pe') :
    Extends extra (Parser.parse_insertelement E pe) (Parser.parse_insertelement E pe') := by
  unfold Parser.parse_insertelement
  refine extends_bind (extends_parse_type extra E) (fun _ => ?_)
  refine extends_bind hrec (fun _ => ?_)
  refine extends_bind hrec (fun _ => ?_)
  refine extends_bind (extends_ensure extra E _ (by decide)) (fun _ => ?_)
  refine extends_bind (extends_ensure extra E _ (by decide)) (fun _ => ?_)
  refine extends_bind (extends_parse_const extra E) (fun _ => ?_)
  refine extends_bind (extends_ensure extra E _ (by decide)) (fun _ => ?_)
  exact extends_emplace extra _

theorem extends_parse_extractelement (extra : List Lexeme) (E : Env) (pe pe' : M Addr)
    (hrec : Extends extra pe pe') :
    Extends extra (Parser.parse_extractelement E pe) (Parser.parse_extractelement E pe') := by
  unfold Parser.parse_extractelement
  refine extends_bind (extends_parse_type extra E) (fun _ => ?_)
  refine extends_bind hrec (fun _ => ?_)
  refine extends_bind (extends_ensure extra E _ (by decide)) (fun _ => ?_)
  refine extends_bind (extends_ensure extra E _ (by decide)) (fun _ => ?_)
  refine extends_bind (extends_parse_const extra E) (fun _ => ?_)
  refine extends_bind (extends_ensure extra E _ (by decide)) (fun _ => ?_)
  exact extends_emplace extra _

/-- A call of `parse_expr` that returns also returns, with the same value,
when the text goes on and when the bound on the nesting depth is larger;
what follows the text is left to be read. -/
theorem extends_parse_expr (extra : List Lexeme) (E : Env) :
    ∀ (fuel fuel' : Nat), fuel ≤ fuel' →
      Extends extra (Parser.parse_expr E fuel) (Parser.parse_expr E fuel') := by
  intro fuel
  induction fuel with
  | zero =>
    intro fuel' _ st a st' h
    cases h
  | succ fuel ih0 =>
    intro fuel' hle
    obtain ⟨fuel2, rfl⟩ : ∃ n, fuel' = n + 1 := ⟨fuel' - 1, by omega⟩
    have ih := ih0 fuel2 (by omega)
    unfold Parser.parse_expr
    refine extends_bind (extends_ensure extra E _ (by decide)) (fun _ => ?_)
    refine extends_operator_star_bind (fun st a st' h => by cases h) (fun t => ?_)
    cases t with
    | END => exact extends_UNREACHABLE extra
    | LPAREN => exact extends_UNREACHABLE extra
    | RPAREN => exact extends_UNREACHABLE extra
    | CSGT => exact extends_UNREACHABLE extra
    | VECTOR_TYPE_PREFIX => exact extends_UNREACHABLE extra
    | INT_TYPE => exact extends_UNREACHABLE extra
    | FLOAT => exact extends_UNREACHABLE extra
    | DOUBLE => exact extends_UNREACHABLE extra
    | HALF => exact extends_UNREACHABLE extra
    | FP128 => exact extends_UNREACHABLE extra
    | REGISTER => exact extends_UNREACHABLE extra
    | BITS => exact extends_UNREACHABLE extra
    | LITERAL => exact extends_UNREACHABLE extra
    | VAR => exact extends_parse_var extra E
    | CONST => exact extends_parse_const extra E
    | COPY => exact extends_parse_copy extra E
    | BITREVERSE => exact extends_parse_unary extra E _ _ ih _
    | BSWAP => exact extends_parse_unary extra E _ _ ih _
    | CTPOP => exact extends_parse_unary extra E _ _ ih _
    | CTLZ => exact extends_parse_unary extra E _ _ ih _
    | CTTZ => exact extends_parse_unary extra E _ _ ih _
    | FNEG => exact extends_parse_unary extra E _ _ ih _
    | FABS => exact extends_parse_unary extra E _ _ ih _
    | FCEIL => exact extends_parse_unary extra E _ _ ih _
    | FFLOOR => exact extends_parse_unary extra E _ _ ih _
    | FRINT => exact extends_parse_unary extra E _ _ ih _
    | FNEARBYINT => exact extends_parse_unary extra E _ _ ih _
    | FROUND => exact extends_parse_unary extra E _ _ ih _
    | FROUNDEVEN => exact extends_parse_unary extra E _ _ ih _
    | FTRUNC => exact extends_parse_unary extra E _ _ ih _
    | BAND => exact extends_parse_binary extra E _ _ ih _
    | BOR => exact extends_parse_binary extra E _ _ ih _
    | BXOR => exact extends_parse_binary extra E _ _ ih _
    | LSHR => exact extends_parse_binary extra E _ _ ih _
    | ASHR => exact extends_parse_binary extra E _ _ ih _
    | SHL => exact extends_parse_binary extra E _ _ ih _
    | ADD => exact extends_parse_binary extra E _ _ ih _
    | SUB => exact extends_parse_binary extra E _ _ ih _
    | MUL => exact extends_parse_binary extra E _ _ ih _
    | SDIV => exact extends_parse_binary extra E _ _ ih _
    | UDIV => exact extends_parse_binary extra E _ _ ih _
    | UMAX => exact extends_parse_binary extra E _ _ ih _
    | UMIN => exact extends_parse_binary extra E _ _ ih _
    | SMAX => exact extends_parse_binary extra E _ _ ih _
    | SMIN => exact extends_parse_binary extra E _ _ ih _
    | FADD => exact extends_parse_binary extra E _ _ ih _
    | FSUB => exact extends_parse_binary extra E _ _ ih _
    | FMUL => exact extends_parse_binary extra E _ _ ih _
    | FDIV => exact extends_parse_binary extra E _ _ ih _
    | FMAXNUM => exact extends_parse_binary extra E _ _ ih _
    | FMINNUM => exact extends_parse_binary extra E _ _ ih _
    | FMAXIMUM => exact extends_parse_binary extra E _ _ ih _
    | FMINIMUM => exact extends_parse_binary extra E _ _ ih _
    | COPYSIGN => exact extends_parse_binary extra E _ _ ih _
    | EQ => exact extends_parse_icmp extra E _ _ ih _
    | NE => exact extends_parse_icmp extra E _ _ ih _
    | ULT => exact extends_parse_icmp extra E _ _ ih _
    | ULE => exact extends_parse_icmp extra E _ _ ih _
    | UGT => exact extends_parse_icmp extra E _ _ ih _
    | UGE => exact extends_parse_icmp extra E _ _ ih _
    | SLT => exact extends_parse_icmp extra E _ _ ih _
    | SLE => exact extends_parse_icmp extra E _ _ ih _
    | SGT => exact extends_parse_icmp extra E _ _ ih _
    | SGE => exact extends_parse_icmp extra E _ _ ih _
    | FCMP_TRUE => exact extends_parse_fcmp extra E _ _ ih _
    | FCMP_OEQ => exact extends_parse_fcmp extra E _ _ ih _
    | FCMP_OGT => exact extends_parse_fcmp extra E _ _ ih _
    | FCMP_OGE => exact extends_parse_fcmp extra E _ _ ih _
    | FCMP_OLT => exact extends_parse_fcmp extra E _ _ ih _
    | FCMP_OLE => exact extends_parse_fcmp extra E _ _ ih _
    | FCMP_ONE => exact extends_parse_fcmp extra E _ _ ih _
    | FCMP_ORD => exact extends_parse_fcmp extra E _ _ ih _
    | FCMP_UEQ => exact extends_parse_fcmp extra E _ _ ih _
    | FCMP_UGT => exact extends_parse_fcmp extra E _ _ ih _
    | FCMP_UGE => exact extends_parse_fcmp extra E _ _ ih _
    | FCMP_ULT => exact extends_parse_fcmp extra E _ _ ih _
    | FCMP_ULE => exact extends_parse_fcmp extra E _ _ ih _
    | FCMP_UNE => exact extends_parse_fcmp extra E _ _ ih _
    | FCMP_UNO => exact extends_parse_fcmp extra E _ _ ih _
    | FCMP_FALSE => exact extends_parse_fcmp extra E _ _ ih _
    | SHUFFLE => exact extends_parse_shuffle extra E _ _ ih _
    | BLEND => exact extends_parse_shuffle extra E _ _ ih _
    | SELECT => exact extends_parse_select extra E _ _ ih
    | INSERTELEMENT => exact extends_parse_insertelement extra E _ _ ih
    | EXTRACTELEMENT => exact extends_parse_extractelement extra E _ _ ih
    | CONV_ZEXT => exact extends_parse_intconv extra E _ _ ih _
    | CONV_SEXT => exact extends_parse_intconv extra E _ _ ih _
    | CONV_TRUNC => exact extends_parse_intconv extra E _ _ ih _
    | CONV_FPTRUNC => exact extends_parse_fpconv extra E _ _ ih _
    | CONV_FPEXT => exact extends_parse_fpconv extra E _ _ ih _
    | CONV_SITOFP => exact extends_parse_fpconv extra E _ _ ih _
    | CONV_UITOFP => exact extends_parse_fpconv extra E _ _ ih _
    | CONV_FPTOSI => exact extends_parse_fpconv extra E _ _ ih _
    | CONV_FPTOUI => exact extends_parse_fpconv extra E _ _ ih _
    | X86BINARY =>
      exact extends_bind (extends_yylval extra)
        (fun v => extends_parse_x86 extra E _ _ ih _)
    | OTHER => exact extends_UNREACHABLE extra

theorem parse_expr_held_END (E : Env) (fuel : Nat) (st : State) (a : Addr) (st' : State)
    (h : st.tokenizer = ⟨.END, true⟩) : Parser.parse_expr E fuel st ≠ .ok a st' := by
  rcases st with ⟨input, v, l, ⟨last, returned⟩, exprs, heap⟩
  simp only [tokenizer_t.mk.injEq] at h
  obtain ⟨rfl, rfl⟩ := h
  cases fuel with
  | zero =>
    intro h
    cases h
  | succ fuel =>
    intro h
    unfold Parser.parse_expr at h
    obtain ⟨_, s1, h1, _⟩ := bind_ok_inv _ _ _ _ _ h
    have hstar : tokenizer_t.operator_star ⟨input, v, l, ⟨.END, true⟩, exprs, heap⟩
        = .ok .END ⟨input, v, l, ⟨.END, false⟩, exprs, heap⟩ := rfl
    rw [ensure_eq E .LPAREN .END _ _ hstar, if_neg (by decide)] at h1
    cases h1

/-- C32 (trailing input): whenever `parse` returns on a text, it returns
the same list on that text followed by any further lexemes `extra`, the
list holds exactly one candidate, with the position arguments 0 and 0, and
the state after the call is the one after the call on the text alone with
`extra` still to be read: what follows the first expression is neither
read, nor rejected, nor parsed. -/
theorem parse_ignores_trailing (E : Env) (F : Function) (st st' : State)
    (rewrites : List Rewrite) (extra : List Lexeme)
    (h : Parser.parse E F st = .returned rewrites st') :
    Parser.parse E F (extend extra st) = .returned rewrites (extend extra st')
      ∧ ∃ I, rewrites = [⟨I, 0, 0⟩] := by
  unfold Parser.parse at h
  cases he : tokenizer_t.empty st with
  | ok b st1 =>
    rw [he] at h
    dsimp only at h
    cases hpe : Parser.parse_expr E (pending st1 + 1) st1 with
    | ok I st2 =>
      rw [hpe] at h
      dsimp only at h
      injection h with hr hs
      have he0 := he
      unfold tokenizer_t.empty at he0
      obtain ⟨t, sA, hp, hpure⟩ := bind_ok_inv _ _ _ _ _ he0
      injection hpure with hb hsA
      have hne : t ≠ .END := by
        rintro rfl
        have htk := (peek_stream st sA .END hp).2.2
        rw [hsA] at htk
        exact parse_expr_held_END E _ st1 I st2 htk hpe
      have hp' := peek_extend extra st sA t hp hne
      have he' : tokenizer_t.empty (extend extra st) = .ok b (extend extra st1) := by
        unfold tokenizer_t.empty
        rw [bind_ok _ _ _ _ _ hp', ← hb, ← hsA]
        rfl
      have hpe' := extends_parse_expr extra E (pending st1 + 1)
        (pending (extend extra st1) + 1) (Nat.succ_le_succ (pending_extend extra st1))
        st1 I st2 hpe
      refine ⟨?_, I, hr.symm⟩
      unfold Parser.parse
      rw [he']
      dsimp only
      rw [hpe', ← hr, ← hs]
    | exception e =>
      rw [hpe] at h
      cases h
    | fatal msg =>
      rw [hpe] at h
      cases h
    | unreachable =>
      rw [hpe] at h
      cases h
    | outOfFuel =>
      rw [hpe] at h
      cases h
  | exception e =>
    rw [he] at h
    cases h
  | fatal msg =>
    rw [he] at h
    cases h
  | unreachable =>
    rw [he] at h
    cases h
  | outOfFuel =>
    rw [he] at h
    cases h

theorem parse_ignores_trailing_witness :
    Parser.parse exEnv exParseF
        (extend [lexeme .RPAREN, lexeme .LPAREN, lexeme .VAR] (exStart exUgtTokens))
        = .returned [⟨2, 0, 0⟩]
            (extend [lexeme .RPAREN, lexeme .LPAREN, lexeme .VAR]
              ⟨[], ⟨0, ""⟩, 1, ⟨.INT_TYPE, false⟩,
                [(0, .Var (.argument .VF 0 i32)), (1, .Var (.argument .VF 1 i32)),
                 (2, .ICmp .ugt 0 1 1)], 3⟩)
      ∧ ∃ I, [(⟨2, 0, 0⟩ : Rewrite)] = [⟨I, 0, 0⟩] :=
  parse_ignores_trailing exEnv exParseF (exStart exUgtTokens) _ _ _ (by decide)

end parse

end minotaur
